import Mathlib

/-!
# metastrip: PNG and JPEG container parsers

A shallow embedding of `png/png.go` and `jpg/jpg.go`.

* A byte is a `Nat` (a well-formed file holds values below 256).
* `int64` values are `Int`.  Every quantity the parsers compute is bounded by the file
  length plus `2 ^ 40`, so no `int64` operation wraps on a file a machine can hold.
* `*os.File` on a regular file is `OsFile`: the content plus the kernel cursor.  The
  descriptors' back pointer `file` is the one shared handle, so the handle is passed
  explicitly to every operation that uses it.
* `os.Open` is assumed to succeed: `Open` takes the content of the file.
* A Go runtime panic (nil pointer dereference, index out of range) is `Outcome.panic`.
* Loops carry a fuel argument; `Outcome.outOfFuel` is what a loop gives when the fuel is
  used up.  The entry points pass the length of the file plus one (`CopyFile`: the byte
  count plus one), one unit for every iteration the loop can make.
-/

/-- Go `error` values the two packages can return. -/
inductive Error where
  /-- Value `io.EOF`: a read at or past the end of the file. -/
  | EOF
  /-- Seek to a negative offset. -/
  | EINVAL
  /-- Value `io.ErrShortWrite`: the sink accepted fewer bytes than offered. -/
  | ErrShortWrite
  /-- Message "file does not containt a PNG signature". -/
  | badSignature
  /-- Message "incorrect IHDR chunk: ...". -/
  | badIHDR
  /-- Message "data left after the last read ... chunk. Seek offset ...". -/
  | dataLeft
  /-- Message "chunk doesn't start with 0xff". -/
  | noFF
  /-- Message "incorrect JPG header: ...". -/
  | badSOI
  deriving DecidableEq, Repr

/-- Result of running a Go function: it returns, or the runtime panics, or the model's
fuel ran out. -/
inductive Outcome (α : Type) where
  | ret (a : α)
  | panic
  | outOfFuel
  deriving DecidableEq, Repr

/-- An `*os.File` opened on a regular file: content and cursor. -/
structure OsFile where
  data : List Nat
  pos : Nat
  deriving DecidableEq, Repr

/-- Constant `os.SEEK_SET`. -/
abbrev SEEK_SET : Nat := 0
/-- Constant `os.SEEK_CUR`. -/
abbrev SEEK_CUR : Nat := 1
/-- Constant `os.SEEK_END`. -/
abbrev SEEK_END : Nat := 2

/-- Method `(*os.File).Read` with a buffer of `n` bytes: the bytes read (their number is
Go's `n` result) and the error.  At end of file a non-empty read gives `0, io.EOF`;
otherwise it gives as many bytes as remain, up to `n`, and no error. -/
def OsFile.Read (f : OsFile) (n : Nat) : OsFile × List Nat × Option Error :=
  if n = 0 then (f, [], none)
  else
    match f.data.drop f.pos with
    | [] => (f, [], some Error.EOF)
    | b :: bs => (⟨f.data, f.pos + ((b :: bs).take n).length⟩, (b :: bs).take n, none)

/-- Method `(*os.File).Seek`: the new offset, or an error (offset result 0) when the
target is negative.  Seeking past the end of the file is allowed. -/
def OsFile.Seek (f : OsFile) (offset : Int) (whence : Nat) : OsFile × Int × Option Error :=
  match whence with
  | 0 => if offset < 0 then (f, 0, some Error.EINVAL) else (⟨f.data, offset.toNat⟩, offset, none)
  | 1 =>
    if (f.pos : Int) + offset < 0 then (f, 0, some Error.EINVAL)
    else (⟨f.data, ((f.pos : Int) + offset).toNat⟩, (f.pos : Int) + offset, none)
  | 2 =>
    if (f.data.length : Int) + offset < 0 then (f, 0, some Error.EINVAL)
    else (⟨f.data, ((f.data.length : Int) + offset).toNat⟩, (f.data.length : Int) + offset, none)
  | _ => (f, 0, some Error.EINVAL)

/-- An `io.Writer`: the bytes accepted so far and the room left (`none`: unbounded, as a
buffer or a file on a disk with space).  -/
structure Sink where
  out : List Nat
  room : Option Nat
  deriving DecidableEq, Repr

/-- Method `Write` of `io.Writer`: accepts the bytes that fit and, as the interface
requires, returns a non-nil error when it accepted fewer than offered. -/
def Sink.Write (w : Sink) (p : List Nat) : Sink × Nat × Option Error :=
  match w.room with
  | none => (⟨w.out ++ p, none⟩, p.length, none)
  | some r =>
    if p.length ≤ r then (⟨w.out ++ p, some (r - p.length)⟩, p.length, none)
    else (⟨w.out ++ p.take r, some 0⟩, r, some Error.ErrShortWrite)

/-- An empty sink without bound. -/
def Sink.empty : Sink := ⟨[], none⟩

/-- The `for ; len > 0; len -= blockSize` loop of `CopyFile` (the same text in png.go and
jpg.go). -/
def copyLoop : Nat → OsFile → Sink → Int → Int → Outcome (OsFile × Sink × Option Error)
  | 0, _, _, _, _ => Outcome.outOfFuel
  | fuel + 1, src, dst, len, blockSize =>
    if len > 0 then
      let blockSize := if len < blockSize then len else blockSize
      match src.Read blockSize.toNat with
      | (src1, _, some e) => Outcome.ret (src1, dst, some e)
      | (src1, b, none) =>
        match dst.Write b with
        | (dst1, _, some e) => Outcome.ret (src1, dst1, some e)
        | (dst1, _, none) => copyLoop fuel src1 dst1 (len - blockSize) blockSize
    else Outcome.ret (src, dst, none)

namespace png

/-- Variable `pngSig`. -/
def pngSig : List Nat := [137, 80, 78, 71, 13, 10, 26, 10]

/-- The string "IHDR" as bytes. -/
def IHDR : List Nat := [73, 72, 68, 82]

/-- The string "IEND" as bytes. -/
def IEND : List Nat := [73, 69, 78, 68]

/-- Struct `chunkHeader` (field `Type` is `Typ`, the four bytes of the string). -/
structure chunkHeader where
  Typ : List Nat
  Len : Int
  DataOffset : Int
  deriving DecidableEq, Repr

/-- Struct `File`: the open handle and the chunks. -/
structure File where
  file : OsFile
  Chunks : List chunkHeader
  deriving DecidableEq, Repr

/-- Function `CopyFile`. -/
def CopyFile (src : OsFile) (dst : Sink) (len : Int) : Outcome (OsFile × Sink × Option Error) :=
  copyLoop (len.toNat + 1) src dst len 1024

/-- Method `chunkHeader.WriteTo`, on the shared handle `file`. -/
def WriteTo (c : chunkHeader) (file : OsFile) (w : Sink) :
    Outcome (OsFile × Sink × Option Error) :=
  match file.Seek (c.DataOffset - 8) SEEK_SET with
  | (f1, _, some e) => Outcome.ret (f1, w, some e)
  | (f1, _, none) => CopyFile f1 w (c.Len + 12)

/-- Function `WriteSignatureTo`. -/
def WriteSignatureTo (w : Sink) : Sink × Option Error :=
  match w.Write pngSig with
  | (w1, _, err) => (w1, err)

/-- Function `checkSignature`. -/
def checkSignature (f : OsFile) : OsFile × Option Error :=
  match f.Read 8 with
  | (f1, _, some e) => (f1, some e)
  | (f1, b, none) =>
    if b.length ≠ 8 then (f1, none)
    else if b ≠ pngSig then (f1, some Error.badSignature)
    else (f1, none)

/-- Function `readChunkHeader`: a nil pointer is `none`.  A short read without an error
returns `nil, nil`. -/
def readChunkHeader (f : OsFile) : OsFile × Option chunkHeader × Option Error :=
  match f.Read 4 with
  | (f1, [b0, b1, b2, b3], none) =>
    match f1.Read 4 with
    | (f2, [t0, t1, t2, t3], none) =>
      match f2.Seek 0 SEEK_CUR with
      | (f3, _, some e) => (f3, none, some e)
      | (f3, off, none) =>
        (f3, some ⟨[t0, t1, t2, t3], (((b0 <<< 32) + (b1 <<< 16) + (b2 <<< 8) + b3 : Nat) : Int), off⟩, none)
    | (f2, _, err) => (f2, none, err)
  | (f1, _, err) => (f1, none, err)

/-- Function `skipChunk`. -/
def skipChunk (f : OsFile) (c : chunkHeader) : OsFile × Option Error :=
  match f.Seek (c.Len + 4) SEEK_CUR with
  | (f1, _, err) => (f1, err)

/-- Function `parseChunk`: returns the record and the error; `skipChunk` dereferences the
pointer it got from `readChunkHeader`. -/
def parseChunk (p : File) : Outcome (File × Option Error) :=
  match readChunkHeader p.file with
  | (f1, _, some e) => Outcome.ret (⟨f1, p.Chunks⟩, some e)
  | (_, none, none) => Outcome.panic
  | (f1, some c, none) =>
    match skipChunk f1 c with
    | (f2, some e) => Outcome.ret (⟨f2, p.Chunks⟩, some e)
    | (f2, none) => Outcome.ret (⟨f2, p.Chunks ++ [c]⟩, none)

/-- The end of `Open` (png.go lines 101-114): compare the cursor with the end of file. -/
def finish (p : File) : Outcome (Option File × Option Error) :=
  match p.file.Seek 0 SEEK_CUR with
  | (f1, _, some e) => Outcome.ret (some ⟨f1, p.Chunks⟩, some e)
  | (f1, seekC, none) =>
    match f1.Seek 0 SEEK_END with
    | (f2, _, some e) => Outcome.ret (some ⟨f2, p.Chunks⟩, some e)
    | (f2, seekE, none) =>
      if seekC ≠ seekE then Outcome.ret (some ⟨f2, p.Chunks⟩, some Error.dataLeft)
      else Outcome.ret (some ⟨f2, p.Chunks⟩, none)

/-- The `for` loop of `Open` (png.go lines 90-99) followed by the end of `Open`. -/
def OpenLoop : Nat → File → Outcome (Option File × Option Error)
  | 0, _ => Outcome.outOfFuel
  | fuel + 1, p =>
    match parseChunk p with
    | Outcome.panic => Outcome.panic
    | Outcome.outOfFuel => Outcome.outOfFuel
    | Outcome.ret (p1, some e) => Outcome.ret (some p1, some e)
    | Outcome.ret (p1, none) =>
      match p1.Chunks.getLast? with
      | none => Outcome.panic
      | some c => if c.Typ = IEND then finish p1 else OpenLoop fuel p1

/-- Function `Open`, on the content of the named file. -/
def Open (data : List Nat) : Outcome (Option File × Option Error) :=
  match checkSignature ⟨data, 0⟩ with
  | (_, some e) => Outcome.ret (none, some e)
  | (f1, none) =>
    match parseChunk ⟨f1, []⟩ with
    | Outcome.panic => Outcome.panic
    | Outcome.outOfFuel => Outcome.outOfFuel
    | Outcome.ret (_, some e) => Outcome.ret (none, some e)
    | Outcome.ret (p1, none) =>
      match p1.Chunks.head? with
      | none => Outcome.panic
      | some c0 =>
        if c0.Typ ≠ IHDR ∨ c0.Len ≠ 13 then Outcome.ret (none, some Error.badIHDR)
        else OpenLoop (data.length + 1) p1

/-- The driver's loop (main.go lines 33-41) over the descriptors the policy selected;
the driver panics on the first error, here the error is returned. -/
def WriteChunks (file : OsFile) (w : Sink) :
    List chunkHeader → Outcome (OsFile × Sink × Option Error)
  | [] => Outcome.ret (file, w, none)
  | c :: cs =>
    match WriteTo c file w with
    | Outcome.ret (f1, w1, none) => WriteChunks f1 w1 cs
    | other => other

/-- The driver's output (main.go lines 29-41): the signature, then the selected
descriptors. -/
def WriteFile (file : OsFile) (w : Sink) (cs : List chunkHeader) :
    Outcome (OsFile × Sink × Option Error) :=
  match WriteSignatureTo w with
  | (w1, some e) => Outcome.ret (file, w1, some e)
  | (w1, none) => WriteChunks file w1 cs

end png

namespace jpg

/-- Constant `RST0` of type `Marker` (a byte). -/
abbrev RST0 : Nat := 0xd0
/-- Constant `RST7`. -/
abbrev RST7 : Nat := 0xd7
/-- Constant `SOI`. -/
abbrev SOI : Nat := 0xd8
/-- Constant `EOI`. -/
abbrev EOI : Nat := 0xd9
/-- Constant `SOS`. -/
abbrev SOS : Nat := 0xda
/-- Constant `DNL`. -/
abbrev DNL : Nat := 0xdc

/-- Struct `chunkHeader` (field `Type` is `Typ`; `ImageData` is the array of two
offsets). -/
structure chunkHeader where
  Typ : Nat
  Len : Int
  DataOffset : Int
  ImageData : Int × Int
  deriving DecidableEq, Repr

/-- Struct `File`: the open handle and the chunks. -/
structure File where
  file : OsFile
  Chunks : List chunkHeader
  deriving DecidableEq, Repr

/-- Function `CopyFile`. -/
def CopyFile (src : OsFile) (dst : Sink) (len : Int) : Outcome (OsFile × Sink × Option Error) :=
  copyLoop (len.toNat + 1) src dst len 1024

/-- Method `chunkHeader.WriteTo`, on the shared handle `file`: the error of the first
copy is overwritten by the second one for an SOS descriptor. -/
def WriteTo (c : chunkHeader) (file : OsFile) (w : Sink) :
    Outcome (OsFile × Sink × Option Error) :=
  match file.Seek c.DataOffset SEEK_SET with
  | (f1, _, some e) => Outcome.ret (f1, w, some e)
  | (f1, _, none) =>
    match CopyFile f1 w (c.Len + 2) with
    | Outcome.ret (f2, w2, err) =>
      if c.Typ = SOS then CopyFile f2 w2 (c.ImageData.2 - c.ImageData.1)
      else Outcome.ret (f2, w2, err)
    | other => other

/-- Function `binary.BigEndian.Uint16` of the Go library, on the two bytes of the
buffer. -/
def Uint16 (b0 b1 : Nat) : Nat := b1 ||| (b0 <<< 8)

/-- Function `readChunkHeader`: a nil pointer is `none`.  A short read without an error
returns `nil, nil`. -/
def readChunkHeader (f : OsFile) : OsFile × Option chunkHeader × Option Error :=
  match f.Read 1 with
  | (f1, [b], none) =>
    if b ≠ 0xff then (f1, none, some Error.noFF)
    else
      match f1.Read 1 with
      | (f2, [t], none) =>
        if t = SOI ∨ t = EOI then
          match f2.Seek 0 SEEK_CUR with
          | (f3, _, some e) => (f3, none, some e)
          | (f3, off, none) => (f3, some ⟨t, 0, off + -2, (0, 0)⟩, none)
        else
          match f2.Read 2 with
          | (f3, [l0, l1], none) =>
            match f3.Seek 0 SEEK_CUR with
            | (f4, _, some e) => (f4, none, some e)
            | (f4, off, none) => (f4, some ⟨t, (Uint16 l0 l1 : Nat), off + -4, (0, 0)⟩, none)
          | (f3, _, err) => (f3, none, err)
      | (f2, _, err) => (f2, none, err)
  | (f1, _, err) => (f1, none, err)

/-- Function `skipChunk`. -/
def skipChunk (f : OsFile) (c : chunkHeader) : OsFile × Option Error :=
  if c.Len = 0 then (f, none)
  else
    match f.Seek (c.Len - 2) SEEK_CUR with
    | (f1, _, err) => (f1, err)

/-- Function `parseChunk`: returns the record and the error; `skipChunk` dereferences the
pointer it got from `readChunkHeader`. -/
def parseChunk (j : File) : Outcome (File × Option Error) :=
  match readChunkHeader j.file with
  | (f1, _, some e) => Outcome.ret (⟨f1, j.Chunks⟩, some e)
  | (_, none, none) => Outcome.panic
  | (f1, some c, none) =>
    match skipChunk f1 c with
    | (f2, some e) => Outcome.ret (⟨f2, j.Chunks⟩, some e)
    | (f2, none) => Outcome.ret (⟨f2, j.Chunks ++ [c]⟩, none)

/-- The `for` loop of `parseImageData` (jpg.go lines 304-322) followed by the read of the
end offset (lines 324-329); `start` is `imageData[0]`. -/
def scanLoop : Nat → OsFile → Int → Outcome (OsFile × (Int × Int) × Option Error)
  | 0, _, _ => Outcome.outOfFuel
  | fuel + 1, f, start =>
    match f.Read 1 with
    | (f1, [b], none) =>
      if b = 0xff then
        match f1.Read 1 with
        | (f2, [b2], none) =>
          if ¬ (b2 = 0x00 ∨ b2 = DNL ∨ (RST0 ≤ b2 ∧ b2 ≤ RST7)) then
            match f2.Seek (-2) SEEK_CUR with
            | (f3, _, some e) => Outcome.ret (f3, (0, 0), some e)
            | (f3, _, none) =>
              match f3.Seek 0 SEEK_CUR with
              | (f4, _, some e) => Outcome.ret (f4, (0, 0), some e)
              | (f4, stop, none) => Outcome.ret (f4, (start, stop), none)
          else scanLoop fuel f2 start
        | (f2, _, err) => Outcome.ret (f2, (0, 0), err)
      else scanLoop fuel f1 start
    | (f1, _, err) => Outcome.ret (f1, (0, 0), err)

/-- Function `parseImageData`. -/
def parseImageData (f : OsFile) : Outcome (OsFile × (Int × Int) × Option Error) :=
  match f.Seek 0 SEEK_CUR with
  | (f1, _, some e) => Outcome.ret (f1, (0, 0), some e)
  | (f1, start, none) => scanLoop (f1.data.length + 1) f1 start

/-- The end of `Open` (jpg.go lines 203-216): compare the cursor with the end of file. -/
def finish (j : File) : Outcome (Option File × Option Error) :=
  match j.file.Seek 0 SEEK_CUR with
  | (f1, _, some e) => Outcome.ret (some ⟨f1, j.Chunks⟩, some e)
  | (f1, seekC, none) =>
    match f1.Seek 0 SEEK_END with
    | (f2, _, some e) => Outcome.ret (some ⟨f2, j.Chunks⟩, some e)
    | (f2, seekE, none) =>
      if seekC ≠ seekE then Outcome.ret (some ⟨f2, j.Chunks⟩, some Error.dataLeft)
      else Outcome.ret (some ⟨f2, j.Chunks⟩, none)

/-- The block of `Open` that stores the image data after an SOS chunk (jpg.go lines
190-196): the last descriptor gets the span `parseImageData` returns. -/
def storeImageData (j : File) : Outcome (File × Option Error) :=
  match j.Chunks.getLast? with
  | none => Outcome.panic
  | some c =>
    if c.Typ = SOS then
      match parseImageData j.file with
      | Outcome.ret (f1, _, some e) => Outcome.ret (⟨f1, j.Chunks⟩, some e)
      | Outcome.ret (f1, img, none) =>
        Outcome.ret (⟨f1, j.Chunks.dropLast ++ [⟨c.Typ, c.Len, c.DataOffset, img⟩]⟩, none)
      | Outcome.panic => Outcome.panic
      | Outcome.outOfFuel => Outcome.outOfFuel
    else Outcome.ret (j, none)

/-- The `for` loop of `Open` (jpg.go lines 184-201) followed by the end of `Open`. -/
def OpenLoop : Nat → File → Outcome (Option File × Option Error)
  | 0, _ => Outcome.outOfFuel
  | fuel + 1, j =>
    match parseChunk j with
    | Outcome.panic => Outcome.panic
    | Outcome.outOfFuel => Outcome.outOfFuel
    | Outcome.ret (j1, some e) => Outcome.ret (some j1, some e)
    | Outcome.ret (j1, none) =>
      match storeImageData j1 with
      | Outcome.panic => Outcome.panic
      | Outcome.outOfFuel => Outcome.outOfFuel
      | Outcome.ret (_, some e) => Outcome.ret (none, some e)
      | Outcome.ret (j2, none) =>
        match j2.Chunks.getLast? with
        | none => Outcome.panic
        | some c => if c.Typ = EOI then finish j2 else OpenLoop fuel j2

/-- Function `Open`, on the content of the named file. -/
def Open (data : List Nat) : Outcome (Option File × Option Error) :=
  match parseChunk ⟨⟨data, 0⟩, []⟩ with
  | Outcome.panic => Outcome.panic
  | Outcome.outOfFuel => Outcome.outOfFuel
  | Outcome.ret (_, some e) => Outcome.ret (none, some e)
  | Outcome.ret (j1, none) =>
    match j1.Chunks.head? with
    | none => Outcome.panic
    | some c0 =>
      if c0.Typ ≠ SOI then Outcome.ret (none, some Error.badSOI)
      else OpenLoop (data.length + 1) j1

/-- The commented driver's loop (main.go lines 60-70) over the descriptors the policy
selected; the driver panics on the first error, here the error is returned. -/
def WriteChunks (file : OsFile) (w : Sink) :
    List chunkHeader → Outcome (OsFile × Sink × Option Error)
  | [] => Outcome.ret (file, w, none)
  | c :: cs =>
    match WriteTo c file w with
    | Outcome.ret (f1, w1, none) => WriteChunks f1 w1 cs
    | other => other

end jpg

/-! ## Specification vocabulary -/

namespace jpg

/-- The bytes that keep a 0xFF inside a scan span: 0x00 (byte stuffing), DNL and
RST0..RST7. -/
def stuffed (y : Nat) : Bool := y == 0x00 || y == DNL || (decide (RST0 ≤ y) && decide (y ≤ RST7))

/-- Offset `e` of `data` holds 0xFF and the byte that follows it exists and is not 0x00,
DNL or RST0..RST7: a real marker. -/
def markerAt (data : List Nat) (e : Nat) : Bool :=
  match data[e]?, data[e + 1]? with
  | some b, some y => b == 0xff && !stuffed y
  | _, _ => false

/-- Offset `e` is the first real marker of `data` at or after `p`. -/
def firstMarker (data : List Nat) (p e : Nat) : Prop :=
  p ≤ e ∧ markerAt data e = true ∧ ∀ i, p ≤ i → i < e → markerAt data i = false

/-- Inside `[a, b)` every 0xFF is followed, inside the span, by 0x00, DNL or RSTn. -/
def cleanSpan (data : List Nat) (a b : Int) : Prop :=
  ∀ i : Nat, a ≤ (i : Int) → (i : Int) < b → data[i]? = some 0xff →
    ((i : Int) + 1 < b ∧ ∃ y, data[i + 1]? = some y ∧ stuffed y = true)

end jpg

namespace jpg

/-- The framing a descriptor records, read off the source bytes: 0xFF and the marker at
`DataOffset`; no length for SOI and EOI; otherwise the big-endian value of the two bytes
that follow the marker. -/
def headerAt (data : List Nat) (d : chunkHeader) : Prop :=
  ∃ k : Nat, d.DataOffset = (k : Int) ∧ data[k]? = some 0xff ∧ data[k + 1]? = some d.Typ ∧
    ((d.Typ = SOI ∨ d.Typ = EOI) → d.Len = 0) ∧
    (¬ (d.Typ = SOI ∨ d.Typ = EOI) →
      ∃ l0 l1, data[k + 2]? = some l0 ∧ data[k + 3]? = some l1 ∧
        d.Len = ((256 * l0 + l1 : Nat) : Int))

end jpg

namespace jpg

/-- A length-prefixed segment as the wire format frames it: 0xFF, the marker byte, the
two bytes of the length, and the payload. -/
structure RawSegment where
  marker : Nat
  l0 : Nat
  l1 : Nat
  payload : List Nat
  deriving DecidableEq, Repr

/-- The length the two length bytes hold, big-endian. -/
def RawSegment.Len (r : RawSegment) : Nat := Uint16 r.l0 r.l1

/-- The bytes of the segment in the file. -/
def RawSegment.bytes (r : RawSegment) : List Nat :=
  0xff :: r.marker :: r.l0 :: r.l1 :: r.payload

/-- The segment is well formed: its marker is none of SOI and EOI, which carry no
length, nor SOS, which a scan follows, and the length counts its own two bytes and the
payload. -/
def RawSegment.wf (r : RawSegment) : Prop :=
  r.marker ≠ SOI ∧ r.marker ≠ EOI ∧ r.marker ≠ SOS ∧ r.Len = r.payload.length + 2

/-- The bytes of a run of segments. -/
def concatSegments : List RawSegment → List Nat
  | [] => []
  | r :: rs => r.bytes ++ concatSegments rs

/-- The descriptors of a run of segments whose first byte is at offset `off`. -/
def segmentDescs : Nat → List RawSegment → List chunkHeader
  | _, [] => []
  | off, r :: rs =>
    ⟨r.marker, (r.Len : Int), (off : Int), (0, 0)⟩ :: segmentDescs (off + r.bytes.length) rs

/-- The states in which the segment loop of `Open` starts a top-level segment of `data`:
the state after the SOI segment at offset 0, and the state after every further segment
(with the scan span that follows an SOS segment) that was read without error and is not
EOI.  The cursor of such a state is the offset at which the next segment starts; the
descriptors are those of the segments before it. -/
inductive SegmentStart (data : List Nat) : File → Prop where
  | first (j1 : File) :
      parseChunk ⟨⟨data, 0⟩, []⟩ = Outcome.ret (j1, none) →
      (∃ c0, j1.Chunks.head? = some c0 ∧ c0.Typ = SOI) →
      SegmentStart data j1
  | next (j j1 j2 : File) :
      SegmentStart data j →
      parseChunk j = Outcome.ret (j1, none) →
      storeImageData j1 = Outcome.ret (j2, none) →
      (∃ c, j2.Chunks.getLast? = some c ∧ c.Typ ≠ EOI) →
      SegmentStart data j2

end jpg

namespace png

/-- The bytes of one chunk as the parser frames them: four length bytes, four type bytes,
and the rest (payload and CRC). -/
structure RawChunk where
  b0 : Nat
  b1 : Nat
  b2 : Nat
  b3 : Nat
  t0 : Nat
  t1 : Nat
  t2 : Nat
  t3 : Nat
  body : List Nat

/-- The length `readChunkHeader` computes from the four length bytes. -/
def RawChunk.Len (r : RawChunk) : Nat := (r.b0 <<< 32) + (r.b1 <<< 16) + (r.b2 <<< 8) + r.b3

/-- The type tag of the chunk. -/
def RawChunk.Typ (r : RawChunk) : List Nat := [r.t0, r.t1, r.t2, r.t3]

/-- The chunk on disk. -/
def RawChunk.bytes (r : RawChunk) : List Nat :=
  [r.b0, r.b1, r.b2, r.b3, r.t0, r.t1, r.t2, r.t3] ++ r.body

/-- The rest of the chunk has the length the parser skips: `Len + 4`. -/
def RawChunk.wf (r : RawChunk) : Prop := r.body.length = r.Len + 4

/-- The bytes of consecutive chunks. -/
def concatBytes : List RawChunk → List Nat
  | [] => []
  | r :: rs => r.bytes ++ concatBytes rs

/-- The descriptors of consecutive chunks, the first one starting at offset `off`. -/
def descs : Nat → List RawChunk → List chunkHeader
  | _, [] => []
  | off, r :: rs => ⟨r.Typ, (r.Len : Int), ((off + 8 : Nat) : Int)⟩ :: descs (off + r.bytes.length) rs

/-- Descriptor `c` describes the well-framed chunk `r` lying somewhere in `data`. -/
def located (data : List Nat) (c : chunkHeader) (r : RawChunk) : Prop :=
  r.wf ∧ ∃ pre post, data = pre ++ r.bytes ++ post ∧
    c = ⟨r.Typ, (r.Len : Int), ((pre.length + 8 : Nat) : Int)⟩

end png

/-! ## Marker names (marker_string.go) -/

namespace jpg

/-- Constant `_Marker_name`: the identifiers of the markers, one after the other. -/
def _Marker_name : String := "SOF0SOF1SOF2SOF3DHTSOF5SOF6SOF7JPGSOF9SOF10SOF11DACSOF13SOF14SOF15RST0RST1RST2RST3RST4RST5RST6RST7SOIEOISOSDQTDNLDRIDHPEXPAPP0APP1APP2APP3APP4APP5APP6APP7APP8APP9APP10APP11APP12APP13APP14APP15JPG0JPG1JPG2JPG3JPG4JPG5JPG6JPG7JPG8JPG9JPG10JPG11JPG12JPG13COM"

/-- Variable `_Marker_index`: an array of 64 `uint8` offsets into `_Marker_name`. -/
def _Marker_index : List Nat := [0, 4, 8, 12, 16, 19, 23, 27, 31, 34, 38, 43, 48, 51, 56, 61, 66, 70, 74, 78, 82, 86, 90, 94, 98, 101, 104, 107, 110, 113, 116, 119, 122, 126, 130, 134, 138, 142, 146, 150, 154, 158, 162, 167, 172, 177, 182, 187, 192, 196, 200, 204, 208, 212, 216, 220, 224, 228, 232, 237, 242, 247, 252, 255]

/-- Function `strconv.FormatInt(n, 10)` of the Go library, on a value that is not
negative. -/
def FormatInt (n : Nat) : String := Nat.repr n

/-- Method `Marker.String` on the byte `m`.  The subtraction `i -= 192` and the sum
`i+192` are byte arithmetic; an index outside `_Marker_index` and a slice outside
`_Marker_name` panic. -/
def Marker.String (m : Nat) : Outcome String :=
  let i := (m + 256 - 192) % 256
  if i ≥ _Marker_index.length - 1 then
    Outcome.ret ("Marker(" ++ FormatInt ((i + 192) % 256) ++ ")")
  else
    match _Marker_index[i]?, _Marker_index[i + 1]? with
    | some a, some b =>
      if a ≤ b ∧ b ≤ _Marker_name.length then
        Outcome.ret ⟨(_Marker_name.data.drop a).take (b - a)⟩
      else Outcome.panic
    | _, _ => Outcome.panic

/-- The number a string of decimal digits stands for. -/
def decimalValue (s : List Char) : Nat := s.foldl (fun acc c => 10 * acc + (c.toNat - 48)) 0

/-- A `const` block of jpg.go: the k-th identifier of the block gets the value
`base + iota`. -/
def constBlock : Nat → List String → List (String × Nat)
  | _, [] => []
  | base, n :: ns => (n, base) :: constBlock (base + 1) ns

/-- The marker constants declared in jpg.go (lines 15-88), with their values. -/
def markerConstants : List (String × Nat) :=
  constBlock 0xc0 ["SOF0", "SOF1", "SOF2", "SOF3", "DHT", "SOF5", "SOF6", "SOF7", "JPG", "SOF9",
    "SOF10", "SOF11", "DAC", "SOF13", "SOF14", "SOF15"] ++
  constBlock 0xd0 ["RST0", "RST1", "RST2", "RST3", "RST4", "RST5", "RST6", "RST7", "SOI", "EOI",
    "SOS", "DQT", "DNL", "DRI", "DHP", "EXP"] ++
  constBlock 0xe0 ["APP0", "APP1", "APP2", "APP3", "APP4", "APP5", "APP6", "APP7", "APP8", "APP9",
    "APP10", "APP11", "APP12", "APP13", "APP14", "APP15"] ++
  constBlock 0xf0 ["JPG0", "JPG1", "JPG2", "JPG3", "JPG4", "JPG5", "JPG6", "JPG7", "JPG8", "JPG9",
    "JPG10", "JPG11", "JPG12", "JPG13", "COM"]

end jpg

namespace png

/-- The unsigned big-endian value of four bytes. -/
def be32 (b0 b1 b2 b3 : Nat) : Nat := b0 * 2 ^ 24 + b1 * 2 ^ 16 + b2 * 2 ^ 8 + b3

end png

/-! ## The file handle -/

theorem OsFile.Read_one (f : OsFile) :
    f.Read 1 = match f.data[f.pos]? with
      | none => (f, [], some Error.EOF)
      | some b => (⟨f.data, f.pos + 1⟩, [b], none) := by
  unfold OsFile.Read
  rw [← List.head?_drop]
  cases h : f.data.drop f.pos <;> simp

theorem OsFile.Read_two (f : OsFile) :
    f.Read 2 = match f.data[f.pos]?, f.data[f.pos + 1]? with
      | none, _ => (f, [], some Error.EOF)
      | some a, none => (⟨f.data, f.pos + 1⟩, [a], none)
      | some a, some b => (⟨f.data, f.pos + 2⟩, [a, b], none) := by
  unfold OsFile.Read
  have h0 : f.data[f.pos]? = (f.data.drop f.pos)[0]? := by
    rw [List.getElem?_drop]; rfl
  have h1 : f.data[f.pos + 1]? = (f.data.drop f.pos)[1]? := by
    rw [List.getElem?_drop]
  rw [h0, h1]
  rcases f.data.drop f.pos with _ | ⟨a, _ | ⟨b, l⟩⟩ <;> simp

theorem OsFile.Seek_cur_zero (f : OsFile) : f.Seek 0 SEEK_CUR = (f, (f.pos : Int), none) := by
  cases f
  simp [OsFile.Seek]

theorem OsFile.Seek_end_zero (f : OsFile) :
    f.Seek 0 SEEK_END = (⟨f.data, f.data.length⟩, (f.data.length : Int), none) := by
  simp [OsFile.Seek]

theorem OsFile.Seek_cur_of_eq (f : OsFile) (off : Int) (k : Nat) (h : (f.pos : Int) + off = k) :
    f.Seek off SEEK_CUR = (⟨f.data, k⟩, (k : Int), none) := by
  have h1 : ¬ ((f.pos : Int) + off < 0) := by omega
  have h2 : ((f.pos : Int) + off).toNat = k := by omega
  simp [OsFile.Seek, h1, h2, h]

theorem OsFile.Seek_set_of_eq (f : OsFile) (off : Int) (k : Nat) (h : off = k) :
    f.Seek off SEEK_SET = (⟨f.data, k⟩, (k : Int), none) := by
  subst h
  simp [OsFile.Seek]

/-! ## The scan loop of `parseImageData` -/

theorem jpg.stuffed_iff (y : Nat) :
    jpg.stuffed y = true ↔ (y = 0x00 ∨ y = jpg.DNL ∨ (jpg.RST0 ≤ y ∧ y ≤ jpg.RST7)) := by
  simp [jpg.stuffed, or_assoc]

theorem jpg.scanLoop_succ (fuel : Nat) (f : OsFile) (start : Int) :
    jpg.scanLoop (fuel + 1) f start =
      match f.data[f.pos]? with
      | none => Outcome.ret (f, (0, 0), some Error.EOF)
      | some b =>
        if b = 0xff then
          match f.data[f.pos + 1]? with
          | none => Outcome.ret (⟨f.data, f.pos + 1⟩, (0, 0), some Error.EOF)
          | some y =>
            if jpg.stuffed y = true then jpg.scanLoop fuel ⟨f.data, f.pos + 2⟩ start
            else Outcome.ret (⟨f.data, f.pos⟩, (start, (f.pos : Int)), none)
        else jpg.scanLoop fuel ⟨f.data, f.pos + 1⟩ start := by
  rw [jpg.scanLoop, OsFile.Read_one]
  cases h0 : f.data[f.pos]? with
  | none => rfl
  | some b =>
    by_cases hb : b = 0xff
    · simp only [hb, if_true]
      rw [OsFile.Read_one]
      cases h1 : f.data[f.pos + 1]? with
      | none => simp [h1]
      | some y =>
        by_cases hy : jpg.stuffed y = true
        · have hy2 := (jpg.stuffed_iff y).1 hy
          simp [h1, hy, hy2]
        · have hy2 : ¬ (y = 0x00 ∨ y = jpg.DNL ∨ (jpg.RST0 ≤ y ∧ y ≤ jpg.RST7)) :=
            fun h => hy ((jpg.stuffed_iff y).2 h)
          simp only [h1, hy, hy2, if_true, not_false_eq_true]
          rw [OsFile.Seek_cur_of_eq _ (-2) f.pos (by simp only [Nat.cast_add, Nat.cast_one]; omega)]
          simp [OsFile.Seek_cur_zero]
    · simp [hb]

/-- Enough fuel: the scan loop stops at the first real marker at or after the cursor and
leaves the cursor on it. -/
theorem jpg.scanLoop_firstMarker (data : List Nat) (start : Int) :
    ∀ (fuel p e : Nat), jpg.firstMarker data p e → e < p + fuel →
      jpg.scanLoop fuel ⟨data, p⟩ start = Outcome.ret (⟨data, e⟩, (start, (e : Int)), none) := by
  intro fuel
  induction fuel with
  | zero => intro p e h hlt; have := h.1; omega
  | succ fuel ih =>
    intro p e h hlt
    obtain ⟨hpe, hm, hmin⟩ := h
    rw [jpg.scanLoop_succ]
    rcases Nat.eq_or_lt_of_le hpe with heq | hlt2
    · subst heq
      simp only [jpg.markerAt] at hm
      cases h0 : data[p]? with
      | none => simp [h0] at hm
      | some b =>
        cases h1 : data[p + 1]? with
        | none => simp [h0, h1] at hm
        | some y =>
          simp [h0, h1] at hm
          simp [h0, h1, hm.1, hm.2]
    · have hnm := hmin p (le_refl p) hlt2
      have hlen : e < data.length := by
        simp only [jpg.markerAt] at hm
        cases h0 : data[e]? with
        | none => simp [h0] at hm
        | some b => exact (List.getElem?_eq_some.1 h0).1
      cases h0 : data[p]? with
      | none =>
        have := List.getElem?_eq_none_iff.1 h0
        omega
      | some b =>
        simp only []
        by_cases hb : b = 0xff
        · simp only [hb, if_true]
          cases h1 : data[p + 1]? with
          | none =>
            have := List.getElem?_eq_none_iff.1 h1
            omega
          | some y =>
            have hy : jpg.stuffed y = true := by
              simp [jpg.markerAt, h0, h1, hb] at hnm
              exact hnm
            simp only [hy, if_true]
            have hne : p + 1 ≠ e := by
              intro hpe1
              subst hpe1
              simp only [jpg.markerAt] at hm
              rw [h1] at hm
              cases h2 : data[p + 1 + 1]? with
              | none => simp [h2] at hm
              | some z =>
                simp [h2] at hm
                rw [hm.1] at hy
                exact absurd hy (by decide)
            exact ih (p + 2) e ⟨by omega, hm, fun i hi hie => hmin i (by omega) hie⟩ (by omega)
        · simp only [hb, if_false]
          exact ih (p + 1) e ⟨by omega, hm, fun i hi hie => hmin i (by omega) hie⟩ (by omega)

/-- Enough fuel: without a real marker at or after the cursor the scan loop returns
`io.EOF`. -/
theorem jpg.scanLoop_noMarker (data : List Nat) (start : Int) :
    ∀ (fuel p : Nat), (∀ i, p ≤ i → jpg.markerAt data i = false) → data.length < p + fuel →
      0 < fuel → ∃ f, jpg.scanLoop fuel ⟨data, p⟩ start = Outcome.ret (f, (0, 0), some Error.EOF) := by
  intro fuel
  induction fuel with
  | zero =>
    intro p h hlt hpos
    omega
  | succ fuel ih =>
    intro p h hlt _
    rw [jpg.scanLoop_succ]
    cases h0 : data[p]? with
    | none => exact ⟨_, rfl⟩
    | some b =>
      have hp : p < data.length := (List.getElem?_eq_some.1 h0).1
      simp only []
      by_cases hb : b = 0xff
      · simp only [hb, if_true]
        cases h1 : data[p + 1]? with
        | none => exact ⟨_, rfl⟩
        | some y =>
          have hy : jpg.stuffed y = true := by
            have hnm := h p (le_refl p)
            simp [jpg.markerAt, h0, h1, hb] at hnm
            exact hnm
          simp only [hy, if_true]
          have hp1 : p + 1 < data.length := (List.getElem?_eq_some.1 h1).1
          exact ih (p + 2) (fun i hi => h i (by omega)) (by omega) (by omega)
      · simp only [hb, if_false]
        exact ih (p + 1) (fun i hi => h i (by omega)) (by omega) (by omega)

/-- C6: from a cursor at `p`, `parseImageData` returns the span `(p, e)` where `e` is
the first 0xFF at or after `p` whose following byte is not 0x00, DNL or RST0..RST7, and
leaves the cursor at `e`; when no such pair exists before the end of input it returns
the error of the failed read. -/
theorem jpg.parseImageData_firstMarker (data : List Nat) (p : Nat) :
    (∀ e, jpg.firstMarker data p e →
      jpg.parseImageData ⟨data, p⟩ = Outcome.ret (⟨data, e⟩, ((p : Int), (e : Int)), none)) ∧
    ((∀ i, p ≤ i → jpg.markerAt data i = false) →
      ∃ f, jpg.parseImageData ⟨data, p⟩ = Outcome.ret (f, (0, 0), some Error.EOF)) := by
  constructor
  · intro e h
    have hlen : e < data.length := by
      have hm := h.2.1
      simp only [jpg.markerAt] at hm
      cases h0 : data[e]? with
      | none => simp [h0] at hm
      | some b => exact (List.getElem?_eq_some.1 h0).1
    rw [jpg.parseImageData, OsFile.Seek_cur_zero]
    exact jpg.scanLoop_firstMarker data p (data.length + 1) p e h (by omega)
  · intro h
    rw [jpg.parseImageData, OsFile.Seek_cur_zero]
    exact jpg.scanLoop_noMarker data p (data.length + 1) p h (by omega) (by omega)

/-- The scan bytes 12 34 FF 00 56 FF D0 78 FF D9: the span ends at the FF of the final
FF D9, with FF 00 and FF D0 inside it. -/
theorem jpg.parseImageData_firstMarker_witness :
    jpg.firstMarker [0x12, 0x34, 0xff, 0x00, 0x56, 0xff, 0xd0, 0x78, 0xff, 0xd9] 0 8 ∧
    jpg.parseImageData ⟨[0x12, 0x34, 0xff, 0x00, 0x56, 0xff, 0xd0, 0x78, 0xff, 0xd9], 0⟩ =
      Outcome.ret (OsFile.mk [0x12, 0x34, 0xff, 0x00, 0x56, 0xff, 0xd0, 0x78, 0xff, 0xd9] 8,
        ((0 : Int), (8 : Int)), none) :=
  ⟨by unfold jpg.firstMarker; decide,
   (jpg.parseImageData_firstMarker [0x12, 0x34, 0xff, 0x00, 0x56, 0xff, 0xd0, 0x78, 0xff, 0xd9]
      0).1 8 (by unfold jpg.firstMarker; decide)⟩

/-! ## Invariants of the JPEG parser -/

theorem jpg.cleanSpan_step_plain (data : List Nat) (s : Int) (p b : Nat)
    (h0 : data[p]? = some b) (hb : b ≠ 0xff) (h : jpg.cleanSpan data s (p : Int)) :
    jpg.cleanSpan data s ((p + 1 : Nat) : Int) := by
  intro i hi hlt hff
  rcases Nat.lt_or_ge i p with hip | hip
  · obtain ⟨h1, h2⟩ := h i hi (by omega) hff
    exact ⟨by omega, h2⟩
  · have : i = p := by omega
    subst this
    rw [h0] at hff
    simp at hff
    exact absurd hff hb

theorem jpg.cleanSpan_step_pair (data : List Nat) (s : Int) (p y : Nat)
    (h1 : data[p + 1]? = some y) (hy : jpg.stuffed y = true)
    (h : jpg.cleanSpan data s (p : Int)) :
    jpg.cleanSpan data s ((p + 2 : Nat) : Int) := by
  intro i hi hlt hff
  rcases Nat.lt_or_ge i p with hip | hip
  · obtain ⟨h1, h2⟩ := h i hi (by omega) hff
    exact ⟨by omega, h2⟩
  · rcases Nat.eq_or_lt_of_le hip with heq | hgt
    · subst heq
      exact ⟨by omega, y, h1, hy⟩
    · have : i = p + 1 := by omega
      subst this
      rw [h1] at hff
      simp at hff
      rw [hff] at hy
      exact absurd hy (by decide)

/-- Whatever span the scan loop returns without an error starts at `start`, ends at the
cursor, and is clean if the bytes already passed were. -/
theorem jpg.scanLoop_clean (data : List Nat) (start s : Int) :
    ∀ (fuel p : Nat) (f : OsFile) (img : Int × Int),
      jpg.scanLoop fuel ⟨data, p⟩ start = Outcome.ret (f, img, none) →
      jpg.cleanSpan data s (p : Int) →
      img.1 = start ∧ (p : Int) ≤ img.2 ∧ jpg.cleanSpan data s img.2 ∧ f.data = data ∧
        (f.pos : Int) = img.2 := by
  intro fuel
  induction fuel with
  | zero => intro p f img h; simp [jpg.scanLoop] at h
  | succ fuel ih =>
    intro p f img h hc
    rw [jpg.scanLoop_succ] at h
    cases h0 : data[p]? with
    | none => simp [h0] at h
    | some b =>
      simp only [h0] at h
      by_cases hb : b = 0xff
      · simp only [hb, if_true] at h
        cases h1 : data[p + 1]? with
        | none => simp [h1] at h
        | some y =>
          simp only [h1] at h
          by_cases hy : jpg.stuffed y = true
          · simp only [hy, if_true] at h
            obtain ⟨a1, a2, a3, a4⟩ := ih (p + 2) f img h (jpg.cleanSpan_step_pair data s p y h1 hy hc)
            exact ⟨a1, by omega, a3, a4⟩
          · simp only [hy] at h
            simp at h
            obtain ⟨hf, himg⟩ := h
            subst hf himg
            exact ⟨rfl, le_refl _, hc, rfl, rfl⟩
      · simp only [hb, if_false] at h
        obtain ⟨a1, a2, a3, a4⟩ := ih (p + 1) f img h (jpg.cleanSpan_step_plain data s p b h0 hb hc)
        exact ⟨a1, by omega, a3, a4⟩

theorem jpg.parseImageData_clean (f f1 : OsFile) (img : Int × Int)
    (h : jpg.parseImageData f = Outcome.ret (f1, img, none)) :
    img.1 = (f.pos : Int) ∧ img.1 ≤ img.2 ∧ jpg.cleanSpan f.data img.1 img.2 ∧
      f1.data = f.data ∧ (f1.pos : Int) = img.2 := by
  rw [jpg.parseImageData, OsFile.Seek_cur_zero] at h
  have hc : jpg.cleanSpan f.data (f.pos : Int) (f.pos : Int) := by
    intro i h1 h2
    omega
  obtain ⟨a1, a2, a3, a4⟩ := jpg.scanLoop_clean f.data (f.pos : Int) (f.pos : Int) _ f.pos f1 img h hc
  exact ⟨a1, by omega, by rw [a1]; exact a3, a4⟩

theorem jpg.Uint16_eq (l0 l1 : Nat) (h : l1 < 256) : jpg.Uint16 l0 l1 = 256 * l0 + l1 := by
  unfold jpg.Uint16
  rw [Nat.shiftLeft_eq, Nat.lor_comm, Nat.mul_comm]
  exact (Nat.mul_add_lt_is_or (i := 8) (by simpa using h) l0).symm

/-- What `readChunkHeader` read when it returns a descriptor. -/
theorem jpg.readChunkHeader_some (f f1 : OsFile) (c : jpg.chunkHeader)
    (h : jpg.readChunkHeader f = (f1, some c, none)) :
    f1.data = f.data ∧ c.ImageData = (0, 0) ∧ c.DataOffset = (f.pos : Int) ∧
      f.data[f.pos]? = some 0xff ∧ f.data[f.pos + 1]? = some c.Typ ∧
      ((c.Typ = jpg.SOI ∨ c.Typ = jpg.EOI) → c.Len = 0 ∧ f1.pos = f.pos + 2) ∧
      (¬ (c.Typ = jpg.SOI ∨ c.Typ = jpg.EOI) →
        ∃ l0 l1, f.data[f.pos + 2]? = some l0 ∧ f.data[f.pos + 3]? = some l1 ∧
          c.Len = ((jpg.Uint16 l0 l1 : Nat) : Int) ∧ f1.pos = f.pos + 4) := by
  rw [jpg.readChunkHeader, OsFile.Read_one] at h
  cases h0 : f.data[f.pos]? with
  | none => simp [h0] at h
  | some b =>
    simp only [h0] at h
    by_cases hb : b = 0xff
    · subst hb
      simp only [ne_eq, not_true_eq_false, if_false] at h
      rw [OsFile.Read_one] at h
      cases h1 : f.data[f.pos + 1]? with
      | none => simp [h1] at h
      | some t =>
        simp only [h1] at h
        by_cases ht : t = jpg.SOI ∨ t = jpg.EOI
        · simp only [ht, if_true, OsFile.Seek_cur_zero] at h
          simp only [Prod.mk.injEq, Option.some.injEq, and_true] at h
          obtain ⟨hf, hc⟩ := h
          subst hf hc
          refine ⟨rfl, rfl, ?_, rfl, rfl, fun _ => ⟨rfl, rfl⟩, fun hn => absurd ht hn⟩
          simp only [Nat.cast_add, Nat.cast_one]
          omega
        · simp only [ht, if_false] at h
          rw [OsFile.Read_two] at h
          cases h2 : f.data[f.pos + 1 + 1]? with
          | none => simp [h2] at h
          | some l0 =>
            cases h3 : f.data[f.pos + 1 + 1 + 1]? with
            | none => simp [h2, h3] at h
            | some l1 =>
              simp only [h2, h3, OsFile.Seek_cur_zero] at h
              simp only [Prod.mk.injEq, Option.some.injEq, and_true] at h
              obtain ⟨hf, hc⟩ := h
              subst hf hc
              refine ⟨rfl, rfl, ?_, rfl, rfl, fun hh => absurd hh ht,
                fun _ => ⟨l0, l1, rfl, rfl, rfl, rfl⟩⟩
              simp only [Nat.cast_add, Nat.cast_one, Nat.cast_ofNat]
              omega
    · simp [hb] at h

theorem jpg.readChunkHeader_data (f : OsFile) : (jpg.readChunkHeader f).1.data = f.data := by
  rw [jpg.readChunkHeader, OsFile.Read_one]
  cases h0 : f.data[f.pos]? with
  | none => rfl
  | some b =>
    simp only []
    by_cases hb : b = 0xff
    · subst hb
      simp only [ne_eq, not_true_eq_false, if_false]
      rw [OsFile.Read_one]
      cases h1 : f.data[f.pos + 1]? with
      | none => rfl
      | some t =>
        simp only []
        by_cases ht : t = jpg.SOI ∨ t = jpg.EOI
        · simp only [ht, if_true, OsFile.Seek_cur_zero]
        · simp only [ht, if_false]
          rw [OsFile.Read_two]
          cases h2 : f.data[f.pos + 1 + 1]? with
          | none => rfl
          | some l0 =>
            cases h3 : f.data[f.pos + 1 + 1 + 1]? with
            | none => rfl
            | some l1 => simp only [OsFile.Seek_cur_zero]
    · simp [hb]

theorem OsFile.Seek_data (f : OsFile) (off : Int) (w : Nat) : (f.Seek off w).1.data = f.data := by
  unfold OsFile.Seek
  split
  · split <;> rfl
  · split <;> rfl
  · split <;> rfl
  · rfl

theorem jpg.skipChunk_data (f : OsFile) (c : jpg.chunkHeader) :
    (jpg.skipChunk f c).1.data = f.data := by
  unfold jpg.skipChunk
  split
  · rfl
  · exact OsFile.Seek_data f _ _

/-- A returning `parseChunk` keeps the content of the file and either leaves the
descriptors alone or appends the one `readChunkHeader` returned. -/
theorem jpg.parseChunk_ret (j j1 : jpg.File) (e : Option Error)
    (h : jpg.parseChunk j = Outcome.ret (j1, e)) :
    j1.file.data = j.file.data ∧
      (j1.Chunks = j.Chunks ∨
        ∃ f1 c, jpg.readChunkHeader j.file = (f1, some c, none) ∧ j1.Chunks = j.Chunks ++ [c]) := by
  unfold jpg.parseChunk at h
  have hd := jpg.readChunkHeader_data j.file
  rcases hr : jpg.readChunkHeader j.file with ⟨f1, oc, oe⟩
  rw [hr] at h hd
  cases oe with
  | some e1 =>
    simp at h
    obtain ⟨h1, _⟩ := h
    subst h1
    exact ⟨hd, Or.inl rfl⟩
  | none =>
    cases oc with
    | none => simp at h
    | some c =>
      simp only at h
      have hs := jpg.skipChunk_data f1 c
      rcases hk : jpg.skipChunk f1 c with ⟨f2, oe2⟩
      rw [hk] at h hs
      cases oe2 with
      | some e2 =>
        simp at h
        obtain ⟨h1, _⟩ := h
        subst h1
        exact ⟨hs.trans hd, Or.inl rfl⟩
      | none =>
        simp at h
        obtain ⟨h1, _⟩ := h
        subst h1
        exact ⟨hs.trans hd, Or.inr ⟨f1, c, rfl, rfl⟩⟩

/-- A returning `storeImageData` without an error either changes nothing or replaces
the span of the last descriptor, an SOS, by what `parseImageData` returned. -/
theorem jpg.storeImageData_ret (j j2 : jpg.File)
    (h : jpg.storeImageData j = Outcome.ret (j2, none)) :
    (j2 = j ∧ ∀ c, j.Chunks.getLast? = some c → c.Typ ≠ jpg.SOS) ∨
      ∃ c f1 img, j.Chunks.getLast? = some c ∧ c.Typ = jpg.SOS ∧
        jpg.parseImageData j.file = Outcome.ret (f1, img, none) ∧
        j2 = ⟨f1, j.Chunks.dropLast ++ [⟨c.Typ, c.Len, c.DataOffset, img⟩]⟩ := by
  unfold jpg.storeImageData at h
  cases hl : j.Chunks.getLast? with
  | none => simp [hl] at h
  | some c =>
    simp only [hl] at h
    by_cases hs : c.Typ = jpg.SOS
    · simp only [hs, if_true] at h
      rcases hp : jpg.parseImageData j.file with ⟨f1, img, oe⟩ | _ | _
      · rw [hp] at h
        cases oe with
        | some e1 => simp at h
        | none =>
          simp at h
          refine Or.inr ⟨c, f1, img, rfl, hs, rfl, ?_⟩
          rw [← h, hs]
      · rw [hp] at h; simp at h
      · rw [hp] at h; simp at h
    · simp only [hs, if_false] at h
      simp at h
      refine Or.inl ⟨h.symm, ?_⟩
      intro c2 hc2
      simp at hc2
      rw [← hc2]
      exact hs

/-- Invariant of the segment loop: a property of descriptors that holds for what
`readChunkHeader` returns and survives the update of an SOS span holds for every
descriptor of a record the loop returns. -/
theorem jpg.OpenLoop_inv (data : List Nat) (P : jpg.chunkHeader → Prop)
    (hread : ∀ f f1 c, f.data = data → jpg.readChunkHeader f = (f1, some c, none) → P c)
    (hstore : ∀ f f1 img c, f.data = data → P c → c.Typ = jpg.SOS →
      jpg.parseImageData f = Outcome.ret (f1, img, none) →
      P ⟨c.Typ, c.Len, c.DataOffset, img⟩) :
    ∀ (fuel : Nat) (j r : jpg.File) (e : Option Error), j.file.data = data →
      (∀ d ∈ j.Chunks, P d) → jpg.OpenLoop fuel j = Outcome.ret (some r, e) →
      ∀ d ∈ r.Chunks, P d := by
  intro fuel
  induction fuel with
  | zero => intro j r e _ _ h; simp [jpg.OpenLoop] at h
  | succ fuel ih =>
    intro j r e hdata hP h
    rw [jpg.OpenLoop] at h
    rcases hp : jpg.parseChunk j with ⟨j1, oe⟩ | _ | _
    · rw [hp] at h
      obtain ⟨hd1, hch⟩ := jpg.parseChunk_ret j j1 oe hp
      have hP1 : ∀ d ∈ j1.Chunks, P d := by
        rcases hch with hsame | ⟨f1, c, hrd, happ⟩
        · rw [hsame]; exact hP
        · rw [happ]
          intro d hd
          rcases List.mem_append.1 hd with hin | hin
          · exact hP d hin
          · simp at hin
            rw [hin]
            exact hread _ _ _ hdata hrd
      cases oe with
      | some e1 =>
        simp at h
        rw [← h.1]
        exact hP1
      | none =>
        simp only at h
        rcases hst : jpg.storeImageData j1 with ⟨j2, oe2⟩ | _ | _
        · rw [hst] at h
          cases oe2 with
          | some e2 => simp at h
          | none =>
            simp only at h
            have hj2 : j2.file.data = data ∧ ∀ d ∈ j2.Chunks, P d := by
              rcases jpg.storeImageData_ret j1 j2 hst with ⟨heq, _⟩ | ⟨c, f1, img, hl, hs, hpi, heq⟩
              · rw [heq]; exact ⟨hd1.trans hdata, hP1⟩
              · have hcl := jpg.parseImageData_clean j1.file f1 img hpi
                rw [heq]
                refine ⟨hcl.2.2.2.1.trans (hd1.trans hdata), ?_⟩
                intro d hd
                rcases List.mem_append.1 hd with hin | hin
                · exact hP1 d (List.dropLast_subset _ hin)
                · simp at hin
                  rw [hin]
                  have hc : c ∈ j1.Chunks := List.mem_of_getLast?_eq_some hl
                  exact hstore _ _ _ _ (hd1.trans hdata) (hP1 c hc) hs hpi
            cases hl : j2.Chunks.getLast? with
            | none => simp [hl] at h
            | some c =>
              simp only [hl] at h
              by_cases hc : c.Typ = jpg.EOI
              · simp only [hc, if_true] at h
                simp only [jpg.finish, OsFile.Seek_cur_zero, OsFile.Seek_end_zero] at h
                split at h <;> simp at h <;> (rw [← h.1]; exact hj2.2)
              · simp only [hc, if_false] at h
                exact ih j2 r e hj2.1 hj2.2 h
        · rw [hst] at h; simp at h
        · rw [hst] at h; simp at h
    · rw [hp] at h; simp at h
    · rw [hp] at h; simp at h

/-- The invariant of the loop, for a record `Open` returns. -/
theorem jpg.Open_inv (data : List Nat) (P : jpg.chunkHeader → Prop)
    (hread : ∀ f f1 c, f.data = data → jpg.readChunkHeader f = (f1, some c, none) → P c)
    (hstore : ∀ f f1 img c, f.data = data → P c → c.Typ = jpg.SOS →
      jpg.parseImageData f = Outcome.ret (f1, img, none) →
      P ⟨c.Typ, c.Len, c.DataOffset, img⟩)
    (r : jpg.File) (e : Option Error) (h : jpg.Open data = Outcome.ret (some r, e)) :
    ∀ d ∈ r.Chunks, P d := by
  unfold jpg.Open at h
  rcases hp : jpg.parseChunk ⟨⟨data, 0⟩, []⟩ with ⟨j1, oe⟩ | _ | _
  · rw [hp] at h
    obtain ⟨hd1, hch⟩ := jpg.parseChunk_ret _ j1 oe hp
    cases oe with
    | some e1 => simp at h
    | none =>
      simp only at h
      cases hh : j1.Chunks.head? with
      | none => simp [hh] at h
      | some c0 =>
        simp only [hh] at h
        by_cases hs : c0.Typ = jpg.SOI
        · simp only [hs, ne_eq, not_true_eq_false, if_false] at h
          refine jpg.OpenLoop_inv data P hread hstore _ j1 r e hd1 ?_ h
          rcases hch with hsame | ⟨f1, c, hrd, happ⟩
          · rw [hsame]; simp
          · rw [happ]
            intro d hd
            simp at hd
            rw [hd]
            exact hread _ _ _ rfl hrd
        · simp [hs] at h
  · rw [hp] at h; simp at h
  · rw [hp] at h; simp at h

/-- C5: in a record returned by `jpg.Open`, every 0xFF inside the scan span of an SOS
descriptor is followed, inside the span, by 0x00, DNL or one of RST0..RST7; no 0xFF of
the span has its successor outside the span or outside that set. -/
theorem jpg.Open_scan_span_clean (data : List Nat) (r : jpg.File) (e : Option Error)
    (h : jpg.Open data = Outcome.ret (some r, e)) (d : jpg.chunkHeader) (hd : d ∈ r.Chunks)
    (_hs : d.Typ = jpg.SOS) (i : Nat) (h1 : d.ImageData.1 ≤ (i : Int))
    (h2 : (i : Int) < d.ImageData.2) (hff : data[i]? = some 0xff) :
    (i : Int) + 1 < d.ImageData.2 ∧
      ∃ y, data[i + 1]? = some y ∧ (y = 0x00 ∨ y = jpg.DNL ∨ (jpg.RST0 ≤ y ∧ y ≤ jpg.RST7)) := by
  have hall : ∀ d ∈ r.Chunks, jpg.cleanSpan data d.ImageData.1 d.ImageData.2 := by
    refine jpg.Open_inv data (fun d => jpg.cleanSpan data d.ImageData.1 d.ImageData.2)
      ?_ ?_ r e h
    · intro f f1 c _ hrd
      have := (jpg.readChunkHeader_some f f1 c hrd).2.1
      rw [this]
      intro i h1 h2
      simp only at h1 h2
      omega
    · intro f f1 img c hdata _ _ hpi
      have := (jpg.parseImageData_clean f f1 img hpi).2.2.1
      rw [hdata] at this
      exact this
  obtain ⟨a, y, hy, hst⟩ := hall d hd i h1 h2 hff
  exact ⟨a, y, hy, (jpg.stuffed_iff y).1 hst⟩

/-- A scan 12 FF 00 34 after an SOS header: the stuffed pair lies inside the span. -/
theorem jpg.Open_scan_span_clean_witness :
    jpg.Open [0xff, 0xd8, 0xff, 0xda, 0, 2, 0x12, 0xff, 0x00, 0x34, 0xff, 0xd9] =
      Outcome.ret (some ⟨⟨[0xff, 0xd8, 0xff, 0xda, 0, 2, 0x12, 0xff, 0x00, 0x34, 0xff, 0xd9], 12⟩,
        [⟨jpg.SOI, 0, 0, (0, 0)⟩, ⟨jpg.SOS, 2, 2, (6, 10)⟩, ⟨jpg.EOI, 0, 10, (0, 0)⟩]⟩, none) ∧
    ((7 : Nat) : Int) + 1 < (10 : Int) ∧
      ∃ y, [0xff, 0xd8, 0xff, 0xda, 0, 2, 0x12, 0xff, 0x00, 0x34, 0xff, 0xd9][7 + 1]? = some y ∧
        (y = 0x00 ∨ y = jpg.DNL ∨ (jpg.RST0 ≤ y ∧ y ≤ jpg.RST7)) :=
  ⟨by decide,
   jpg.Open_scan_span_clean [0xff, 0xd8, 0xff, 0xda, 0, 2, 0x12, 0xff, 0x00, 0x34, 0xff, 0xd9]
     ⟨⟨[0xff, 0xd8, 0xff, 0xda, 0, 2, 0x12, 0xff, 0x00, 0x34, 0xff, 0xd9], 12⟩,
        [⟨jpg.SOI, 0, 0, (0, 0)⟩, ⟨jpg.SOS, 2, 2, (6, 10)⟩, ⟨jpg.EOI, 0, 10, (0, 0)⟩]⟩ none
     (by decide) ⟨jpg.SOS, 2, 2, (6, 10)⟩ (by simp) rfl 7 (by decide) (by decide) (by decide)⟩

/-- C8: for every descriptor of a record returned by `jpg.Open` on a file of bytes, the
source holds 0xFF and the marker at `DataOffset`; `Len` is 0 for SOI and EOI and
otherwise the big-endian value of the two bytes at `DataOffset + 2`. -/
theorem jpg.Open_headerAt (data : List Nat) (hbytes : ∀ b ∈ data, b < 256) (r : jpg.File)
    (e : Option Error) (h : jpg.Open data = Outcome.ret (some r, e)) (d : jpg.chunkHeader)
    (hd : d ∈ r.Chunks) :
    ∃ k : Nat, d.DataOffset = (k : Int) ∧ data[k]? = some 0xff ∧ data[k + 1]? = some d.Typ ∧
      ((d.Typ = jpg.SOI ∨ d.Typ = jpg.EOI) → d.Len = 0) ∧
      (¬ (d.Typ = jpg.SOI ∨ d.Typ = jpg.EOI) →
        ∃ l0 l1, data[k + 2]? = some l0 ∧ data[k + 3]? = some l1 ∧
          d.Len = ((256 * l0 + l1 : Nat) : Int)) := by
  have hall : ∀ d ∈ r.Chunks, jpg.headerAt data d := by
    refine jpg.Open_inv data (jpg.headerAt data) ?_ ?_ r e h
    · intro f f1 c hdata hrd
      obtain ⟨_, _, hoff, h0, h1, hsoi, hlen⟩ := jpg.readChunkHeader_some f f1 c hrd
      rw [hdata] at h0 h1 hlen
      refine ⟨f.pos, hoff, h0, h1, fun hh => (hsoi hh).1, ?_⟩
      intro hn
      obtain ⟨l0, l1, h2, h3, hl, _⟩ := hlen hn
      refine ⟨l0, l1, h2, h3, ?_⟩
      have hl1 : l1 < 256 := hbytes l1 (List.getElem?_mem h3)
      rw [hl, jpg.Uint16_eq l0 l1 hl1]
    · intro f f1 img c _ hc _ _
      exact hc
  exact hall d hd

/-- The truncated file FF D8 FF E1 01 04 AA BB: the record returned with the error holds the
APP1 descriptor, whose length bytes 01 04 give 260. -/
theorem jpg.Open_headerAt_witness :
    (∀ b ∈ [0xff, 0xd8, 0xff, 0xe1, 1, 4, 0xaa, 0xbb], b < 256) ∧
    jpg.Open [0xff, 0xd8, 0xff, 0xe1, 1, 4, 0xaa, 0xbb] =
      Outcome.ret (some ⟨⟨[0xff, 0xd8, 0xff, 0xe1, 1, 4, 0xaa, 0xbb], 264⟩,
        [⟨jpg.SOI, 0, 0, (0, 0)⟩, ⟨0xe1, 260, 2, (0, 0)⟩]⟩, some Error.EOF) ∧
    ∃ k : Nat, (2 : Int) = (k : Int) ∧
      [0xff, 0xd8, 0xff, 0xe1, 1, 4, 0xaa, 0xbb][k]? = some 0xff ∧
      [0xff, 0xd8, 0xff, 0xe1, 1, 4, 0xaa, 0xbb][k + 1]? = some 0xe1 ∧
      ((0xe1 = jpg.SOI ∨ 0xe1 = jpg.EOI) → (260 : Int) = 0) ∧
      (¬ (0xe1 = jpg.SOI ∨ 0xe1 = jpg.EOI) →
        ∃ l0 l1, [0xff, 0xd8, 0xff, 0xe1, 1, 4, 0xaa, 0xbb][k + 2]? = some l0 ∧
          [0xff, 0xd8, 0xff, 0xe1, 1, 4, 0xaa, 0xbb][k + 3]? = some l1 ∧
          (260 : Int) = ((256 * l0 + l1 : Nat) : Int)) :=
  ⟨by decide, by decide,
   jpg.Open_headerAt [0xff, 0xd8, 0xff, 0xe1, 1, 4, 0xaa, 0xbb] (by decide)
     ⟨⟨[0xff, 0xd8, 0xff, 0xe1, 1, 4, 0xaa, 0xbb], 264⟩,
        [⟨jpg.SOI, 0, 0, (0, 0)⟩, ⟨0xe1, 260, 2, (0, 0)⟩]⟩ (some Error.EOF)
     (by decide) ⟨0xe1, 260, 2, (0, 0)⟩ (by simp)⟩

/-- C2 at FF D8 FF E0 00 00 FF D9: `jpg.Open` accepts the file with a nil error, and the
copy of every descriptor in order gives the six bytes FF D8 FF E0 FF D9, not the eight
bytes of the file. -/
theorem jpg.copy_all_drops_zero_length :
    jpg.Open [0xff, 0xd8, 0xff, 0xe0, 0, 0, 0xff, 0xd9] =
      Outcome.ret (some ⟨⟨[0xff, 0xd8, 0xff, 0xe0, 0, 0, 0xff, 0xd9], 8⟩,
        [⟨jpg.SOI, 0, 0, (0, 0)⟩, ⟨0xe0, 0, 2, (0, 0)⟩, ⟨jpg.EOI, 0, 6, (0, 0)⟩]⟩, none) ∧
    jpg.WriteChunks ⟨[0xff, 0xd8, 0xff, 0xe0, 0, 0, 0xff, 0xd9], 8⟩ Sink.empty
        [⟨jpg.SOI, 0, 0, (0, 0)⟩, ⟨0xe0, 0, 2, (0, 0)⟩, ⟨jpg.EOI, 0, 6, (0, 0)⟩] =
      Outcome.ret (⟨[0xff, 0xd8, 0xff, 0xe0, 0, 0, 0xff, 0xd9], 8⟩,
        ⟨[0xff, 0xd8, 0xff, 0xe0, 0xff, 0xd9], none⟩, none) := by
  constructor <;> decide

/-- C7 at FF D8 FF DA 00 00 FF D9: the SOS descriptor has `DataOffset` 2 and `Len` 0, and
its span starts at 6, not at `DataOffset + 2 + Len = 4`. -/
theorem jpg.zero_length_SOS_span_start :
    jpg.Open [0xff, 0xd8, 0xff, 0xda, 0, 0, 0xff, 0xd9] =
      Outcome.ret (some ⟨⟨[0xff, 0xd8, 0xff, 0xda, 0, 0, 0xff, 0xd9], 8⟩,
        [⟨jpg.SOI, 0, 0, (0, 0)⟩, ⟨jpg.SOS, 0, 2, (6, 6)⟩, ⟨jpg.EOI, 0, 6, (0, 0)⟩]⟩, none) ∧
    (6 : Int) ≠ 2 + 2 + 0 := by
  constructor <;> decide

/-- C4 at the signature, an IHDR chunk and the eight bytes 01 00 00 00 "IDAT":
`png.Open` returns a record whose second descriptor has `Len` 4294967296, while the four
bytes 01 00 00 00 at `[DataOffset - 8, DataOffset - 4)` are 16777216 in big-endian. -/
theorem png.Open_length_high_byte :
    png.Open (png.pngSig ++ [0, 0, 0, 13] ++ png.IHDR ++ List.replicate 13 0 ++ [0, 0, 0, 0] ++
        [1, 0, 0, 0, 73, 68, 65, 84]) =
      Outcome.ret (some ⟨⟨png.pngSig ++ [0, 0, 0, 13] ++ png.IHDR ++ List.replicate 13 0 ++
          [0, 0, 0, 0] ++ [1, 0, 0, 0, 73, 68, 65, 84], 4294967341⟩,
        [⟨png.IHDR, 13, 16⟩, ⟨[73, 68, 65, 84], 4294967296, 41⟩]⟩, some Error.EOF) ∧
    ((png.pngSig ++ [0, 0, 0, 13] ++ png.IHDR ++ List.replicate 13 0 ++ [0, 0, 0, 0] ++
        [1, 0, 0, 0, 73, 68, 65, 84]).drop (41 - 8)).take 4 = [1, 0, 0, 0] ∧
    (4294967296 : Int) ≠ 1 * 2 ^ 24 + 0 * 2 ^ 16 + 0 * 2 ^ 8 + 0 := by
  refine ⟨by decide, by decide, by decide⟩

/-- C9 at the signature followed by one byte: `readChunkHeader` returns a nil pointer
with a nil error and `png.Open` panics on it. -/
theorem png.Open_truncated_header_panics :
    png.readChunkHeader ⟨png.pngSig ++ [0], 8⟩ = (⟨png.pngSig ++ [0], 9⟩, none, none) ∧
    png.Open (png.pngSig ++ [0]) = Outcome.panic := by
  constructor <;> decide

/-! ## `CopyFile` -/

theorem OsFile.Read_pos (f : OsFile) (n : Nat) (hn : 0 < n) :
    f.Read n =
      if f.data.drop f.pos = [] then (f, [], some Error.EOF)
      else (⟨f.data, f.pos + ((f.data.drop f.pos).take n).length⟩,
        (f.data.drop f.pos).take n, none) := by
  unfold OsFile.Read
  have h0 : n ≠ 0 := by omega
  simp only [h0, if_false]
  cases f.data.drop f.pos <;> simp

theorem List.take_append_take_drop_length {α : Type} (l : List α) (n m : Nat) (h : n ≤ m) :
    l.take n ++ (l.drop (l.take n).length).take (m - n) = l.take m := by
  rcases Nat.le_total n l.length with hn | hn
  · have h1 : (l.take n).length = n := by simp [hn]
    rw [h1]
    have h2 : m = n + (m - n) := by omega
    conv_rhs => rw [h2, List.take_add]
  · have h1 : l.take n = l := List.take_of_length_le hn
    rw [h1, List.drop_of_length_le (le_refl _), List.take_of_length_le (by omega : l.length ≤ m)]
    simp

/-- With enough fuel the copy loop returns. -/
theorem copyLoop_returns :
    ∀ (fuel : Nat) (src : OsFile) (dst : Sink) (len blockSize : Int), 0 < blockSize →
      len.toNat < fuel → ∃ s d e, copyLoop fuel src dst len blockSize = Outcome.ret (s, d, e) := by
  intro fuel
  induction fuel with
  | zero => intro src dst len bs _ h; omega
  | succ fuel ih =>
    intro src dst len bs hbs hfuel
    rw [copyLoop]
    by_cases hlen : len > 0
    · simp only [hlen, if_true]
      rcases hr : src.Read (if len < bs then len else bs).toNat with ⟨src1, b, oe⟩
      cases oe with
      | some e1 => exact ⟨_, _, _, rfl⟩
      | none =>
        simp only
        rcases hw : dst.Write b with ⟨dst1, k, oe2⟩
        cases oe2 with
        | some e2 => exact ⟨_, _, _, rfl⟩
        | none =>
          simp only
          refine ih src1 dst1 _ _ ?_ ?_
          · split <;> omega
          · split <;> omega
    · simp only [hlen, if_false]
      exact ⟨_, _, _, rfl⟩

/-- A copy loop that returns nil wrote the bytes of the source from its cursor, up to
`len` of them, and the sink had room for all of them. -/
theorem copyLoop_nil :
    ∀ (fuel : Nat) (src : OsFile) (dst : Sink) (len blockSize : Int) (s : OsFile) (d : Sink),
      0 < blockSize → copyLoop fuel src dst len blockSize = Outcome.ret (s, d, none) →
      s.data = src.data ∧
      s.pos = src.pos + ((src.data.drop src.pos).take len.toNat).length ∧
      d.out = dst.out ++ (src.data.drop src.pos).take len.toNat ∧
      (∀ r, dst.room = some r →
        ((src.data.drop src.pos).take len.toNat).length ≤ r ∧
        d.room = some (r - ((src.data.drop src.pos).take len.toNat).length)) ∧
      (dst.room = none → d.room = none) := by
  intro fuel
  induction fuel with
  | zero => intro src dst len bs s d _ h; simp [copyLoop] at h
  | succ fuel ih =>
    intro src dst len bs s d hbs h
    rw [copyLoop] at h
    by_cases hlen : len > 0
    · simp only [hlen, if_true] at h
      have hn : 0 < (if len < bs then len else bs).toNat := by split <;> omega
      have hle : (if len < bs then len else bs).toNat ≤ len.toNat := by split <;> omega
      have hsub : (len - (if len < bs then len else bs)).toNat =
          len.toNat - (if len < bs then len else bs).toNat := by split <;> omega
      have hbs2 : 0 < (if len < bs then len else bs) := by split <;> omega
      generalize (if len < bs then len else bs) = bs1 at h hn hle hsub hbs2
      rw [OsFile.Read_pos _ _ hn] at h
      by_cases hnil : src.data.drop src.pos = []
      · simp [hnil] at h
      · simp only [hnil, if_false] at h
        generalize hl : src.data.drop src.pos = l at h hnil
        cases hroom : dst.room with
        | none =>
          simp only [Sink.Write, hroom] at h
          obtain ⟨a1, a2, a3, a4, a5⟩ := ih _ _ _ _ s d hbs2 h
          simp only at a1 a2 a3 a4 a5
          have hd : src.data.drop (src.pos + (l.take bs1.toNat).length) =
              l.drop (l.take bs1.toNat).length := by
            rw [← hl, List.drop_drop]
          rw [hd, hsub] at a2 a3
          have key := List.take_append_take_drop_length l bs1.toNat len.toNat hle
          refine ⟨a1, ?_, ?_, ?_, fun _ => a5 trivial⟩
          · rw [a2, ← key, List.length_append]; omega
          · rw [a3, ← key, List.append_assoc]
          · intro r hr; simp at hr
        | some r =>
          simp only [Sink.Write, hroom] at h
          by_cases hfit : (l.take bs1.toNat).length ≤ r
          · simp only [hfit, if_true] at h
            obtain ⟨a1, a2, a3, a4, a5⟩ := ih _ _ _ _ s d hbs2 h
            simp only at a1 a2 a3 a4 a5
            have hd : src.data.drop (src.pos + (l.take bs1.toNat).length) =
                l.drop (l.take bs1.toNat).length := by
              rw [← hl, List.drop_drop]
            rw [hd, hsub] at a2 a3 a4
            have key := List.take_append_take_drop_length l bs1.toNat len.toNat hle
            obtain ⟨b1, b2⟩ := a4 _ rfl
            have hlenkey : (l.take len.toNat).length = (l.take bs1.toNat).length +
                ((l.drop (l.take bs1.toNat).length).take (len.toNat - bs1.toNat)).length := by
              rw [← key, List.length_append]
            refine ⟨a1, ?_, ?_, ?_, ?_⟩
            · rw [a2, hlenkey]; omega
            · rw [a3, ← key, List.append_assoc]
            · intro r2 hr2
              simp at hr2
              subst hr2
              refine ⟨by omega, ?_⟩
              rw [b2, hlenkey]
              congr 1
              omega
            · intro hh; simp at hh
          · rw [if_neg hfit] at h
            simp at h
    · simp only [hlen, if_false] at h
      simp at h
      obtain ⟨h1, h2⟩ := h
      subst h1 h2
      have : len.toNat = 0 := by omega
      simp [this]

/-- Enough room and enough bytes: the copy loop copies exactly `n` bytes. -/
theorem copyLoop_exact (data : List Nat) :
    ∀ (fuel pos n : Nat) (out : List Nat) (len blockSize : Int), 0 < blockSize →
      len.toNat = n → n < fuel → pos + n ≤ data.length →
      copyLoop fuel ⟨data, pos⟩ ⟨out, none⟩ len blockSize =
        Outcome.ret (⟨data, pos + n⟩, ⟨out ++ (data.drop pos).take n, none⟩, none) := by
  intro fuel
  induction fuel with
  | zero => intro pos n out len bs _ _ h; omega
  | succ fuel ih =>
    intro pos n out len bs hbs hn hfuel hfit
    rw [copyLoop]
    by_cases hlen : len > 0
    · simp only [hlen, if_true]
      have h1 : 0 < (if len < bs then len else bs).toNat := by split <;> omega
      have h2 : (if len < bs then len else bs).toNat ≤ n := by split <;> omega
      have h3 : (len - (if len < bs then len else bs)).toNat =
          n - (if len < bs then len else bs).toNat := by split <;> omega
      have h4 : 0 < (if len < bs then len else bs) := by split <;> omega
      generalize (if len < bs then len else bs) = bs1 at h1 h2 h3 h4
      rw [OsFile.Read_pos _ _ h1]
      have hnil : ¬ (data.drop pos = []) := by
        rw [List.drop_eq_nil_iff]
        omega
      have hlt : ((data.drop pos).take bs1.toNat).length = bs1.toNat := by
        rw [List.length_take, List.length_drop]
        omega
      simp only [hnil, if_false, Sink.Write, hlt]
      rw [ih (pos + bs1.toNat) (n - bs1.toNat) _ _ _ h4 h3 (by omega) (by omega)]
      have e1 : pos + bs1.toNat + (n - bs1.toNat) = pos + n := by omega
      have e2 : (data.drop pos).take n =
          (data.drop pos).take bs1.toNat ++ (data.drop (pos + bs1.toNat)).take (n - bs1.toNat) := by
        have : n = bs1.toNat + (n - bs1.toNat) := by omega
        conv_lhs => rw [this, List.take_add, List.drop_drop]
      rw [e1, e2, List.append_assoc]
    · simp only [hlen, if_false]
      have : n = 0 := by omega
      subst this
      simp

/-- When `CopyFile` returns nil: the loop with the block size 1024 it starts from returns
nil exactly when `len` is not positive, or the source still holds a byte at the start of
the last block and the sink has room for the bytes that remain, up to `len`. -/
theorem copyLoop_nil_iff :
    ∀ (fuel : Nat) (src : OsFile) (dst : Sink) (len : Int), len.toNat < fuel →
      ∃ s d e, copyLoop fuel src dst len 1024 = Outcome.ret (s, d, e) ∧
        (e = none ↔ (len ≤ 0 ∨
          (1024 * ((len.toNat - 1) / 1024) < src.data.length - src.pos ∧
            ∀ r, dst.room = some r → min len.toNat (src.data.length - src.pos) ≤ r))) := by
  intro fuel
  induction fuel with
  | zero => intro src dst len h; omega
  | succ fuel ih =>
    intro src dst len hfuel
    rw [copyLoop]
    by_cases hlen : len > 0
    · simp only [hlen, if_true]
      by_cases hnil : src.data.drop src.pos = []
      · have hend : src.data.length ≤ src.pos := List.drop_eq_nil_iff.1 hnil
        have h1 : 0 < (if len < 1024 then len else 1024).toNat := by split <;> omega
        rw [OsFile.Read_pos _ _ h1]
        simp only [hnil, if_true]
        refine ⟨_, _, _, rfl, ?_⟩
        constructor
        · intro h; cases h
        · rintro (h | ⟨h, _⟩)
          · omega
          · omega
      · have hrem : src.pos < src.data.length := by
          rw [List.drop_eq_nil_iff] at hnil
          omega
        by_cases hsmall : len < 1024
        · rw [if_pos hsmall]
          rw [OsFile.Read_pos _ _ (by omega : 0 < len.toNat)]
          simp only [hnil, if_false]
          have hk : ((src.data.drop src.pos).take len.toNat).length =
              min len.toNat (src.data.length - src.pos) := by
            rw [List.length_take, List.length_drop]
          cases fuel with
          | zero => omega
          | succ fuel =>
            have hdone : ¬ (len - len > 0) := by omega
            cases hroom : dst.room with
            | none =>
              simp only [Sink.Write, hroom]
              rw [copyLoop]
              simp only [hdone, if_false]
              refine ⟨_, _, _, rfl, ?_⟩
              constructor
              · intro _
                right
                refine ⟨by omega, ?_⟩
                intro r hr
                cases hr
              · intro _; rfl
            | some r =>
              simp only [Sink.Write, hroom]
              by_cases hfit : ((src.data.drop src.pos).take len.toNat).length ≤ r
              · rw [if_pos hfit]
                simp only
                rw [copyLoop]
                simp only [hdone, if_false]
                refine ⟨_, _, _, rfl, ?_⟩
                constructor
                · intro _
                  right
                  refine ⟨by omega, ?_⟩
                  intro r2 hr2
                  simp only [Option.some.injEq] at hr2
                  omega
                · intro _; rfl
              · rw [if_neg hfit]
                simp only
                refine ⟨_, _, _, rfl, ?_⟩
                constructor
                · intro h; cases h
                · rintro (h | ⟨_, h⟩)
                  · omega
                  · have := h r rfl
                    omega
        · rw [if_neg hsmall]
          have h1024 : (1024 : Int).toNat = 1024 := rfl
          rw [h1024, OsFile.Read_pos _ _ (by omega : 0 < 1024)]
          simp only [hnil, if_false]
          have hk : ((src.data.drop src.pos).take 1024).length =
              min 1024 (src.data.length - src.pos) := by
            rw [List.length_take, List.length_drop]
          cases hroom : dst.room with
          | none =>
            simp only [Sink.Write, hroom]
            obtain ⟨s, d, e, heq, hiff⟩ := ih
              ⟨src.data, src.pos + ((src.data.drop src.pos).take 1024).length⟩
              ⟨dst.out ++ (src.data.drop src.pos).take 1024, none⟩ (len - 1024) (by omega)
            refine ⟨s, d, e, heq, hiff.trans ?_⟩
            simp only [hk]
            constructor
            · rintro (h | ⟨h, _⟩)
              · right
                refine ⟨by omega, ?_⟩
                intro r hr; cases hr
              · right
                refine ⟨by omega, ?_⟩
                intro r hr; cases hr
            · rintro (h | ⟨h, _⟩)
              · omega
              · by_cases h0 : len - 1024 ≤ 0
                · exact Or.inl h0
                · right
                  refine ⟨by omega, ?_⟩
                  intro r hr; cases hr
          | some r =>
            simp only [Sink.Write, hroom]
            by_cases hfit : ((src.data.drop src.pos).take 1024).length ≤ r
            · rw [if_pos hfit]
              simp only
              obtain ⟨s, d, e, heq, hiff⟩ := ih
                ⟨src.data, src.pos + ((src.data.drop src.pos).take 1024).length⟩
                ⟨dst.out ++ (src.data.drop src.pos).take 1024,
                  some (r - ((src.data.drop src.pos).take 1024).length)⟩ (len - 1024) (by omega)
              refine ⟨s, d, e, heq, hiff.trans ?_⟩
              simp only [hk, Option.some.injEq, forall_eq'] at hfit ⊢
              constructor
              · rintro (h | ⟨h, h2⟩)
                · right
                  exact ⟨by omega, by omega⟩
                · right
                  exact ⟨by omega, by omega⟩
              · rintro (h | ⟨h, h2⟩)
                · omega
                · by_cases h0 : len - 1024 ≤ 0
                  · exact Or.inl h0
                  · right
                    exact ⟨by omega, by omega⟩
            · rw [if_neg hfit]
              simp only
              refine ⟨_, _, _, rfl, ?_⟩
              constructor
              · intro h; cases h
              · rintro (h | ⟨_, h⟩)
                · omega
                · have := h r rfl
                  omega
    · simp only [hlen, if_false]
      exact ⟨_, _, _, rfl, ⟨fun _ => Or.inl (by omega), fun _ => rfl⟩⟩

/-- The two packages hold the same `CopyFile`. -/
theorem jpg.CopyFile_eq (src : OsFile) (dst : Sink) (n : Int) :
    jpg.CopyFile src dst n = png.CopyFile src dst n := rfl

/-- C10, as the code has it: `CopyFile` always returns, and it returns nil exactly when
`n` is not positive, or the source still holds a byte where the last block of 1024
starts and the sink has room for the bytes that remain, up to `n`.  So a read that gets
fewer bytes than were asked for, but at least one, is not an error: with `n` at most
1024, fewer than `n` bytes left but at least one, and a sink without bound, `CopyFile`
returns nil after it wrote the bytes that were left.  When it returns nil the sink
received the bytes of the source from its cursor on entry, as many as remain up to `n`
(exactly `n` when `n` bytes remain) and the cursor moved past them; a read at the end of
input and a sink that takes fewer bytes than are offered give a non-nil error. -/
theorem CopyFile_copies_up_to (src : OsFile) (dst : Sink) (n : Int) :
    jpg.CopyFile src dst n = png.CopyFile src dst n ∧
    ∃ s d e, png.CopyFile src dst n = Outcome.ret (s, d, e) ∧
      (e = none ↔ (n ≤ 0 ∨
        (1024 * ((n.toNat - 1) / 1024) < src.data.length - src.pos ∧
          ∀ r, dst.room = some r → min n.toNat (src.data.length - src.pos) ≤ r))) ∧
      (0 < n → n ≤ 1024 → src.pos < src.data.length → src.data.length - src.pos < n.toNat →
        dst.room = none →
        e = none ∧ d.out = dst.out ++ src.data.drop src.pos ∧ s.pos = src.data.length ∧
          d.out.length < dst.out.length + n.toNat) ∧
      (e = none →
        s.data = src.data ∧
        d.out = dst.out ++ (src.data.drop src.pos).take n.toNat ∧
        s.pos = src.pos + ((src.data.drop src.pos).take n.toNat).length ∧
        (n.toNat ≤ src.data.length - src.pos → d.out.length = dst.out.length + n.toNat)) ∧
      (0 < n → src.data.length ≤ src.pos → e = some Error.EOF) ∧
      (∀ r, dst.room = some r → r < ((src.data.drop src.pos).take n.toNat).length →
        e ≠ none) := by
  refine ⟨rfl, ?_⟩
  obtain ⟨s, d, e, h, hiff⟩ := copyLoop_nil_iff (n.toNat + 1) src dst n (by omega)
  refine ⟨s, d, e, h, hiff, ?_, ?_, ?_, ?_⟩
  · intro hn h1024 hpos hshort hroom
    have he : e = none := by
      refine hiff.2 (Or.inr ⟨by omega, ?_⟩)
      intro r hr
      rw [hroom] at hr
      cases hr
    subst he
    obtain ⟨a1, a2, a3, a4, a5⟩ := copyLoop_nil _ _ _ _ _ s d (by decide) h
    have htake : (src.data.drop src.pos).take n.toNat = src.data.drop src.pos := by
      apply List.take_of_length_le
      rw [List.length_drop]
      omega
    rw [htake] at a2 a3
    rw [List.length_drop] at a2
    refine ⟨rfl, a3, by omega, ?_⟩
    rw [a3, List.length_append, List.length_drop]
    omega
  · intro he
    subst he
    obtain ⟨a1, a2, a3, a4, a5⟩ := copyLoop_nil _ _ _ _ _ s d (by decide) h
    refine ⟨a1, a3, a2, ?_⟩
    intro hle
    rw [a3, List.length_append, List.length_take, List.length_drop]
    omega
  · intro hn hend
    rw [copyLoop] at h
    have h1 : 0 < (if n < 1024 then n else 1024).toNat := by split <;> omega
    have hnil : src.data.drop src.pos = [] := List.drop_eq_nil_iff.2 hend
    simp only [hn, gt_iff_lt, if_true, OsFile.Read_pos _ _ h1, hnil] at h
    simp at h
    exact h.2.2.symm
  · intro r hr hlt he
    subst he
    obtain ⟨a1, a2, a3, a4, a5⟩ := copyLoop_nil _ _ _ _ _ s d (by decide) h
    have := (a4 r hr).1
    omega

/-- A source of five bytes and `n = 10`: the one read gets five bytes of the ten asked
for, and `CopyFile` returns nil after it wrote the five. -/
theorem CopyFile_copies_up_to_witness :
    (0 : Int) < 10 ∧ (10 : Int) ≤ 1024 ∧
    (OsFile.mk [1, 2, 3, 4, 5] 0).pos < (OsFile.mk [1, 2, 3, 4, 5] 0).data.length ∧
    (OsFile.mk [1, 2, 3, 4, 5] 0).data.length - (OsFile.mk [1, 2, 3, 4, 5] 0).pos <
      (10 : Int).toNat ∧
    Sink.empty.room = none ∧
    ∃ s d, png.CopyFile ⟨[1, 2, 3, 4, 5], 0⟩ Sink.empty 10 = Outcome.ret (s, d, none) ∧
      d.out = [1, 2, 3, 4, 5] ∧ s.pos = 5 ∧ d.out.length < 10 := by
  refine ⟨by decide, by decide, by decide, by decide, rfl, ?_⟩
  obtain ⟨s, d, e, h, _, h2, _⟩ := (CopyFile_copies_up_to ⟨[1, 2, 3, 4, 5], 0⟩ Sink.empty 10).2
  obtain ⟨he, b1, b2, b3⟩ := h2 (by decide) (by decide) (by decide) (by decide) rfl
  subst he
  exact ⟨s, d, h, by simpa [Sink.empty] using b1, by simpa using b2,
    by simpa [Sink.empty] using b3⟩

/-- C10 as stated fails: for a source holding five bytes and `n = 10`, `CopyFile`
returns nil after it wrote five bytes. -/
theorem CopyFile_short_read_returns_nil :
    ¬ (∀ (src : OsFile) (dst : Sink) (n : Int) (s : OsFile) (d : Sink), 0 ≤ n →
        png.CopyFile src dst n = Outcome.ret (s, d, none) →
        d.out.length = dst.out.length + n.toNat) := by
  intro h
  have := h ⟨[1, 2, 3, 4, 5], 0⟩ Sink.empty 10 ⟨[1, 2, 3, 4, 5], 5⟩ ⟨[1, 2, 3, 4, 5], none⟩
    (by decide) (by decide)
  revert this
  decide

/-! ## The PNG parser on framed chunks -/

theorem png.RawChunk.length_bytes (r : png.RawChunk) : r.bytes.length = 8 + r.body.length := by
  simp [png.RawChunk.bytes]
  omega

/-- With eight bytes left at the cursor `parseChunk` appends their descriptor and moves
the cursor past payload and CRC. -/
theorem png.parseChunk_cons8 (data : List Nat) (pos : Nat) (acc : List png.chunkHeader)
    (b0 b1 b2 b3 t0 t1 t2 t3 : Nat) (rest : List Nat)
    (h : data.drop pos = b0 :: b1 :: b2 :: b3 :: t0 :: t1 :: t2 :: t3 :: rest) :
    png.parseChunk ⟨⟨data, pos⟩, acc⟩ =
      Outcome.ret (⟨⟨data, pos + 12 + ((b0 <<< 32) + (b1 <<< 16) + (b2 <<< 8) + b3)⟩,
        acc ++ [⟨[t0, t1, t2, t3], (((b0 <<< 32) + (b1 <<< 16) + (b2 <<< 8) + b3 : Nat) : Int),
          ((pos + 8 : Nat) : Int)⟩]⟩, none) := by
  have h4 : data.drop (pos + 4) = t0 :: t1 :: t2 :: t3 :: rest := by
    rw [← List.drop_drop, h]
    rfl
  have hs : ∀ L : Nat, OsFile.Seek ⟨data, pos + 4 + 4⟩ ((L : Int) + 4) SEEK_CUR =
      (⟨data, pos + 12 + L⟩, ((pos + 12 + L : Nat) : Int), none) := by
    intro L
    apply OsFile.Seek_cur_of_eq
    simp only [Nat.cast_add, Nat.cast_ofNat]
    omega
  simp [png.parseChunk, png.readChunkHeader, OsFile.Read, h, h4, OsFile.Seek_cur_zero,
    png.skipChunk]
  have hs1 := hs (b0 <<< 32 + b1 <<< 16 + b2 <<< 8 + b3)
  simp only [Nat.cast_add] at hs1
  rw [hs1]
  simp
  omega

/-- With fewer than eight bytes left at the cursor `parseChunk` does not succeed. -/
theorem png.parseChunk_short (data : List Nat) (pos : Nat) (acc : List png.chunkHeader)
    (h : (data.drop pos).length < 8) (p1 : png.File) :
    png.parseChunk ⟨⟨data, pos⟩, acc⟩ ≠ Outcome.ret (p1, none) := by
  have h4 := List.drop_drop 4 pos data
  rcases hl : data.drop pos with _ | ⟨b0, _ | ⟨b1, _ | ⟨b2, _ | ⟨b3, _ | ⟨t0, _ | ⟨t1, _ | ⟨t2, _ | ⟨t3, rest⟩⟩⟩⟩⟩⟩⟩⟩
  all_goals rw [hl] at h h4
  all_goals simp only [List.drop_succ_cons, List.drop_zero, List.drop_nil] at h4
  all_goals try (simp at h; omega)
  all_goals simp [png.parseChunk, png.readChunkHeader, OsFile.Read, hl, ← h4]

theorem png.concatBytes_append (l1 l2 : List png.RawChunk) :
    png.concatBytes (l1 ++ l2) = png.concatBytes l1 ++ png.concatBytes l2 := by
  induction l1 with
  | nil => rfl
  | cons r rs ih => simp [png.concatBytes, ih]

theorem png.concatBytes_singleton (r : png.RawChunk) : png.concatBytes [r] = r.bytes := by
  simp [png.concatBytes]

theorem png.length_le_concatBytes (rs : List png.RawChunk) :
    rs.length ≤ (png.concatBytes rs).length := by
  induction rs with
  | nil => simp
  | cons r rs ih =>
    simp only [png.concatBytes, List.length_append, List.length_cons, png.RawChunk.length_bytes]
    omega

theorem List.exists_cons8 (l : List Nat) (h : 8 ≤ l.length) :
    ∃ b0 b1 b2 b3 t0 t1 t2 t3 rest, l = b0 :: b1 :: b2 :: b3 :: t0 :: t1 :: t2 :: t3 :: rest := by
  rcases l with _ | ⟨b0, _ | ⟨b1, _ | ⟨b2, _ | ⟨b3, _ | ⟨t0, _ | ⟨t1, _ | ⟨t2, _ | ⟨t3, rest⟩⟩⟩⟩⟩⟩⟩⟩
  all_goals try (simp at h; done)
  exact ⟨b0, b1, b2, b3, t0, t1, t2, t3, rest, rfl⟩

/-- The chunk the parser just framed, when the file reaches past it. -/
theorem png.frame_of_parse (data : List Nat) (pos : Nat) (b0 b1 b2 b3 t0 t1 t2 t3 : Nat)
    (rest : List Nat)
    (h : data.drop pos = b0 :: b1 :: b2 :: b3 :: t0 :: t1 :: t2 :: t3 :: rest)
    (hrest : (b0 <<< 32) + (b1 <<< 16) + (b2 <<< 8) + b3 + 4 ≤ rest.length) :
    ∃ r : png.RawChunk, r.wf ∧ r.Typ = [t0, t1, t2, t3] ∧
      r.Len = (b0 <<< 32) + (b1 <<< 16) + (b2 <<< 8) + b3 ∧
      data.drop pos = r.bytes ++ data.drop (pos + 12 + r.Len) := by
  generalize hL : (b0 <<< 32) + (b1 <<< 16) + (b2 <<< 8) + b3 = L at hrest
  refine ⟨⟨b0, b1, b2, b3, t0, t1, t2, t3, rest.take (L + 4)⟩, ?_, ?_, ?_, ?_⟩
  · simp only [png.RawChunk.wf, png.RawChunk.Len, List.length_take, hL]
    omega
  · simp only [png.RawChunk.Typ]
  · simp only [png.RawChunk.Len, hL]
  · have h8 : data.drop (pos + 8) = rest := by
      rw [← List.drop_drop, h]
      rfl
    have hd : data.drop (pos + 12 + L) = rest.drop (L + 4) := by
      rw [← h8, List.drop_drop]
      congr 1
      omega
    simp only [png.RawChunk.bytes, png.RawChunk.Len, hL]
    rw [hd, h, List.append_assoc, List.take_append_drop]
    rfl

/-- What the chunk loop parsed when it ends with a nil error: the bytes from the cursor to
the end of the file are well-framed chunks, the last one the first IEND. -/
theorem png.OpenLoop_frames (data : List Nat) :
    ∀ (fuel pos : Nat) (acc : List png.chunkHeader) (q : png.File),
      png.OpenLoop fuel ⟨⟨data, pos⟩, acc⟩ = Outcome.ret (some q, none) →
      ∃ mid rl, data.drop pos = png.concatBytes (mid ++ [rl]) ∧
        (∀ r ∈ mid, r.wf ∧ r.Typ ≠ png.IEND) ∧ rl.wf ∧ rl.Typ = png.IEND ∧
        q = ⟨⟨data, data.length⟩, acc ++ png.descs pos (mid ++ [rl])⟩ := by
  intro fuel
  induction fuel with
  | zero => intro pos acc q h; simp [png.OpenLoop] at h
  | succ fuel ih =>
    intro pos acc q h
    rw [png.OpenLoop] at h
    by_cases hshort : (data.drop pos).length < 8
    · have hne := png.parseChunk_short data pos acc hshort
      rcases hp : png.parseChunk ⟨⟨data, pos⟩, acc⟩ with ⟨p1, oe⟩ | _ | _
      · rw [hp] at h
        cases oe with
        | some e => simp at h
        | none => exact absurd hp (hne p1)
      · rw [hp] at h; simp at h
      · rw [hp] at h; simp at h
    · obtain ⟨b0, b1, b2, b3, t0, t1, t2, t3, rest, hl⟩ :=
        List.exists_cons8 (data.drop pos) (by omega)
      rw [png.parseChunk_cons8 data pos acc b0 b1 b2 b3 t0 t1 t2 t3 rest hl] at h
      simp only [List.getLast?_concat] at h
      have hlen : data.length - pos = 8 + rest.length := by
        have := congrArg List.length hl
        simp only [List.length_drop, List.length_cons] at this
        omega
      by_cases hT : [t0, t1, t2, t3] = png.IEND
      · simp only [hT, if_true, png.finish, OsFile.Seek_cur_zero, OsFile.Seek_end_zero] at h
        split at h
        · simp at h
        · rename_i heq
          simp only [ne_eq, not_not, Nat.cast_inj] at heq
          simp only [Outcome.ret.injEq, Prod.mk.injEq, Option.some.injEq, and_true] at h
          refine ⟨[], ⟨b0, b1, b2, b3, t0, t1, t2, t3, rest⟩, ?_, ?_, ?_, hT, ?_⟩
          · simp [png.concatBytes, png.RawChunk.bytes, hl]
          · intro r hr; simp at hr
          · simp only [png.RawChunk.wf, png.RawChunk.Len]
            omega
          · rw [← h]
            simp [png.descs, png.RawChunk.Typ, png.RawChunk.Len, hT]
      · simp only [hT, if_false] at h
        obtain ⟨mid, rl, hd, hmid, hrl, hrlT, hq⟩ := ih _ _ q h
        have hlen2 : 8 ≤ (data.drop (pos + 12 + (b0 <<< 32 + b1 <<< 16 + b2 <<< 8 + b3))).length := by
          rw [hd, png.concatBytes_append, png.concatBytes_singleton, List.length_append,
            png.RawChunk.length_bytes]
          omega
        rw [List.length_drop] at hlen2
        obtain ⟨r, hwf, hTy, hLen, hdr⟩ :=
          png.frame_of_parse data pos b0 b1 b2 b3 t0 t1 t2 t3 rest hl (by omega)
        refine ⟨r :: mid, rl, ?_, ?_, hrl, hrlT, ?_⟩
        · rw [hdr, hLen, hd]
          simp [png.concatBytes]
        · intro r2 hr2
          rcases List.mem_cons.1 hr2 with h1 | h1
          · rw [h1]; exact ⟨hwf, by rw [hTy]; exact hT⟩
          · exact hmid r2 h1
        · rw [hq]
          have hbl : r.bytes.length = 12 + (b0 <<< 32 + b1 <<< 16 + b2 <<< 8 + b3) := by
            rw [png.RawChunk.length_bytes, hwf, hLen]
            omega
          simp [png.descs, hTy, hLen, hbl, Nat.add_assoc]

/-- Function `parseChunk` at the start of a framed chunk. -/
theorem png.parseChunk_raw (data : List Nat) (pos : Nat) (acc : List png.chunkHeader)
    (r : png.RawChunk) (post : List Nat) (h : data.drop pos = r.bytes ++ post) :
    png.parseChunk ⟨⟨data, pos⟩, acc⟩ =
      Outcome.ret (⟨⟨data, pos + 12 + r.Len⟩,
        acc ++ [⟨r.Typ, (r.Len : Int), ((pos + 8 : Nat) : Int)⟩]⟩, none) := by
  simp only [png.RawChunk.bytes, List.cons_append, List.nil_append] at h
  exact png.parseChunk_cons8 data pos acc r.b0 r.b1 r.b2 r.b3 r.t0 r.t1 r.t2 r.t3 _ h

theorem List.drop_length_append (pre l : List Nat) : (pre ++ l).drop pre.length = l := by
  simp

/-- The chunk loop on well-framed chunks that end with the first IEND: it returns their
descriptors and a nil error. -/
theorem png.OpenLoop_of_frames (rl : png.RawChunk) (hrl : rl.wf) (hrlT : rl.Typ = png.IEND) :
    ∀ (mid : List png.RawChunk) (pre : List Nat) (acc : List png.chunkHeader) (fuel : Nat)
      (data : List Nat), data = pre ++ png.concatBytes (mid ++ [rl]) →
      (∀ r ∈ mid, r.wf ∧ r.Typ ≠ png.IEND) → mid.length < fuel →
      png.OpenLoop fuel ⟨⟨data, pre.length⟩, acc⟩ =
        Outcome.ret (some ⟨⟨data, data.length⟩, acc ++ png.descs pre.length (mid ++ [rl])⟩,
          none) := by
  intro mid
  induction mid with
  | nil =>
    intro pre acc fuel data hdata _ hfuel
    obtain ⟨fuel, rfl⟩ : ∃ k, fuel = k + 1 := ⟨fuel - 1, by omega⟩
    have hd : data.drop pre.length = rl.bytes ++ [] := by
      rw [hdata]
      simp [png.concatBytes]
    rw [png.OpenLoop, png.parseChunk_raw data pre.length acc rl [] hd]
    have hb : rl.body.length = rl.Len + 4 := hrl
    have hlen : pre.length + 12 + rl.Len = data.length := by
      rw [hdata]
      simp only [List.nil_append, png.concatBytes, List.append_nil, List.length_append,
        png.RawChunk.length_bytes, hb]
      omega
    simp only [List.getLast?_concat, hrlT, if_true, png.finish, OsFile.Seek_cur_zero,
      OsFile.Seek_end_zero, hlen]
    simp [png.descs, hrlT]
  | cons r mid ih =>
    intro pre acc fuel data hdata hmid hfuel
    obtain ⟨fuel, rfl⟩ : ∃ k, fuel = k + 1 := ⟨fuel - 1, by omega⟩
    have hd : data.drop pre.length = r.bytes ++ png.concatBytes (mid ++ [rl]) := by
      rw [hdata]
      simp [png.concatBytes]
    obtain ⟨hwf, hT⟩ := hmid r (List.mem_cons_self _ _)
    rw [png.OpenLoop, png.parseChunk_raw data pre.length acc r _ hd]
    simp only [List.getLast?_concat, hT, if_false]
    have hb : r.body.length = r.Len + 4 := hwf
    have hlen : pre.length + 12 + r.Len = (pre ++ r.bytes).length := by
      rw [List.length_append, png.RawChunk.length_bytes, hb]
      omega
    rw [hlen]
    rw [ih (pre ++ r.bytes) _ fuel data (by rw [hdata]; simp [png.concatBytes])
      (fun r2 hr2 => hmid r2 (List.mem_cons_of_mem _ hr2)) (by simp at hfuel; omega)]
    simp [png.descs]

theorem png.checkSignature_sig (tl : List Nat) :
    png.checkSignature ⟨png.pngSig ++ tl, 0⟩ = (⟨png.pngSig ++ tl, 8⟩, none) := by
  simp [png.checkSignature, OsFile.Read, png.pngSig]

/-- A file made of the signature, an IHDR chunk of length 13 and well-framed chunks up to
the first IEND is accepted with a nil error. -/
theorem png.Open_of_frames (r0 rl : png.RawChunk) (mid : List png.RawChunk)
    (h0 : r0.wf) (h0T : r0.Typ = png.IHDR) (h0L : (r0.Len : Int) = 13)
    (hmid : ∀ r ∈ mid, r.wf ∧ r.Typ ≠ png.IEND) (hrl : rl.wf) (hrlT : rl.Typ = png.IEND) :
    png.Open (png.pngSig ++ png.concatBytes (r0 :: (mid ++ [rl]))) =
      Outcome.ret (some ⟨⟨png.pngSig ++ png.concatBytes (r0 :: (mid ++ [rl])),
          (png.pngSig ++ png.concatBytes (r0 :: (mid ++ [rl]))).length⟩,
        png.descs 8 (r0 :: (mid ++ [rl]))⟩, none) := by
  generalize hdata : png.pngSig ++ png.concatBytes (r0 :: (mid ++ [rl])) = data
  have hsig : png.checkSignature ⟨data, 0⟩ = (⟨data, 8⟩, none) := by
    rw [← hdata]
    exact png.checkSignature_sig _
  have hd : data.drop 8 = r0.bytes ++ png.concatBytes (mid ++ [rl]) := by
    rw [← hdata]
    simp [png.concatBytes, png.pngSig]
  have hb : r0.body.length = r0.Len + 4 := h0
  have hlen : 8 + 12 + r0.Len = (png.pngSig ++ r0.bytes).length := by
    rw [List.length_append, png.RawChunk.length_bytes, hb]
    simp [png.pngSig]
    omega
  have hfuel : mid.length < data.length + 1 := by
    have := png.length_le_concatBytes (r0 :: (mid ++ [rl]))
    rw [← hdata, List.length_append]
    simp only [List.length_cons, List.length_append, List.length_singleton] at this
    omega
  rw [png.Open, hsig]
  simp only
  rw [png.parseChunk_raw data 8 [] r0 _ hd]
  simp only [List.nil_append, List.head?_cons, h0T, h0L, ne_eq, not_true_eq_false, or_self,
    if_false]
  rw [hlen]
  rw [png.OpenLoop_of_frames rl hrl hrlT mid (png.pngSig ++ r0.bytes) _ _ data
    (by rw [← hdata]; simp [png.concatBytes]) hmid hfuel]
  simp [png.descs, png.pngSig]
  refine ⟨⟨h0T.symm, h0L.symm⟩, ?_⟩
  congr 1
  omega

theorem png.checkSignature_inv (data : List Nat) (f1 : OsFile)
    (h : png.checkSignature ⟨data, 0⟩ = (f1, none)) :
    (f1 = ⟨data, 8⟩ ∧ data = png.pngSig ++ data.drop 8) ∨
      (f1 = ⟨data, data.length⟩ ∧ data.length < 8) := by
  have hr : OsFile.Read ⟨data, 0⟩ 8 =
      if data = [] then (⟨data, 0⟩, [], some Error.EOF)
      else (⟨data, (data.take 8).length⟩, data.take 8, none) := by
    rw [OsFile.Read_pos _ _ (by decide)]
    simp
  rw [png.checkSignature, hr] at h
  by_cases hnil : data = []
  · rw [if_pos hnil] at h
    simp at h
  · rw [if_neg hnil] at h
    dsimp only at h
    by_cases hlen : (data.take 8).length ≠ 8
    · rw [if_pos hlen] at h
      simp only [Prod.mk.injEq, and_true] at h
      right
      rw [List.length_take] at hlen h
      have : data.length < 8 := by omega
      refine ⟨?_, this⟩
      rw [← h]
      congr 1
      omega
    · rw [if_neg hlen] at h
      by_cases hsig : data.take 8 ≠ png.pngSig
      · rw [if_pos hsig] at h
        simp at h
      · rw [if_neg hsig] at h
        simp only [Prod.mk.injEq, and_true] at h
        simp only [ne_eq, not_not] at hlen hsig
        left
        refine ⟨?_, ?_⟩
        · rw [← h, hlen]
        · conv_lhs => rw [← List.take_append_drop 8 data, hsig]

/-- What `Open` parsed when it returns a record and a nil error: the file is the
signature followed by well-framed chunks, the first an IHDR of length 13, the last the
first IEND after it, and the record holds their descriptors. -/
theorem png.Open_frames (data : List Nat) (q : png.File)
    (h : png.Open data = Outcome.ret (some q, none)) :
    ∃ r0 mid rl, data = png.pngSig ++ png.concatBytes (r0 :: (mid ++ [rl])) ∧
      r0.wf ∧ r0.Typ = png.IHDR ∧ (r0.Len : Int) = 13 ∧
      (∀ r ∈ mid, r.wf ∧ r.Typ ≠ png.IEND) ∧ rl.wf ∧ rl.Typ = png.IEND ∧
      q = ⟨⟨data, data.length⟩, png.descs 8 (r0 :: (mid ++ [rl]))⟩ := by
  rw [png.Open] at h
  rcases hcs : png.checkSignature ⟨data, 0⟩ with ⟨f1, oe⟩
  rw [hcs] at h
  cases oe with
  | some e => simp at h
  | none =>
    simp only at h
    have hfail : ∀ pos, (data.drop pos).length < 8 →
        ¬ ((match png.parseChunk ⟨⟨data, pos⟩, []⟩ with
          | Outcome.panic => Outcome.panic
          | Outcome.outOfFuel => Outcome.outOfFuel
          | Outcome.ret (_, some e) => Outcome.ret (none, some e)
          | Outcome.ret (p1, none) =>
            match p1.Chunks.head? with
            | none => Outcome.panic
            | some c0 =>
              if c0.Typ ≠ png.IHDR ∨ c0.Len ≠ 13 then Outcome.ret (none, some Error.badIHDR)
              else png.OpenLoop (data.length + 1) p1) = Outcome.ret (some q, none)) := by
      intro pos hshort hh
      have hne := png.parseChunk_short data pos [] hshort
      rcases hp : png.parseChunk ⟨⟨data, pos⟩, []⟩ with ⟨p1, oe⟩ | _ | _
      · rw [hp] at hh
        cases oe with
        | some e => simp at hh
        | none => exact absurd hp (hne p1)
      · rw [hp] at hh; simp at hh
      · rw [hp] at hh; simp at hh
    rcases png.checkSignature_inv data f1 hcs with ⟨hf1, hsig⟩ | ⟨hf1, hlt⟩
    · subst hf1
      by_cases hshort : (data.drop 8).length < 8
      · exact absurd h (hfail 8 hshort)
      · obtain ⟨b0, b1, b2, b3, t0, t1, t2, t3, rest, hl⟩ :=
          List.exists_cons8 (data.drop 8) (by omega)
        rw [png.parseChunk_cons8 data 8 [] b0 b1 b2 b3 t0 t1 t2 t3 rest hl] at h
        simp only [List.nil_append, List.head?_cons] at h
        by_cases hbad : [t0, t1, t2, t3] ≠ png.IHDR ∨
            (((b0 <<< 32) + (b1 <<< 16) + (b2 <<< 8) + b3 : Nat) : Int) ≠ 13
        · simp only [hbad, if_true] at h
          simp at h
        · simp only [hbad, if_false] at h
          simp only [ne_eq, not_or, not_not] at hbad
          obtain ⟨hT, hL⟩ := hbad
          obtain ⟨mid, rl, hd, hmid, hrl, hrlT, hq⟩ := png.OpenLoop_frames data _ _ _ q h
          have hlen : data.length - 8 = 8 + rest.length := by
            have := congrArg List.length hl
            simp only [List.length_drop, List.length_cons] at this
            omega
          have hlen2 : 8 ≤ (data.drop (8 + 12 + (b0 <<< 32 + b1 <<< 16 + b2 <<< 8 + b3))).length := by
            rw [hd, png.concatBytes_append, png.concatBytes_singleton, List.length_append,
              png.RawChunk.length_bytes]
            omega
          rw [List.length_drop] at hlen2
          obtain ⟨r, hwf, hTy, hLen, hdr⟩ :=
            png.frame_of_parse data 8 b0 b1 b2 b3 t0 t1 t2 t3 rest hl (by omega)
          have hb : r.body.length = r.Len + 4 := hwf
          refine ⟨r, mid, rl, ?_, hwf, by rw [hTy]; exact hT, by rw [hLen]; exact hL, hmid,
            hrl, hrlT, ?_⟩
          · conv_lhs => rw [hsig, hdr, hLen, hd]
            simp [png.concatBytes]
          · rw [hq]
            have hbl : r.bytes.length = 12 + (b0 <<< 32 + b1 <<< 16 + b2 <<< 8 + b3) := by
              rw [png.RawChunk.length_bytes, hb, hLen]
              omega
            simp [png.descs, hTy, hLen, hbl, Nat.add_assoc]
            congr 1
            omega
    · subst hf1
      exact absurd h (hfail data.length (by simp))

theorem png.descs_located (data : List Nat) :
    ∀ (rs : List png.RawChunk) (pre post : List Nat),
      data = pre ++ png.concatBytes rs ++ post → (∀ r ∈ rs, r.wf) →
      List.Forall₂ (png.located data) (png.descs pre.length rs) rs := by
  intro rs
  induction rs with
  | nil => intro pre post _ _; exact List.Forall₂.nil
  | cons r rs ih =>
    intro pre post hdata hwf
    rw [png.descs]
    refine List.Forall₂.cons ⟨hwf r (List.mem_cons_self _ _), pre,
      png.concatBytes rs ++ post, ?_, rfl⟩ ?_
    · rw [hdata]
      simp [png.concatBytes]
    · have := ih (pre ++ r.bytes) post (by rw [hdata]; simp [png.concatBytes])
        (fun r2 hr2 => hwf r2 (List.mem_cons_of_mem _ hr2))
      rw [List.length_append] at this
      exact this

/-! ## Writing chunks back -/

/-- Method `WriteTo` on the descriptor of a well-framed chunk copies the bytes of the chunk. -/
theorem png.WriteTo_located (data : List Nat) (c : png.chunkHeader) (r : png.RawChunk)
    (h : png.located data c r) (pos : Nat) (out : List Nat) :
    ∃ pos1, png.WriteTo c ⟨data, pos⟩ ⟨out, none⟩ =
      Outcome.ret (⟨data, pos1⟩, ⟨out ++ r.bytes, none⟩, none) := by
  obtain ⟨hwf, pre, post, hdata, hc⟩ := h
  have hb : r.body.length = r.Len + 4 := hwf
  have hbl : r.bytes.length = r.Len + 12 := by
    rw [png.RawChunk.length_bytes, hb]
    omega
  refine ⟨pre.length + (r.Len + 12), ?_⟩
  rw [png.WriteTo, hc]
  simp only
  rw [OsFile.Seek_set_of_eq _ _ pre.length (by omega)]
  simp only [png.CopyFile]
  rw [copyLoop_exact data _ pre.length (r.Len + 12) out _ 1024 (by decide)
    (by omega) (by omega)
    (by rw [hdata]; simp only [List.length_append, hbl]; omega)]
  have ht : (data.drop pre.length).take (r.Len + 12) = r.bytes := by
    rw [hdata, List.append_assoc, List.drop_length_append, ← hbl, List.take_left']
    rfl
  rw [ht]

/-- The driver's loop on descriptors of well-framed chunks writes the chunks in order. -/
theorem png.WriteChunks_located (data : List Nat) (sel : List png.chunkHeader)
    (rs : List png.RawChunk) (h : List.Forall₂ (png.located data) sel rs) :
    ∀ (pos : Nat) (out : List Nat), ∃ pos1, png.WriteChunks ⟨data, pos⟩ ⟨out, none⟩ sel =
      Outcome.ret (⟨data, pos1⟩, ⟨out ++ png.concatBytes rs, none⟩, none) := by
  induction h with
  | nil => intro pos out; exact ⟨pos, by simp [png.WriteChunks, png.concatBytes]⟩
  | cons hcr _ ih =>
    intro pos out
    obtain ⟨pos1, h1⟩ := png.WriteTo_located data _ _ hcr pos out
    obtain ⟨pos2, h2⟩ := ih pos1 (out ++ _)
    refine ⟨pos2, ?_⟩
    rw [png.WriteChunks, h1]
    simp only
    rw [h2]
    simp [png.concatBytes]

/-- The driver's output for descriptors of well-framed chunks: the signature and the
chunks. -/
theorem png.WriteFile_located (data : List Nat) (sel : List png.chunkHeader)
    (rs : List png.RawChunk) (h : List.Forall₂ (png.located data) sel rs) (pos : Nat) :
    ∃ pos1, png.WriteFile ⟨data, pos⟩ Sink.empty sel =
      Outcome.ret (⟨data, pos1⟩, ⟨png.pngSig ++ png.concatBytes rs, none⟩, none) := by
  obtain ⟨pos1, h1⟩ := png.WriteChunks_located data sel rs h pos png.pngSig
  refine ⟨pos1, ?_⟩
  simp only [png.WriteFile, png.WriteSignatureTo, Sink.Write, Sink.empty, List.nil_append]
  exact h1

/-- C1: when `png.Open` returns a record with a nil error, the signature followed by
`WriteTo` of every descriptor of `Chunks`, in order, succeeds and writes the file
byte for byte. -/
theorem png.Open_copy_all_roundtrip (data : List Nat) (p : png.File)
    (h : png.Open data = Outcome.ret (some p, none)) :
    ∃ f, png.WriteFile p.file Sink.empty p.Chunks = Outcome.ret (f, ⟨data, none⟩, none) := by
  obtain ⟨r0, mid, rl, hdata, h0, _, _, hmid, hrl, _, hq⟩ := png.Open_frames data p h
  have hwf : ∀ r ∈ r0 :: (mid ++ [rl]), r.wf := by
    intro r hr
    rcases List.mem_cons.1 hr with h1 | h1
    · rw [h1]; exact h0
    · rcases List.mem_append.1 h1 with h2 | h2
      · exact (hmid r h2).1
      · simp at h2
        rw [h2]; exact hrl
  have hloc := png.descs_located data (r0 :: (mid ++ [rl])) png.pngSig [] (by simpa using hdata) hwf
  have h8 : png.pngSig.length = 8 := rfl
  rw [h8] at hloc
  obtain ⟨pos1, hw⟩ := png.WriteFile_located data _ _ hloc data.length
  rw [hq]
  refine ⟨⟨data, pos1⟩, ?_⟩
  rw [hw, ← hdata]

/-- The minimal PNG: signature, IHDR with 13 bytes and a CRC, IEND with a CRC. -/
theorem png.Open_copy_all_roundtrip_witness :
    png.Open (png.pngSig ++ [0, 0, 0, 13] ++ png.IHDR ++ List.replicate 13 7 ++ [1, 2, 3, 4] ++
          [0, 0, 0, 0] ++ png.IEND ++ [5, 6, 7, 8]) =
      Outcome.ret (some ⟨⟨png.pngSig ++ [0, 0, 0, 13] ++ png.IHDR ++ List.replicate 13 7 ++
          [1, 2, 3, 4] ++ [0, 0, 0, 0] ++ png.IEND ++ [5, 6, 7, 8], 45⟩,
        [⟨png.IHDR, 13, 16⟩, ⟨png.IEND, 0, 41⟩]⟩, none) ∧
    ∃ f, png.WriteFile ⟨png.pngSig ++ [0, 0, 0, 13] ++ png.IHDR ++ List.replicate 13 7 ++
          [1, 2, 3, 4] ++ [0, 0, 0, 0] ++ png.IEND ++ [5, 6, 7, 8], 45⟩ Sink.empty
        [⟨png.IHDR, 13, 16⟩, ⟨png.IEND, 0, 41⟩] =
      Outcome.ret (f, ⟨png.pngSig ++ [0, 0, 0, 13] ++ png.IHDR ++ List.replicate 13 7 ++
          [1, 2, 3, 4] ++ [0, 0, 0, 0] ++ png.IEND ++ [5, 6, 7, 8], none⟩, none) :=
  ⟨by decide,
   png.Open_copy_all_roundtrip _
     ⟨⟨png.pngSig ++ [0, 0, 0, 13] ++ png.IHDR ++ List.replicate 13 7 ++
          [1, 2, 3, 4] ++ [0, 0, 0, 0] ++ png.IEND ++ [5, 6, 7, 8], 45⟩,
        [⟨png.IHDR, 13, 16⟩, ⟨png.IEND, 0, 41⟩]⟩ (by decide)⟩

theorem png.descs_append (l1 l2 : List png.RawChunk) :
    ∀ off, png.descs off (l1 ++ l2) =
      png.descs off l1 ++ png.descs (off + (png.concatBytes l1).length) l2 := by
  induction l1 with
  | nil => intro off; simp [png.descs, png.concatBytes]
  | cons r rs ih =>
    intro off
    rw [List.cons_append, png.descs, ih]
    simp [png.descs, png.concatBytes, Nat.add_assoc]

theorem png.mem_descs (rs : List png.RawChunk) :
    ∀ (off : Nat) (c : png.chunkHeader), c ∈ png.descs off rs → ∃ r ∈ rs, c.Typ = r.Typ := by
  induction rs with
  | nil => intro off c hc; simp [png.descs] at hc
  | cons r rs ih =>
    intro off c hc
    rw [png.descs] at hc
    rcases List.mem_cons.1 hc with h1 | h1
    · exact ⟨r, List.mem_cons_self _ _, by rw [h1]⟩
    · obtain ⟨r2, hr2, hT⟩ := ih _ c h1
      exact ⟨r2, List.mem_cons_of_mem _ hr2, hT⟩

theorem List.Forall₂.exists_left {α β : Type} {R : α → β → Prop} {l1 : List α} {l2 : List β}
    (h : List.Forall₂ R l1 l2) : ∀ a ∈ l1, ∃ b, R a b := by
  induction h with
  | nil => intro a ha; simp at ha
  | cons hab _ ih =>
    intro a ha
    rcases List.mem_cons.1 ha with h1 | h1
    · rw [h1]; exact ⟨_, hab⟩
    · exact ih a h1

theorem List.exists_forall₂_of_forall_exists {α β : Type} {R : α → β → Prop} :
    ∀ (l1 : List α), (∀ a ∈ l1, ∃ b, R a b) → ∃ l2, List.Forall₂ R l1 l2 := by
  intro l1
  induction l1 with
  | nil => intro _; exact ⟨[], List.Forall₂.nil⟩
  | cons a l ih =>
    intro h
    obtain ⟨b, hb⟩ := h a (List.mem_cons_self _ _)
    obtain ⟨l2, hl2⟩ := ih (fun x hx => h x (List.mem_cons_of_mem _ hx))
    exact ⟨b :: l2, List.Forall₂.cons hb hl2⟩

theorem png.located_fields (data : List Nat) (c : png.chunkHeader) (r : png.RawChunk)
    (h : png.located data c r) : r.wf ∧ c.Typ = r.Typ ∧ c.Len = (r.Len : Int) := by
  obtain ⟨hwf, pre, post, _, hc⟩ := h
  rw [hc]
  exact ⟨hwf, rfl, rfl⟩

theorem png.located_right (data : List Nat) (sel : List png.chunkHeader)
    (rs : List png.RawChunk) (h : List.Forall₂ (png.located data) sel rs) :
    (∀ c ∈ sel, c.Typ ≠ png.IEND) → ∀ r ∈ rs, r.wf ∧ r.Typ ≠ png.IEND := by
  induction h with
  | nil => intro _ r hr; simp at hr
  | cons hcr _ ih =>
    intro hsel r hr
    obtain ⟨hwf, hT, _⟩ := png.located_fields data _ _ hcr
    rcases List.mem_cons.1 hr with h1 | h1
    · rw [h1]
      exact ⟨hwf, by rw [← hT]; exact hsel _ (List.mem_cons_self _ _)⟩
    · exact ih (fun c hc => hsel c (List.mem_cons_of_mem _ hc)) r h1

theorem png.located_map (data : List Nat) (sel : List png.chunkHeader)
    (rs : List png.RawChunk) (h : List.Forall₂ (png.located data) sel rs) :
    ∀ off, (png.descs off rs).map (fun c => (c.Typ, c.Len)) =
      sel.map (fun c => (c.Typ, c.Len)) := by
  induction h with
  | nil => intro off; rfl
  | cons hcr _ ih =>
    intro off
    obtain ⟨_, hT, hL⟩ := png.located_fields data _ _ hcr
    simp only [png.descs, List.map_cons, ih, hT, hL]

/-- The shape of a record `Open` returns with a nil error: the handle is at the end of
the file, every descriptor describes a well-framed chunk of the file, the first is an
IHDR of length 13, the last is an IEND and none between them is. -/
theorem png.Open_structure (data : List Nat) (p : png.File)
    (h : png.Open data = Outcome.ret (some p, none)) :
    p.file = ⟨data, data.length⟩ ∧ (∀ c ∈ p.Chunks, ∃ r, png.located data c r) ∧
      ∃ first mid last, p.Chunks = first :: (mid ++ [last]) ∧ first.Typ = png.IHDR ∧
        first.Len = 13 ∧ (∀ c ∈ mid, c.Typ ≠ png.IEND) ∧ last.Typ = png.IEND := by
  obtain ⟨r0, mid, rl, hdata, h0, h0T, h0L, hmid, hrl, hrlT, hq⟩ := png.Open_frames data p h
  have hwf : ∀ r ∈ r0 :: (mid ++ [rl]), r.wf := by
    intro r hr
    rcases List.mem_cons.1 hr with h1 | h1
    · rw [h1]; exact h0
    · rcases List.mem_append.1 h1 with h2 | h2
      · exact (hmid r h2).1
      · simp at h2
        rw [h2]; exact hrl
  have hloc := png.descs_located data (r0 :: (mid ++ [rl])) png.pngSig [] (by simpa using hdata) hwf
  have h8 : png.pngSig.length = 8 := rfl
  rw [h8] at hloc
  rw [hq]
  refine ⟨rfl, hloc.exists_left, ?_⟩
  refine ⟨⟨r0.Typ, (r0.Len : Int), ((8 + 8 : Nat) : Int)⟩,
    png.descs (8 + r0.bytes.length) mid,
    ⟨rl.Typ, (rl.Len : Int), ((8 + r0.bytes.length + (png.concatBytes mid).length + 8 : Nat) : Int)⟩,
    ?_, h0T, h0L, ?_, hrlT⟩
  · simp only [png.descs, png.descs_append]
  · intro c hc
    obtain ⟨r, hr, hT⟩ := png.mem_descs mid _ c hc
    rw [hT]
    exact (hmid r hr).2

/-- C3: when `png.Open` returns a record with a nil error, for every subsequence of
the descriptors that keeps the first and the last one, the signature followed by
`WriteTo` of the selected descriptors is written without error, `png.Open` accepts the
output with a nil error, and the descriptors of the output have the types and lengths of
the selected ones, in order. -/
theorem png.Open_selected_reparse (data : List Nat) (p : png.File)
    (h : png.Open data = Outcome.ret (some p, none))
    (first last : png.chunkHeader) (mid selmid : List png.chunkHeader)
    (hch : p.Chunks = first :: (mid ++ [last])) (hsub : selmid.Sublist mid) :
    ∃ f out q,
      png.WriteFile p.file Sink.empty (first :: (selmid ++ [last])) =
        Outcome.ret (f, ⟨out, none⟩, none) ∧
      png.Open out = Outcome.ret (some q, none) ∧
      q.Chunks.map (fun c => (c.Typ, c.Len)) =
        (first :: (selmid ++ [last])).map (fun c => (c.Typ, c.Len)) := by
  obtain ⟨hfile, hloc, first1, mid1, last1, hch1, hfT, hfL, hmidT, hlT⟩ :=
    png.Open_structure data p h
  rw [hch] at hch1 hloc
  obtain ⟨hf, hrest⟩ := List.cons.inj hch1
  obtain ⟨hm, hl⟩ := List.append_inj' hrest rfl
  have hl2 : last = last1 := by simpa using hl
  subst hf hm hl2
  obtain ⟨r0, hr0⟩ := hloc first (List.mem_cons_self _ _)
  obtain ⟨rl, hrl⟩ := hloc last (by simp)
  obtain ⟨rmid, hrmid⟩ := List.exists_forall₂_of_forall_exists (R := png.located data) selmid
    (fun c hc => hloc c (by
      have := hsub.subset hc
      simp [this]))
  have hall : List.Forall₂ (png.located data) (first :: (selmid ++ [last]))
      (r0 :: (rmid ++ [rl])) :=
    List.Forall₂.cons hr0 (List.rel_append hrmid (List.Forall₂.cons hrl List.Forall₂.nil))
  obtain ⟨h0wf, h0T, h0L⟩ := png.located_fields data _ _ hr0
  obtain ⟨hlwf, hlT2, _⟩ := png.located_fields data _ _ hrl
  have hmid2 := png.located_right data selmid rmid hrmid
    (fun c hc => hmidT c (hsub.subset hc))
  obtain ⟨pos1, hw⟩ := png.WriteFile_located data _ _ hall data.length
  refine ⟨⟨data, pos1⟩, _, _, by rw [hfile]; exact hw,
    png.Open_of_frames r0 rl rmid h0wf (by rw [← h0T]; exact hfT) (by rw [← h0L]; exact hfL)
      hmid2 hlwf (by rw [← hlT2]; exact hlT), ?_⟩
  exact png.located_map data _ _ hall 8

/-- A PNG with a tEXt chunk between IHDR and IEND; the selection drops the tEXt chunk. -/
theorem png.Open_selected_reparse_witness :
    png.Open (png.pngSig ++ [0, 0, 0, 13] ++ png.IHDR ++ List.replicate 13 7 ++ [1, 2, 3, 4] ++
          [0, 0, 0, 4, 116, 69, 88, 116, 9, 9, 9, 9, 1, 1, 1, 1] ++
          [0, 0, 0, 0] ++ png.IEND ++ [5, 6, 7, 8]) =
      Outcome.ret (some ⟨⟨png.pngSig ++ [0, 0, 0, 13] ++ png.IHDR ++ List.replicate 13 7 ++
          [1, 2, 3, 4] ++ [0, 0, 0, 4, 116, 69, 88, 116, 9, 9, 9, 9, 1, 1, 1, 1] ++
          [0, 0, 0, 0] ++ png.IEND ++ [5, 6, 7, 8], 61⟩,
        [⟨png.IHDR, 13, 16⟩, ⟨[116, 69, 88, 116], 4, 41⟩, ⟨png.IEND, 0, 57⟩]⟩, none) ∧
    ∃ f out q,
      png.WriteFile ⟨png.pngSig ++ [0, 0, 0, 13] ++ png.IHDR ++ List.replicate 13 7 ++
          [1, 2, 3, 4] ++ [0, 0, 0, 4, 116, 69, 88, 116, 9, 9, 9, 9, 1, 1, 1, 1] ++
          [0, 0, 0, 0] ++ png.IEND ++ [5, 6, 7, 8], 61⟩ Sink.empty
          [⟨png.IHDR, 13, 16⟩, ⟨png.IEND, 0, 57⟩] = Outcome.ret (f, ⟨out, none⟩, none) ∧
      png.Open out = Outcome.ret (some q, none) ∧
      q.Chunks.map (fun c => (c.Typ, c.Len)) = [(png.IHDR, 13), (png.IEND, 0)] :=
  ⟨by decide,
   png.Open_selected_reparse
     (png.pngSig ++ [0, 0, 0, 13] ++ png.IHDR ++ List.replicate 13 7 ++ [1, 2, 3, 4] ++
          [0, 0, 0, 4, 116, 69, 88, 116, 9, 9, 9, 9, 1, 1, 1, 1] ++
          [0, 0, 0, 0] ++ png.IEND ++ [5, 6, 7, 8])
     ⟨⟨png.pngSig ++ [0, 0, 0, 13] ++ png.IHDR ++ List.replicate 13 7 ++
          [1, 2, 3, 4] ++ [0, 0, 0, 4, 116, 69, 88, 116, 9, 9, 9, 9, 1, 1, 1, 1] ++
          [0, 0, 0, 0] ++ png.IEND ++ [5, 6, 7, 8], 61⟩,
        [⟨png.IHDR, 13, 16⟩, ⟨[116, 69, 88, 116], 4, 41⟩, ⟨png.IEND, 0, 57⟩]⟩ (by decide)
     ⟨png.IHDR, 13, 16⟩ ⟨png.IEND, 0, 57⟩ [⟨[116, 69, 88, 116], 4, 41⟩] [] rfl
     (List.nil_sublist _)⟩

/-! ## Rejected and trailing PNG inputs -/

theorem png.parseChunk_eof (data : List Nat) (pos : Nat) (acc : List png.chunkHeader)
    (h : data.drop pos = []) :
    png.parseChunk ⟨⟨data, pos⟩, acc⟩ = Outcome.ret (⟨⟨data, pos⟩, acc⟩, some Error.EOF) := by
  simp [png.parseChunk, png.readChunkHeader, OsFile.Read, h]

theorem png.len_eq_13_iff (b0 b1 b2 b3 : Nat) :
    (b0 <<< 32) + (b1 <<< 16) + (b2 <<< 8) + b3 = 13 ↔ png.be32 b0 b1 b2 b3 = 13 := by
  simp only [Nat.shiftLeft_eq, png.be32]
  norm_num
  omega

/-- C11: when the first 8 bytes of the input are not the PNG signature (also when
fewer than 8 bytes are there), and when the signature is followed by a chunk header
whose type is not "IHDR" or whose big-endian length is not 13, `png.Open` returns a nil
record and a non-nil error. -/
theorem png.Open_rejects (data : List Nat)
    (h : data.take 8 ≠ png.pngSig ∨
      ∃ b0 b1 b2 b3 t0 t1 t2 t3 rest,
        data = png.pngSig ++ b0 :: b1 :: b2 :: b3 :: t0 :: t1 :: t2 :: t3 :: rest ∧
        ([t0, t1, t2, t3] ≠ png.IHDR ∨ png.be32 b0 b1 b2 b3 ≠ 13)) :
    ∃ e, png.Open data = Outcome.ret (none, some e) := by
  rcases h with hsig | ⟨b0, b1, b2, b3, t0, t1, t2, t3, rest, hdata, hbad⟩
  · rw [png.Open]
    rcases hcs : png.checkSignature ⟨data, 0⟩ with ⟨f1, oe⟩
    cases oe with
    | some e => exact ⟨e, rfl⟩
    | none =>
      rcases png.checkSignature_inv data f1 hcs with ⟨_, hd⟩ | ⟨hf1, _⟩
      · exfalso
        apply hsig
        rw [hd]
        simp [png.pngSig]
      · subst hf1
        simp only
        rw [png.parseChunk_eof data data.length [] (by simp)]
        exact ⟨Error.EOF, rfl⟩
  · have hd : data.drop 8 = b0 :: b1 :: b2 :: b3 :: t0 :: t1 :: t2 :: t3 :: rest := by
      rw [hdata]
      simp [png.pngSig]
    have hcond : [t0, t1, t2, t3] ≠ png.IHDR ∨
        (((b0 <<< 32) + (b1 <<< 16) + (b2 <<< 8) + b3 : Nat) : Int) ≠ 13 := by
      rcases hbad with h1 | h1
      · exact Or.inl h1
      · right
        intro h2
        apply h1
        rw [← png.len_eq_13_iff]
        exact_mod_cast h2
    have hsig : png.checkSignature ⟨data, 0⟩ = (⟨data, 8⟩, none) := by
      rw [hdata]
      exact png.checkSignature_sig _
    rw [png.Open, hsig]
    simp only
    rw [png.parseChunk_cons8 data 8 [] b0 b1 b2 b3 t0 t1 t2 t3 rest hd]
    simp only [List.nil_append, List.head?_cons]
    rw [if_pos hcond]
    exact ⟨Error.badIHDR, rfl⟩

/-- A seven-byte input, and a signature followed by a header "IDAT" of length 13. -/
theorem png.Open_rejects_witness :
    (∃ e, png.Open [137, 80, 78, 71, 13, 10, 26] = Outcome.ret (none, some e)) ∧
    (∃ e, png.Open (png.pngSig ++ [0, 0, 0, 13, 73, 68, 65, 84]) = Outcome.ret (none, some e)) :=
  ⟨png.Open_rejects [137, 80, 78, 71, 13, 10, 26] (Or.inl (by decide)),
   png.Open_rejects (png.pngSig ++ [0, 0, 0, 13, 73, 68, 65, 84])
     (Or.inr ⟨0, 0, 0, 13, 73, 68, 65, 84, [], rfl, Or.inl (by decide)⟩)⟩

/-- C12: a record `png.Open` returns with a nil error has at least two descriptors; the
first has type "IHDR" and length 13, the last has type "IEND", and no descriptor before
the last has type "IEND". -/
theorem png.Open_chunk_order (data : List Nat) (p : png.File)
    (h : png.Open data = Outcome.ret (some p, none)) :
    2 ≤ p.Chunks.length ∧
    (∃ c0, p.Chunks.head? = some c0 ∧ c0.Typ = png.IHDR ∧ c0.Len = 13) ∧
    (∃ cl, p.Chunks.getLast? = some cl ∧ cl.Typ = png.IEND) ∧
    (∀ c ∈ p.Chunks.dropLast, c.Typ ≠ png.IEND) := by
  obtain ⟨_, _, first, mid, last, hch, hfT, hfL, hmid, hlT⟩ := png.Open_structure data p h
  rw [hch]
  refine ⟨by simp, ⟨first, rfl, hfT, hfL⟩, ⟨last, ?_, hlT⟩, ?_⟩
  · rw [← List.cons_append, List.getLast?_concat]
  · intro c hc
    rw [← List.cons_append, List.dropLast_concat] at hc
    rcases List.mem_cons.1 hc with h1 | h1
    · rw [h1, hfT]
      decide
    · exact hmid c h1

/-- The minimal PNG: two descriptors, IHDR of length 13 and IEND. -/
theorem png.Open_chunk_order_witness :
    png.Open (png.pngSig ++ [0, 0, 0, 13] ++ png.IHDR ++ List.replicate 13 7 ++ [1, 2, 3, 4] ++
          [0, 0, 0, 0] ++ png.IEND ++ [5, 6, 7, 8]) =
      Outcome.ret (some ⟨⟨png.pngSig ++ [0, 0, 0, 13] ++ png.IHDR ++ List.replicate 13 7 ++
          [1, 2, 3, 4] ++ [0, 0, 0, 0] ++ png.IEND ++ [5, 6, 7, 8], 45⟩,
        [⟨png.IHDR, 13, 16⟩, ⟨png.IEND, 0, 41⟩]⟩, none) ∧
    2 ≤ [(⟨png.IHDR, 13, 16⟩ : png.chunkHeader), ⟨png.IEND, 0, 41⟩].length ∧
    (∃ c0, [(⟨png.IHDR, 13, 16⟩ : png.chunkHeader), ⟨png.IEND, 0, 41⟩].head? = some c0 ∧
      c0.Typ = png.IHDR ∧ c0.Len = 13) ∧
    (∃ cl, [(⟨png.IHDR, 13, 16⟩ : png.chunkHeader), ⟨png.IEND, 0, 41⟩].getLast? = some cl ∧
      cl.Typ = png.IEND) ∧
    (∀ c ∈ [(⟨png.IHDR, 13, 16⟩ : png.chunkHeader), ⟨png.IEND, 0, 41⟩].dropLast,
      c.Typ ≠ png.IEND) :=
  ⟨by decide,
   png.Open_chunk_order
     (png.pngSig ++ [0, 0, 0, 13] ++ png.IHDR ++ List.replicate 13 7 ++ [1, 2, 3, 4] ++
          [0, 0, 0, 0] ++ png.IEND ++ [5, 6, 7, 8])
     ⟨⟨png.pngSig ++ [0, 0, 0, 13] ++ png.IHDR ++ List.replicate 13 7 ++
          [1, 2, 3, 4] ++ [0, 0, 0, 0] ++ png.IEND ++ [5, 6, 7, 8], 45⟩,
        [⟨png.IHDR, 13, 16⟩, ⟨png.IEND, 0, 41⟩]⟩ (by decide)⟩

/-- The chunk loop on well-framed chunks that end with the first IEND, followed by more
bytes: it returns their descriptors and the "data left" error. -/
theorem png.OpenLoop_of_frames_trailing (rl : png.RawChunk) (hrl : rl.wf)
    (hrlT : rl.Typ = png.IEND) (post : List Nat) (hpost : post ≠ []) :
    ∀ (mid : List png.RawChunk) (pre : List Nat) (acc : List png.chunkHeader) (fuel : Nat)
      (data : List Nat), data = pre ++ png.concatBytes (mid ++ [rl]) ++ post →
      (∀ r ∈ mid, r.wf ∧ r.Typ ≠ png.IEND) → mid.length < fuel →
      png.OpenLoop fuel ⟨⟨data, pre.length⟩, acc⟩ =
        Outcome.ret (some ⟨⟨data, data.length⟩, acc ++ png.descs pre.length (mid ++ [rl])⟩,
          some Error.dataLeft) := by
  intro mid
  induction mid with
  | nil =>
    intro pre acc fuel data hdata _ hfuel
    obtain ⟨fuel, rfl⟩ : ∃ k, fuel = k + 1 := ⟨fuel - 1, by omega⟩
    have hd : data.drop pre.length = rl.bytes ++ post := by
      rw [hdata]
      simp [png.concatBytes]
    rw [png.OpenLoop, png.parseChunk_raw data pre.length acc rl post hd]
    have hb : rl.body.length = rl.Len + 4 := hrl
    have hpl : 0 < post.length := List.length_pos.2 hpost
    have hlen : pre.length + 12 + rl.Len + post.length = data.length := by
      rw [hdata]
      simp only [List.nil_append, png.concatBytes, List.append_nil, List.length_append,
        png.RawChunk.length_bytes, hb]
      omega
    have hne : ((pre.length + 12 + rl.Len : Nat) : Int) ≠ (data.length : Int) := by
      omega
    simp only [List.getLast?_concat, hrlT, if_true, png.finish, OsFile.Seek_cur_zero,
      OsFile.Seek_end_zero]
    rw [if_pos hne]
    simp [png.descs, hrlT]
  | cons r mid ih =>
    intro pre acc fuel data hdata hmid hfuel
    obtain ⟨fuel, rfl⟩ : ∃ k, fuel = k + 1 := ⟨fuel - 1, by omega⟩
    have hd : data.drop pre.length = r.bytes ++ (png.concatBytes (mid ++ [rl]) ++ post) := by
      rw [hdata]
      simp [png.concatBytes]
    obtain ⟨hwf, hT⟩ := hmid r (List.mem_cons_self _ _)
    rw [png.OpenLoop, png.parseChunk_raw data pre.length acc r _ hd]
    simp only [List.getLast?_concat, hT, if_false]
    have hb : r.body.length = r.Len + 4 := hwf
    have hlen : pre.length + 12 + r.Len = (pre ++ r.bytes).length := by
      rw [List.length_append, png.RawChunk.length_bytes, hb]
      omega
    rw [hlen]
    rw [ih (pre ++ r.bytes) _ fuel data (by rw [hdata]; simp [png.concatBytes])
      (fun r2 hr2 => hmid r2 (List.mem_cons_of_mem _ hr2)) (by simp at hfuel; omega)]
    simp [png.descs]

/-- A file accepted by `Open`, followed by more bytes: the same descriptors and the
"data left" error. -/
theorem png.Open_of_frames_trailing (r0 rl : png.RawChunk) (mid : List png.RawChunk)
    (post : List Nat) (hpost : post ≠ [])
    (h0 : r0.wf) (h0T : r0.Typ = png.IHDR) (h0L : (r0.Len : Int) = 13)
    (hmid : ∀ r ∈ mid, r.wf ∧ r.Typ ≠ png.IEND) (hrl : rl.wf) (hrlT : rl.Typ = png.IEND) :
    png.Open (png.pngSig ++ png.concatBytes (r0 :: (mid ++ [rl])) ++ post) =
      Outcome.ret (some ⟨⟨png.pngSig ++ png.concatBytes (r0 :: (mid ++ [rl])) ++ post,
          (png.pngSig ++ png.concatBytes (r0 :: (mid ++ [rl])) ++ post).length⟩,
        png.descs 8 (r0 :: (mid ++ [rl]))⟩, some Error.dataLeft) := by
  generalize hdata : png.pngSig ++ png.concatBytes (r0 :: (mid ++ [rl])) ++ post = data
  have hsig : png.checkSignature ⟨data, 0⟩ = (⟨data, 8⟩, none) := by
    rw [← hdata, List.append_assoc]
    exact png.checkSignature_sig _
  have hd : data.drop 8 = r0.bytes ++ (png.concatBytes (mid ++ [rl]) ++ post) := by
    rw [← hdata]
    simp [png.concatBytes, png.pngSig]
  have hb : r0.body.length = r0.Len + 4 := h0
  have hlen : 8 + 12 + r0.Len = (png.pngSig ++ r0.bytes).length := by
    rw [List.length_append, png.RawChunk.length_bytes, hb]
    simp [png.pngSig]
    omega
  have hfuel : mid.length < data.length + 1 := by
    have := png.length_le_concatBytes (r0 :: (mid ++ [rl]))
    rw [← hdata, List.length_append, List.length_append]
    simp only [List.length_cons, List.length_append, List.length_singleton] at this
    omega
  rw [png.Open, hsig]
  simp only
  rw [png.parseChunk_raw data 8 [] r0 _ hd]
  simp only [List.nil_append, List.head?_cons, h0T, h0L, ne_eq, not_true_eq_false, or_self,
    if_false]
  rw [hlen]
  rw [png.OpenLoop_of_frames_trailing rl hrl hrlT post hpost mid (png.pngSig ++ r0.bytes) _ _
    data (by rw [← hdata]; simp [png.concatBytes]) hmid hfuel]
  simp [png.descs, png.pngSig]
  refine ⟨⟨h0T.symm, h0L.symm⟩, ?_⟩
  congr 1
  omega

/-- C13: when `png.Open` accepts a file with a nil error, on the file followed by a
non-empty byte string it returns a non-nil record with the same descriptors (type,
length and offset of each chunk) and a non-nil error. -/
theorem png.Open_trailing_data (F T : List Nat) (p : png.File)
    (h : png.Open F = Outcome.ret (some p, none)) (hT : T ≠ []) :
    ∃ q e, png.Open (F ++ T) = Outcome.ret (some q, some e) ∧ q.Chunks = p.Chunks := by
  obtain ⟨r0, mid, rl, hdata, h0, h0T, h0L, hmid, hrl, hrlT, hq⟩ := png.Open_frames F p h
  have key := png.Open_of_frames_trailing r0 rl mid T hT h0 h0T h0L hmid hrl hrlT
  rw [← hdata] at key
  exact ⟨_, Error.dataLeft, key, by rw [hq]⟩

/-- The minimal PNG followed by one byte. -/
theorem png.Open_trailing_data_witness :
    ∃ q e, png.Open ((png.pngSig ++ [0, 0, 0, 13] ++ png.IHDR ++ List.replicate 13 7 ++
          [1, 2, 3, 4] ++ [0, 0, 0, 0] ++ png.IEND ++ [5, 6, 7, 8]) ++ [0]) =
        Outcome.ret (some q, some e) ∧
      q.Chunks = [⟨png.IHDR, 13, 16⟩, ⟨png.IEND, 0, 41⟩] :=
  png.Open_trailing_data
    (png.pngSig ++ [0, 0, 0, 13] ++ png.IHDR ++ List.replicate 13 7 ++
          [1, 2, 3, 4] ++ [0, 0, 0, 0] ++ png.IEND ++ [5, 6, 7, 8]) [0]
    ⟨⟨png.pngSig ++ [0, 0, 0, 13] ++ png.IHDR ++ List.replicate 13 7 ++
          [1, 2, 3, 4] ++ [0, 0, 0, 0] ++ png.IEND ++ [5, 6, 7, 8], 45⟩,
        [⟨png.IHDR, 13, 16⟩, ⟨png.IEND, 0, 41⟩]⟩ (by decide) (by decide)

/-- C18 as stated fails: on a minimal PNG the record `png.Open` returns with a nil error
does not have the descriptors (IHDR, 13, 16), (IEND, 0, 33); the data of IEND starts at
offset 41. -/
theorem png.Open_minimal_not_33 :
    ¬ ∃ p, png.Open (png.pngSig ++ [0, 0, 0, 13] ++ png.IHDR ++ List.replicate 13 7 ++
          [1, 2, 3, 4] ++ [0, 0, 0, 0] ++ png.IEND ++ [5, 6, 7, 8]) =
        Outcome.ret (some p, none) ∧
      p.Chunks = [⟨png.IHDR, 13, 16⟩, ⟨png.IEND, 0, 33⟩] := by
  rintro ⟨p, h, hc⟩
  have hv : png.Open (png.pngSig ++ [0, 0, 0, 13] ++ png.IHDR ++ List.replicate 13 7 ++
          [1, 2, 3, 4] ++ [0, 0, 0, 0] ++ png.IEND ++ [5, 6, 7, 8]) =
      Outcome.ret (some ⟨⟨png.pngSig ++ [0, 0, 0, 13] ++ png.IHDR ++ List.replicate 13 7 ++
          [1, 2, 3, 4] ++ [0, 0, 0, 0] ++ png.IEND ++ [5, 6, 7, 8], 45⟩,
        [⟨png.IHDR, 13, 16⟩, ⟨png.IEND, 0, 41⟩]⟩, none) := by decide
  rw [hv] at h
  simp only [Outcome.ret.injEq, Prod.mk.injEq, Option.some.injEq, and_true] at h
  rw [← h] at hc
  revert hc
  decide

/-- C18, with the offset the code computes: for the signature, an IHDR chunk with 13
payload bytes and a CRC, and an IEND chunk with no payload and a CRC, `png.Open` returns
a nil error and the descriptors (IHDR, 13, 16), (IEND, 0, 41). -/
theorem png.Open_minimal (payload crc1 crc2 : List Nat) (hp : payload.length = 13)
    (h1 : crc1.length = 4) (h2 : crc2.length = 4) :
    png.Open (png.pngSig ++ [0, 0, 0, 13] ++ png.IHDR ++ payload ++ crc1 ++
        [0, 0, 0, 0] ++ png.IEND ++ crc2) =
      Outcome.ret (some ⟨⟨png.pngSig ++ [0, 0, 0, 13] ++ png.IHDR ++ payload ++ crc1 ++
          [0, 0, 0, 0] ++ png.IEND ++ crc2, 45⟩,
        [⟨png.IHDR, 13, 16⟩, ⟨png.IEND, 0, 41⟩]⟩, none) := by
  have hL0 : png.RawChunk.Len ⟨0, 0, 0, 13, 73, 72, 68, 82, payload ++ crc1⟩ = 13 := by
    simp [png.RawChunk.Len]
  have hL1 : png.RawChunk.Len ⟨0, 0, 0, 0, 73, 69, 78, 68, crc2⟩ = 0 := by
    simp [png.RawChunk.Len]
  have hw0 : png.RawChunk.wf ⟨0, 0, 0, 13, 73, 72, 68, 82, payload ++ crc1⟩ := by
    rw [png.RawChunk.wf, hL0]
    simp [hp, h1]
  have hw1 : png.RawChunk.wf ⟨0, 0, 0, 0, 73, 69, 78, 68, crc2⟩ := by
    rw [png.RawChunk.wf, hL1]
    simp [h2]
  have key := png.Open_of_frames ⟨0, 0, 0, 13, 73, 72, 68, 82, payload ++ crc1⟩
    ⟨0, 0, 0, 0, 73, 69, 78, 68, crc2⟩ [] hw0 rfl (by rw [hL0]; rfl)
    (by intro r hr; simp at hr) hw1 rfl
  have hdata : png.pngSig ++ png.concatBytes
      (⟨0, 0, 0, 13, 73, 72, 68, 82, payload ++ crc1⟩ ::
        ([] ++ [⟨0, 0, 0, 0, 73, 69, 78, 68, crc2⟩])) =
      png.pngSig ++ [0, 0, 0, 13] ++ png.IHDR ++ payload ++ crc1 ++
        [0, 0, 0, 0] ++ png.IEND ++ crc2 := by
    simp [png.concatBytes, png.RawChunk.bytes, png.IHDR, png.IEND]
  rw [hdata] at key
  rw [key]
  have hlen : (png.pngSig ++ [0, 0, 0, 13] ++ png.IHDR ++ payload ++ crc1 ++
        [0, 0, 0, 0] ++ png.IEND ++ crc2).length = 45 := by
    simp [png.pngSig, png.IHDR, png.IEND, hp, h1, h2]
  rw [hlen]
  simp only [List.nil_append, png.descs, hL0, hL1, png.RawChunk.length_bytes,
    List.length_append, hp, h1]
  rfl

/-- A minimal PNG with payload bytes 7 and CRC bytes 1 2 3 4 and 5 6 7 8. -/
theorem png.Open_minimal_witness :
    png.Open (png.pngSig ++ [0, 0, 0, 13] ++ png.IHDR ++ List.replicate 13 7 ++ [1, 2, 3, 4] ++
        [0, 0, 0, 0] ++ png.IEND ++ [5, 6, 7, 8]) =
      Outcome.ret (some ⟨⟨png.pngSig ++ [0, 0, 0, 13] ++ png.IHDR ++ List.replicate 13 7 ++
          [1, 2, 3, 4] ++ [0, 0, 0, 0] ++ png.IEND ++ [5, 6, 7, 8], 45⟩,
        [⟨png.IHDR, 13, 16⟩, ⟨png.IEND, 0, 41⟩]⟩, none) :=
  png.Open_minimal (List.replicate 13 7) [1, 2, 3, 4] [5, 6, 7, 8] (by decide) (by decide)
    (by decide)

/-! ## The JPEG parser: first segment, framing errors, progress -/

theorem jpg.readChunkHeader_standalone (data : List Nat) (pos t : Nat)
    (h0 : data[pos]? = some 0xff) (h1 : data[pos + 1]? = some t)
    (ht : t = jpg.SOI ∨ t = jpg.EOI) :
    jpg.readChunkHeader ⟨data, pos⟩ =
      (⟨data, pos + 2⟩, some ⟨t, 0, (pos : Int), (0, 0)⟩, none) := by
  rw [jpg.readChunkHeader, OsFile.Read_one]
  simp only [h0, ne_eq, not_true_eq_false, if_false]
  rw [OsFile.Read_one]
  simp only [h1, ht, if_true, OsFile.Seek_cur_zero]
  simp only [Prod.mk.injEq, Option.some.injEq, jpg.chunkHeader.mk.injEq, and_true, true_and]
  push_cast
  omega

theorem jpg.readChunkHeader_lengthed (data : List Nat) (pos t l0 l1 : Nat)
    (h0 : data[pos]? = some 0xff) (h1 : data[pos + 1]? = some t)
    (ht : ¬ (t = jpg.SOI ∨ t = jpg.EOI))
    (h2 : data[pos + 2]? = some l0) (h3 : data[pos + 3]? = some l1) :
    jpg.readChunkHeader ⟨data, pos⟩ =
      (⟨data, pos + 4⟩, some ⟨t, ((jpg.Uint16 l0 l1 : Nat) : Int), (pos : Int), (0, 0)⟩,
        none) := by
  rw [jpg.readChunkHeader, OsFile.Read_one]
  simp only [h0, ne_eq, not_true_eq_false, if_false]
  rw [OsFile.Read_one]
  simp only [h1, ht, if_false]
  rw [OsFile.Read_two]
  have h2' : data[pos + 1 + 1]? = some l0 := h2
  have h3' : data[pos + 1 + 1 + 1]? = some l1 := h3
  simp only [h2', h3', OsFile.Seek_cur_zero]
  simp only [Prod.mk.injEq, Option.some.injEq, jpg.chunkHeader.mk.injEq, and_true, true_and]
  push_cast
  omega

/-- What `skipChunk` does after a header was read at `pos`: the cursor ends at least two
bytes after `pos`. -/
theorem jpg.skipChunk_after (data : List Nat) (pos k : Nat) (c : jpg.chunkHeader)
    (hk : pos + 2 ≤ k) (hlen : c.Len = 0 ∨ (0 < c.Len ∧ pos + 4 ≤ k)) :
    ∃ k2, jpg.skipChunk ⟨data, k⟩ c = (⟨data, k2⟩, none) ∧ pos + 2 ≤ k2 ∧
      (c.Len = 0 → k2 = k) ∧ (c.Len ≠ 0 → (k2 : Int) = (k : Int) + c.Len - 2) := by
  unfold jpg.skipChunk
  by_cases h0 : c.Len = 0
  · rw [if_pos h0]
    exact ⟨k, rfl, hk, fun _ => rfl, fun hn => absurd h0 hn⟩
  · rw [if_neg h0]
    rcases hlen with h1 | ⟨h1, h2⟩
    · exact absurd h1 h0
    · have hk2 : ((OsFile.mk data k).pos : Int) + (c.Len - 2) = (((k : Int) + c.Len - 2).toNat : Nat) := by
        simp only
        omega
      rw [OsFile.Seek_cur_of_eq _ _ _ hk2]
      refine ⟨_, rfl, ?_, fun hh => absurd hh h0, fun _ => ?_⟩
      · omega
      · omega

/-- A `parseChunk` that appends a descriptor moves the cursor at least two bytes
forward, past two bytes that are in the file. -/
theorem jpg.parseChunk_progress (j j1 : jpg.File)
    (h : jpg.parseChunk j = Outcome.ret (j1, none)) :
    j.file.pos + 2 ≤ j1.file.pos ∧ j.file.pos + 2 ≤ j.file.data.length ∧
      j1.file.data = j.file.data := by
  have hdata := (jpg.parseChunk_ret j j1 none h).1
  unfold jpg.parseChunk at h
  rcases hr : jpg.readChunkHeader j.file with ⟨f1, oc, oe⟩
  rw [hr] at h
  cases oe with
  | some e1 => simp at h
  | none =>
    cases oc with
    | none => simp at h
    | some c =>
      simp only at h
      obtain ⟨hd1, _, _, _, h1, hsoi, hlen⟩ := jpg.readChunkHeader_some j.file f1 c hr
      have hin : j.file.pos + 1 < j.file.data.length := (List.getElem?_eq_some.1 h1).1
      have hf1 : f1 = ⟨j.file.data, f1.pos⟩ := by
        cases f1
        simp only at hd1
        rw [hd1]
      have hpos : j.file.pos + 2 ≤ f1.pos ∧ (c.Len = 0 ∨ (0 < c.Len ∧ j.file.pos + 4 ≤ f1.pos)) := by
        by_cases ht : c.Typ = jpg.SOI ∨ c.Typ = jpg.EOI
        · obtain ⟨a, b⟩ := hsoi ht
          exact ⟨by omega, Or.inl a⟩
        · obtain ⟨l0, l1, _, _, a, b⟩ := hlen ht
          refine ⟨by omega, ?_⟩
          by_cases hz : c.Len = 0
          · exact Or.inl hz
          · exact Or.inr ⟨by omega, by omega⟩
      obtain ⟨k2, hsk, hk2, _, _⟩ := jpg.skipChunk_after j.file.data j.file.pos f1.pos c hpos.1 hpos.2
      rw [hf1, hsk] at h
      simp only [Outcome.ret.injEq, Prod.mk.injEq, and_true] at h
      rw [← h]
      exact ⟨hk2, by omega, rfl⟩

theorem jpg.parseChunk_ne_outOfFuel (j : jpg.File) : jpg.parseChunk j ≠ Outcome.outOfFuel := by
  unfold jpg.parseChunk
  rcases jpg.readChunkHeader j.file with ⟨f1, oc, oe⟩
  cases oe with
  | some e1 => simp
  | none =>
    cases oc with
    | none => simp
    | some c =>
      simp only
      rcases jpg.skipChunk f1 c with ⟨f2, oe2⟩
      cases oe2 <;> simp

/-- With a unit of fuel for every byte from the cursor on, and one more, the scan loop
returns. -/
theorem jpg.scanLoop_returns (data : List Nat) (start : Int) :
    ∀ (fuel p : Nat), data.length < p + fuel → 0 < fuel →
      jpg.scanLoop fuel ⟨data, p⟩ start ≠ Outcome.outOfFuel := by
  intro fuel
  induction fuel with
  | zero => intro p _ h; omega
  | succ fuel ih =>
    intro p hlt _
    rw [jpg.scanLoop_succ]
    cases h0 : data[p]? with
    | none => simp
    | some b =>
      have hp : p < data.length := (List.getElem?_eq_some.1 h0).1
      simp only []
      by_cases hb : b = 0xff
      · simp only [hb, if_true]
        cases h1 : data[p + 1]? with
        | none => simp
        | some y =>
          have hp1 : p + 1 < data.length := (List.getElem?_eq_some.1 h1).1
          simp only []
          by_cases hy : jpg.stuffed y = true
          · simp only [hy, if_true]
            exact ih (p + 2) (by omega) (by omega)
          · simp [hy]
      · simp only [hb, if_false]
        exact ih (p + 1) (by omega) (by omega)

/-- The only error `parseImageData` returns is the `io.EOF` of a read. -/
theorem jpg.scanLoop_error (data : List Nat) (start : Int) :
    ∀ (fuel p : Nat) (f : OsFile) (img : Int × Int) (e : Error),
      jpg.scanLoop fuel ⟨data, p⟩ start = Outcome.ret (f, img, some e) → e = Error.EOF := by
  intro fuel
  induction fuel with
  | zero => intro p f img e h; simp [jpg.scanLoop] at h
  | succ fuel ih =>
    intro p f img e h
    rw [jpg.scanLoop_succ] at h
    cases h0 : data[p]? with
    | none =>
      simp [h0] at h
      exact h.2.2.symm
    | some b =>
      simp only [h0] at h
      by_cases hb : b = 0xff
      · simp only [hb, if_true] at h
        cases h1 : data[p + 1]? with
        | none =>
          simp [h1] at h
          exact h.2.2.symm
        | some y =>
          simp only [h1] at h
          by_cases hy : jpg.stuffed y = true
          · simp only [hy, if_true] at h
            exact ih _ f img e h
          · simp [hy] at h
      · simp only [hb, if_false] at h
        exact ih _ f img e h

theorem jpg.storeImageData_ne_outOfFuel (j : jpg.File) :
    jpg.storeImageData j ≠ Outcome.outOfFuel := by
  unfold jpg.storeImageData
  cases j.Chunks.getLast? with
  | none => simp
  | some c =>
    simp only
    by_cases hs : c.Typ = jpg.SOS
    · simp only [hs, if_true]
      have hne : jpg.parseImageData j.file ≠ Outcome.outOfFuel := by
        rw [jpg.parseImageData, OsFile.Seek_cur_zero]
        exact jpg.scanLoop_returns j.file.data _ _ j.file.pos (by omega) (by omega)
      rcases hp : jpg.parseImageData j.file with ⟨f1, img, oe⟩ | _ | _
      · cases oe <;> simp
      · simp
      · exact absurd hp hne
    · simp [hs]

theorem jpg.storeImageData_error (j j2 : jpg.File) (e : Error)
    (h : jpg.storeImageData j = Outcome.ret (j2, some e)) : e = Error.EOF := by
  unfold jpg.storeImageData at h
  cases hl : j.Chunks.getLast? with
  | none => simp [hl] at h
  | some c =>
    simp only [hl] at h
    by_cases hs : c.Typ = jpg.SOS
    · simp only [hs, if_true] at h
      rcases hp : jpg.parseImageData j.file with ⟨f1, img, oe⟩ | _ | _
      · rw [hp] at h
        cases oe with
        | none => simp at h
        | some e1 =>
          simp at h
          rw [jpg.parseImageData, OsFile.Seek_cur_zero] at hp
          rw [← h.2]
          exact jpg.scanLoop_error j.file.data _ _ _ f1 img e1 hp
      · rw [hp] at h; simp at h
      · rw [hp] at h; simp at h
    · simp [hs] at h

theorem jpg.storeImageData_pos (j j2 : jpg.File)
    (h : jpg.storeImageData j = Outcome.ret (j2, none)) :
    j.file.pos ≤ j2.file.pos ∧ j2.file.data = j.file.data := by
  rcases jpg.storeImageData_ret j j2 h with ⟨heq, _⟩ | ⟨c, f1, img, _, _, hpi, heq⟩
  · rw [heq]
    exact ⟨le_refl _, rfl⟩
  · obtain ⟨a1, a2, _, a4, a5⟩ := jpg.parseImageData_clean j.file f1 img hpi
    rw [heq]
    exact ⟨by simp only; omega, a4⟩

/-- Function `parseChunk` after `readChunkHeader` returned a descriptor read at `pos`: it
appends the descriptor. -/
theorem jpg.parseChunk_of_header (data : List Nat) (pos k : Nat) (acc : List jpg.chunkHeader)
    (c : jpg.chunkHeader)
    (hr : jpg.readChunkHeader ⟨data, pos⟩ = (⟨data, k⟩, some c, none))
    (hk : pos + 2 ≤ k) (hlen : c.Len = 0 ∨ (0 < c.Len ∧ pos + 4 ≤ k)) :
    ∃ k2, jpg.parseChunk ⟨⟨data, pos⟩, acc⟩ = Outcome.ret (⟨⟨data, k2⟩, acc ++ [c]⟩, none) := by
  obtain ⟨k2, hsk, _, _, _⟩ := jpg.skipChunk_after data pos k c hk hlen
  refine ⟨k2, ?_⟩
  simp only [jpg.parseChunk, hr, hsk]

/-- C14: when the input starts with 0xFF, a marker byte other than SOI and, unless the
marker is EOI, two length bytes, `jpg.Open` returns a nil record and a non-nil error; on
FF D8 FF D9 it returns a nil error and the descriptors (SOI, 0, offset 0) and
(EOI, 0, offset 2), both without a scan span. -/
theorem jpg.Open_first_marker :
    (∀ (t : Nat) (rest : List Nat), t ≠ jpg.SOI → (t = jpg.EOI ∨ 2 ≤ rest.length) →
      jpg.Open (0xff :: t :: rest) = Outcome.ret (none, some Error.badSOI)) ∧
    jpg.Open [0xff, 0xd8, 0xff, 0xd9] =
      Outcome.ret (some ⟨⟨[0xff, 0xd8, 0xff, 0xd9], 4⟩,
        [⟨jpg.SOI, 0, 0, (0, 0)⟩, ⟨jpg.EOI, 0, 2, (0, 0)⟩]⟩, none) := by
  refine ⟨?_, by decide⟩
  intro t rest ht hrest
  have key : ∃ k2 c, jpg.parseChunk ⟨⟨0xff :: t :: rest, 0⟩, []⟩ =
      Outcome.ret (⟨⟨0xff :: t :: rest, k2⟩, [] ++ [c]⟩, none) ∧ c.Typ = t := by
    by_cases hs : t = jpg.SOI ∨ t = jpg.EOI
    · have hr := jpg.readChunkHeader_standalone (0xff :: t :: rest) 0 t (by simp) (by simp) hs
      obtain ⟨k2, h2⟩ := jpg.parseChunk_of_header _ 0 2 [] _ hr (by omega) (Or.inl rfl)
      exact ⟨k2, _, h2, rfl⟩
    · rcases hrest with he | hl
      · exact absurd (Or.inr he) hs
      · rcases rest with _ | ⟨l0, _ | ⟨l1, rest2⟩⟩
        · simp at hl
        · simp at hl
        · have hr := jpg.readChunkHeader_lengthed (0xff :: t :: l0 :: l1 :: rest2) 0 t l0 l1
            (by simp) (by simp) hs (by simp) (by simp)
          have hlen : ((jpg.Uint16 l0 l1 : Nat) : Int) = 0 ∨
              (0 < ((jpg.Uint16 l0 l1 : Nat) : Int) ∧ 0 + 4 ≤ 4) := by
            omega
          obtain ⟨k2, h2⟩ := jpg.parseChunk_of_header _ 0 4 [] _ hr (by omega) hlen
          exact ⟨k2, _, h2, rfl⟩
  obtain ⟨k2, c, hp, hc⟩ := key
  rw [jpg.Open, hp]
  simp only [List.nil_append, List.head?_cons, hc]
  rw [if_pos ht]

/-- The inputs FF D9 and FF E0 00 10: a readable first segment that is not SOI. -/
theorem jpg.Open_first_marker_witness :
    jpg.Open [0xff, 0xd9] = Outcome.ret (none, some Error.badSOI) ∧
    jpg.Open [0xff, 0xe0, 0x00, 0x10] = Outcome.ret (none, some Error.badSOI) :=
  ⟨jpg.Open_first_marker.1 0xd9 [] (by decide) (Or.inl rfl),
   jpg.Open_first_marker.1 0xe0 [0x00, 0x10] (by decide) (Or.inr (by decide))⟩

/-- C15 as stated fails: on FF D8 00, where the segment after SOI does not begin with
0xFF, `jpg.Open` returns the record with the SOI descriptor, not a nil record, together
with the error. -/
theorem jpg.Open_framing_error_not_nil :
    jpg.Open [0xff, 0xd8, 0x00] =
      Outcome.ret (some ⟨⟨[0xff, 0xd8, 0x00], 3⟩, [⟨jpg.SOI, 0, 0, (0, 0)⟩]⟩,
        some Error.noFF) ∧
    ¬ ∃ e, jpg.Open [0xff, 0xd8, 0x00] = Outcome.ret (none, some e) := by
  have hv : jpg.Open [0xff, 0xd8, 0x00] =
      Outcome.ret (some ⟨⟨[0xff, 0xd8, 0x00], 3⟩, [⟨jpg.SOI, 0, 0, (0, 0)⟩]⟩,
        some Error.noFF) := by decide
  refine ⟨hv, ?_⟩
  rintro ⟨e, he⟩
  rw [hv] at he
  simp at he

theorem jpg.OpenLoop_noFF_record :
    ∀ (fuel : Nat) (j : jpg.File) (r : Option jpg.File),
      jpg.OpenLoop fuel j = Outcome.ret (r, some Error.noFF) → ∃ q, r = some q := by
  intro fuel
  induction fuel with
  | zero => intro j r h; simp [jpg.OpenLoop] at h
  | succ fuel ih =>
    intro j r h
    rw [jpg.OpenLoop] at h
    rcases hp : jpg.parseChunk j with ⟨j1, oe⟩ | _ | _
    · rw [hp] at h
      cases oe with
      | some e1 =>
        simp at h
        exact ⟨j1, h.1.symm⟩
      | none =>
        simp only at h
        rcases hst : jpg.storeImageData j1 with ⟨j2, oe2⟩ | _ | _
        · rw [hst] at h
          cases oe2 with
          | some e2 =>
            have := jpg.storeImageData_error j1 j2 e2 hst
            subst this
            simp at h
          | none =>
            simp only at h
            cases hl : j2.Chunks.getLast? with
            | none => simp [hl] at h
            | some c =>
              simp only [hl] at h
              by_cases hc : c.Typ = jpg.EOI
              · simp only [hc, if_true] at h
                simp only [jpg.finish, OsFile.Seek_cur_zero, OsFile.Seek_end_zero] at h
                split at h <;> simp at h
              · simp only [hc, if_false] at h
                exact ih j2 r h
        · rw [hst] at h; simp at h
        · rw [hst] at h; simp at h
    · rw [hp] at h; simp at h
    · rw [hp] at h; simp at h

/-! ## Framing errors after SOI -/

theorem List.getElem?_append_at {α : Type} (pre l : List α) (i : Nat) :
    (pre ++ l)[pre.length + i]? = l[i]? := by
  rw [List.getElem?_append_right (by omega)]
  congr 1
  omega

/-- The segment loop started at a byte that is not 0xFF returns the record with the
descriptors it holds, and the framing error. -/
theorem jpg.OpenLoop_framing_error (fuel : Nat) (j : jpg.File) (b : Nat)
    (hb : j.file.data[j.file.pos]? = some b) (hne : b ≠ 0xff) :
    jpg.OpenLoop (fuel + 1) j =
      Outcome.ret (some ⟨⟨j.file.data, j.file.pos + 1⟩, j.Chunks⟩, some Error.noFF) := by
  rw [jpg.OpenLoop, jpg.parseChunk, jpg.readChunkHeader, OsFile.Read_one]
  simp only [hb, ne_eq, hne, not_false_eq_true, if_true]

/-- At every segment start `Open` is in its loop, with fuel for the rest of the file. -/
theorem jpg.SegmentStart_loop (data : List Nat) (j : jpg.File)
    (h : jpg.SegmentStart data j) :
    j.file.data = data ∧
      ∃ fuel, jpg.Open data = jpg.OpenLoop fuel j ∧ data.length + 2 ≤ j.file.pos + 2 * fuel := by
  induction h with
  | first j1 hp hhead =>
    obtain ⟨c0, hh, hc⟩ := hhead
    obtain ⟨h1, _, hd⟩ := jpg.parseChunk_progress _ j1 hp
    simp only at h1 hd
    refine ⟨hd, data.length + 1, ?_, by omega⟩
    rw [jpg.Open, hp]
    simp only [hh, hc, ne_eq, not_true_eq_false, if_false]
  | next j j1 j2 _ hp hst hlast ih =>
    obtain ⟨c, hl, hc⟩ := hlast
    obtain ⟨hd, fuel, hopen, hfuel⟩ := ih
    obtain ⟨h1, h2, hd1⟩ := jpg.parseChunk_progress j j1 hp
    obtain ⟨h3, hd2⟩ := jpg.storeImageData_pos j1 j2 hst
    rw [hd] at h2
    cases fuel with
    | zero => omega
    | succ k =>
      refine ⟨by rw [hd2, hd1, hd], k, ?_, by omega⟩
      rw [hopen, jpg.OpenLoop, hp]
      simp only
      rw [hst]
      simp only [hl, hc, if_false]

/-- When a top-level segment starts at a byte that is not 0xFF, `Open` returns the
descriptors of the segments before it and the framing error. -/
theorem jpg.Open_at_segment_start (data : List Nat) (j : jpg.File) (b : Nat)
    (h : jpg.SegmentStart data j) (hb : data[j.file.pos]? = some b) (hne : b ≠ 0xff) :
    jpg.Open data =
      Outcome.ret (some ⟨⟨data, j.file.pos + 1⟩, j.Chunks⟩, some Error.noFF) := by
  obtain ⟨hd, fuel, hopen, hfuel⟩ := jpg.SegmentStart_loop data j h
  have hlt : j.file.pos < data.length := by
    by_contra hge
    rw [List.getElem?_eq_none (by omega)] at hb
    cases hb
  cases fuel with
  | zero => omega
  | succ k =>
    rw [hopen, jpg.OpenLoop_framing_error k j b (by rw [hd]; exact hb) hne, hd]

theorem jpg.RawSegment.bytes_length (r : jpg.RawSegment) :
    r.bytes.length = r.payload.length + 4 := by
  simp [jpg.RawSegment.bytes]

/-- On a well-formed segment `parseChunk` appends its descriptor and moves the cursor to
the byte after its payload. -/
theorem jpg.parseChunk_segment (data pre tail : List Nat) (r : jpg.RawSegment)
    (acc : List jpg.chunkHeader) (hdata : data = pre ++ (r.bytes ++ tail)) (hwf : r.wf) :
    jpg.parseChunk ⟨⟨data, pre.length⟩, acc⟩ =
      Outcome.ret (⟨⟨data, pre.length + r.bytes.length⟩,
        acc ++ [⟨r.marker, (r.Len : Int), (pre.length : Int), (0, 0)⟩]⟩, none) := by
  obtain ⟨hsoi, heoi, _, hlen⟩ := hwf
  have g : ∀ i, data[pre.length + i]? = (r.bytes ++ tail)[i]? := by
    intro i
    rw [hdata]
    exact List.getElem?_append_at pre _ i
  have h0 : data[pre.length]? = some 0xff := by
    have := g 0
    simpa [jpg.RawSegment.bytes] using this
  have h1 : data[pre.length + 1]? = some r.marker := by
    have := g 1
    simpa [jpg.RawSegment.bytes] using this
  have h2 : data[pre.length + 2]? = some r.l0 := by
    have := g 2
    simpa [jpg.RawSegment.bytes] using this
  have h3 : data[pre.length + 3]? = some r.l1 := by
    have := g 3
    simpa [jpg.RawSegment.bytes] using this
  have ht : ¬ (r.marker = jpg.SOI ∨ r.marker = jpg.EOI) := by
    rintro (h | h)
    · exact hsoi h
    · exact heoi h
  have hr := jpg.readChunkHeader_lengthed data pre.length r.marker r.l0 r.l1 h0 h1 ht h2 h3
  have hL : jpg.Uint16 r.l0 r.l1 = r.payload.length + 2 := hlen
  rw [hL] at hr
  have hL2 : r.Len = r.payload.length + 2 := hlen
  rw [hL2, jpg.RawSegment.bytes_length]
  have hsk : jpg.skipChunk ⟨data, pre.length + 4⟩
      ⟨r.marker, ((r.payload.length + 2 : Nat) : Int), (pre.length : Int), (0, 0)⟩ =
      (⟨data, pre.length + (r.payload.length + 4)⟩, none) := by
    unfold jpg.skipChunk
    have hne : ¬ (((r.payload.length + 2 : Nat) : Int) = 0) := by omega
    simp only [hne, if_false]
    rw [OsFile.Seek_cur_of_eq _ _ (pre.length + (r.payload.length + 4)) (by simp only; omega)]
  simp only [jpg.parseChunk, hr, hsk]

/-- After a descriptor that is not SOS there is no scan to read. -/
theorem jpg.storeImageData_not_SOS (f : OsFile) (acc : List jpg.chunkHeader)
    (c : jpg.chunkHeader) (hc : c.Typ ≠ jpg.SOS) :
    jpg.storeImageData ⟨f, acc ++ [c]⟩ = Outcome.ret (⟨f, acc ++ [c]⟩, none) := by
  have hl : (acc ++ [c]).getLast? = some c := by simp
  unfold jpg.storeImageData
  simp only [hl]
  rw [if_neg hc]

/-- A run of well-formed segments takes the segment loop from one segment start to the
next, descriptor by descriptor. -/
theorem jpg.SegmentStart_segments (data : List Nat) :
    ∀ (segs : List jpg.RawSegment) (pre tail : List Nat) (acc : List jpg.chunkHeader),
      data = pre ++ (jpg.concatSegments segs ++ tail) → (∀ r ∈ segs, r.wf) →
      jpg.SegmentStart data ⟨⟨data, pre.length⟩, acc⟩ →
      jpg.SegmentStart data ⟨⟨data, pre.length + (jpg.concatSegments segs).length⟩,
        acc ++ jpg.segmentDescs pre.length segs⟩ := by
  intro segs
  induction segs with
  | nil =>
    intro pre tail acc _ _ h
    simpa [jpg.concatSegments, jpg.segmentDescs] using h
  | cons r rs ih =>
    intro pre tail acc hdata hwf h
    have hr : r.wf := hwf r (List.mem_cons_self _ _)
    have hdata1 : data = pre ++ (r.bytes ++ (jpg.concatSegments rs ++ tail)) := by
      rw [hdata, jpg.concatSegments, List.append_assoc]
    have hp := jpg.parseChunk_segment data pre _ r acc hdata1 hr
    have hst := jpg.storeImageData_not_SOS ⟨data, pre.length + r.bytes.length⟩ acc
      ⟨r.marker, (r.Len : Int), (pre.length : Int), (0, 0)⟩ hr.2.2.1
    have hnext : jpg.SegmentStart data ⟨⟨data, (pre ++ r.bytes).length⟩,
        acc ++ [⟨r.marker, (r.Len : Int), (pre.length : Int), (0, 0)⟩]⟩ := by
      rw [List.length_append]
      refine jpg.SegmentStart.next _ _ _ h hp hst
        ⟨⟨r.marker, (r.Len : Int), (pre.length : Int), (0, 0)⟩, ?_, hr.2.1⟩
      simp
    have hdata2 : data = (pre ++ r.bytes) ++ (jpg.concatSegments rs ++ tail) := by
      rw [hdata1, List.append_assoc]
    have := ih (pre ++ r.bytes) tail _ hdata2
      (fun q hq => hwf q (List.mem_cons_of_mem _ hq)) hnext
    simp only [List.length_append, List.append_assoc, List.singleton_append] at this
    simp only [jpg.concatSegments, jpg.segmentDescs, List.length_append]
    rw [← Nat.add_assoc]
    exact this

/-- SOI, a run of well-formed segments, then a byte that is not 0xFF: `Open` returns the
record with the descriptors of SOI and of every segment of the run, the cursor after the
byte, and the framing error. -/
theorem jpg.Open_segments_then_bad (segs : List jpg.RawSegment) (b : Nat) (rest : List Nat)
    (hwf : ∀ r ∈ segs, r.wf) (hb : b ≠ 0xff) :
    jpg.Open ([0xff, 0xd8] ++ (jpg.concatSegments segs ++ b :: rest)) =
      Outcome.ret (some ⟨⟨[0xff, 0xd8] ++ (jpg.concatSegments segs ++ b :: rest),
          2 + (jpg.concatSegments segs).length + 1⟩,
        ⟨jpg.SOI, 0, 0, (0, 0)⟩ :: jpg.segmentDescs 2 segs⟩, some Error.noFF) := by
  generalize hdata : [0xff, 0xd8] ++ (jpg.concatSegments segs ++ b :: rest) = data
  have hr := jpg.readChunkHeader_standalone data 0 0xd8 (by rw [← hdata]; simp)
    (by rw [← hdata]; simp) (Or.inl rfl)
  have hp : jpg.parseChunk ⟨⟨data, 0⟩, []⟩ =
      Outcome.ret (⟨⟨data, 2⟩, [⟨jpg.SOI, 0, 0, (0, 0)⟩]⟩, none) := by
    simp only [jpg.parseChunk, hr, jpg.skipChunk]
    simp
  have h0 : jpg.SegmentStart data ⟨⟨data, ([0xff, 0xd8] : List Nat).length⟩,
      [⟨jpg.SOI, 0, 0, (0, 0)⟩]⟩ :=
    jpg.SegmentStart.first _ hp ⟨_, rfl, rfl⟩
  have h1 := jpg.SegmentStart_segments data segs [0xff, 0xd8] (b :: rest) _ hdata.symm hwf h0
  have hbyte : data[2 + (jpg.concatSegments segs).length]? = some b := by
    have e1 := List.getElem?_append_at ([0xff, 0xd8] : List Nat)
      (jpg.concatSegments segs ++ b :: rest) (jpg.concatSegments segs).length
    have e2 := List.getElem?_append_at (jpg.concatSegments segs) (b :: rest) 0
    rw [Nat.add_zero] at e2
    rw [← hdata]
    exact e1.trans (e2.trans (by simp))
  have := jpg.Open_at_segment_start data _ b h1 hbyte hb
  simpa using this

/-- On an input that starts with SOI, `Open` does not return a nil record with the
framing error. -/
theorem jpg.Open_noFF_record (data : List Nat) (htake : data.take 2 = [0xff, 0xd8]) :
    jpg.Open data ≠ Outcome.ret (none, some Error.noFF) := by
  intro h
  obtain ⟨rest, hdata⟩ : ∃ rest, data = 0xff :: 0xd8 :: rest := by
    rcases data with _ | ⟨a, _ | ⟨b, rest⟩⟩
    · simp at htake
    · simp at htake
    · simp only [List.take_succ_cons, List.take_zero, List.cons.injEq, and_true] at htake
      exact ⟨rest, by rw [htake.1, htake.2]⟩
  subst hdata
  have hr := jpg.readChunkHeader_standalone (0xff :: 0xd8 :: rest) 0 0xd8 (by simp) (by simp)
    (Or.inl rfl)
  obtain ⟨k2, hp⟩ := jpg.parseChunk_of_header _ 0 2 [] _ hr (by omega) (Or.inl rfl)
  rw [jpg.Open, hp] at h
  simp only [List.nil_append, List.head?_cons, ne_eq, not_true_eq_false, if_false] at h
  obtain ⟨q, hq⟩ := jpg.OpenLoop_noFF_record _ _ none h
  cases hq

/-- C15, as the code has it.  For every input made of SOI, any run of well-formed
length-prefixed segments (markers other than SOI, EOI and SOS) and then a byte that is
not 0xFF where the next segment should start, `jpg.Open` returns the framing error
together with the record that holds the descriptor of SOI and of every segment of the
run, the cursor one byte after the offending byte.  More generally, whenever the segment
loop comes to start a top-level segment of the input, after SOS segments with their scans
and after length fields of any value, at a byte that is not 0xFF, `jpg.Open` returns the
framing error together with the record of the descriptors parsed before that segment.
And on no input that starts with SOI does `jpg.Open` return a nil record with the
framing error. -/
theorem jpg.Open_framing_error_returns_record :
    (∀ (segs : List jpg.RawSegment) (b : Nat) (rest : List Nat),
      (∀ r ∈ segs, r.wf) → b ≠ 0xff →
      jpg.Open ([0xff, 0xd8] ++ (jpg.concatSegments segs ++ b :: rest)) =
        Outcome.ret (some ⟨⟨[0xff, 0xd8] ++ (jpg.concatSegments segs ++ b :: rest),
            2 + (jpg.concatSegments segs).length + 1⟩,
          ⟨jpg.SOI, 0, 0, (0, 0)⟩ :: jpg.segmentDescs 2 segs⟩, some Error.noFF)) ∧
    (∀ (data : List Nat) (j : jpg.File) (b : Nat), jpg.SegmentStart data j →
      data[j.file.pos]? = some b → b ≠ 0xff →
      jpg.Open data =
        Outcome.ret (some ⟨⟨data, j.file.pos + 1⟩, j.Chunks⟩, some Error.noFF)) ∧
    (∀ (data : List Nat), data.take 2 = [0xff, 0xd8] →
      jpg.Open data ≠ Outcome.ret (none, some Error.noFF)) :=
  ⟨fun segs b rest hwf hb => jpg.Open_segments_then_bad segs b rest hwf hb,
   fun data j b h hb hne => jpg.Open_at_segment_start data j b h hb hne,
   fun data h => jpg.Open_noFF_record data h⟩

/-- Two inputs.  FF D8, APP0 with a payload of two bytes, COM without payload, then 0x00
where the fourth segment should start: the record holds the three descriptors.  And
FF D8, SOS with the scan byte 0x12, APP0 with the length field 1, which makes the next
segment start at the second length byte, 0x01: the record holds SOI, SOS with its scan
span and APP0. -/
theorem jpg.Open_framing_error_returns_record_witness :
    ((∀ r ∈ [(⟨0xe0, 0, 4, [0x4a, 0x46]⟩ : jpg.RawSegment), ⟨0xfe, 0, 2, []⟩], r.wf) ∧
      (0x00 : Nat) ≠ 0xff ∧
      jpg.Open [0xff, 0xd8, 0xff, 0xe0, 0x00, 0x04, 0x4a, 0x46, 0xff, 0xfe, 0x00, 0x02, 0x00,
          0xff, 0xd9] =
        Outcome.ret (some ⟨⟨[0xff, 0xd8, 0xff, 0xe0, 0x00, 0x04, 0x4a, 0x46, 0xff, 0xfe, 0x00,
            0x02, 0x00, 0xff, 0xd9], 13⟩,
          [⟨jpg.SOI, 0, 0, (0, 0)⟩, ⟨0xe0, 4, 2, (0, 0)⟩, ⟨0xfe, 2, 8, (0, 0)⟩]⟩,
          some Error.noFF)) ∧
    (jpg.SegmentStart [0xff, 0xd8, 0xff, 0xda, 0x00, 0x02, 0x12, 0xff, 0xe0, 0x00, 0x01]
        ⟨⟨[0xff, 0xd8, 0xff, 0xda, 0x00, 0x02, 0x12, 0xff, 0xe0, 0x00, 0x01], 10⟩,
          [⟨jpg.SOI, 0, 0, (0, 0)⟩, ⟨jpg.SOS, 2, 2, (6, 7)⟩, ⟨0xe0, 1, 7, (0, 0)⟩]⟩ ∧
      [0xff, 0xd8, 0xff, 0xda, 0x00, 0x02, 0x12, 0xff, 0xe0, 0x00, 0x01][10]? = some 0x01 ∧
      (0x01 : Nat) ≠ 0xff ∧
      jpg.Open [0xff, 0xd8, 0xff, 0xda, 0x00, 0x02, 0x12, 0xff, 0xe0, 0x00, 0x01] =
        Outcome.ret (some ⟨⟨[0xff, 0xd8, 0xff, 0xda, 0x00, 0x02, 0x12, 0xff, 0xe0, 0x00, 0x01],
            11⟩,
          [⟨jpg.SOI, 0, 0, (0, 0)⟩, ⟨jpg.SOS, 2, 2, (6, 7)⟩, ⟨0xe0, 1, 7, (0, 0)⟩]⟩,
          some Error.noFF)) ∧
    ([0xff, 0xd8, 0x00].take 2 = [0xff, 0xd8] ∧
      jpg.Open [0xff, 0xd8, 0x00] ≠ Outcome.ret (none, some Error.noFF)) := by
  have hwf : ∀ r ∈ [(⟨0xe0, 0, 4, [0x4a, 0x46]⟩ : jpg.RawSegment), ⟨0xfe, 0, 2, []⟩],
      r.wf := by
    intro r hr
    simp only [List.mem_cons, List.mem_singleton, List.not_mem_nil, or_false] at hr
    rcases hr with rfl | rfl
    · exact ⟨by decide, by decide, by decide, by decide⟩
    · exact ⟨by decide, by decide, by decide, by decide⟩
  have hs : jpg.SegmentStart
      [0xff, 0xd8, 0xff, 0xda, 0x00, 0x02, 0x12, 0xff, 0xe0, 0x00, 0x01]
      ⟨⟨[0xff, 0xd8, 0xff, 0xda, 0x00, 0x02, 0x12, 0xff, 0xe0, 0x00, 0x01], 10⟩,
        [⟨jpg.SOI, 0, 0, (0, 0)⟩, ⟨jpg.SOS, 2, 2, (6, 7)⟩, ⟨0xe0, 1, 7, (0, 0)⟩]⟩ := by
    have s1 : jpg.SegmentStart
        [0xff, 0xd8, 0xff, 0xda, 0x00, 0x02, 0x12, 0xff, 0xe0, 0x00, 0x01]
        ⟨⟨[0xff, 0xd8, 0xff, 0xda, 0x00, 0x02, 0x12, 0xff, 0xe0, 0x00, 0x01], 2⟩,
          [⟨jpg.SOI, 0, 0, (0, 0)⟩]⟩ :=
      jpg.SegmentStart.first _ (by decide) ⟨_, rfl, rfl⟩
    have s2 : jpg.SegmentStart
        [0xff, 0xd8, 0xff, 0xda, 0x00, 0x02, 0x12, 0xff, 0xe0, 0x00, 0x01]
        ⟨⟨[0xff, 0xd8, 0xff, 0xda, 0x00, 0x02, 0x12, 0xff, 0xe0, 0x00, 0x01], 7⟩,
          [⟨jpg.SOI, 0, 0, (0, 0)⟩, ⟨jpg.SOS, 2, 2, (6, 7)⟩]⟩ :=
      jpg.SegmentStart.next _
        ⟨⟨[0xff, 0xd8, 0xff, 0xda, 0x00, 0x02, 0x12, 0xff, 0xe0, 0x00, 0x01], 6⟩,
          [⟨jpg.SOI, 0, 0, (0, 0)⟩, ⟨jpg.SOS, 2, 2, (0, 0)⟩]⟩ _ s1 (by decide) (by decide)
        ⟨⟨jpg.SOS, 2, 2, (6, 7)⟩, rfl, by decide⟩
    exact jpg.SegmentStart.next _
      ⟨⟨[0xff, 0xd8, 0xff, 0xda, 0x00, 0x02, 0x12, 0xff, 0xe0, 0x00, 0x01], 10⟩,
        [⟨jpg.SOI, 0, 0, (0, 0)⟩, ⟨jpg.SOS, 2, 2, (6, 7)⟩, ⟨0xe0, 1, 7, (0, 0)⟩]⟩ _ s2
      (by decide) (by decide) ⟨⟨0xe0, 1, 7, (0, 0)⟩, rfl, by decide⟩
  exact ⟨⟨hwf, by decide,
      jpg.Open_framing_error_returns_record.1
        [⟨0xe0, 0, 4, [0x4a, 0x46]⟩, ⟨0xfe, 0, 2, []⟩] 0x00 [0xff, 0xd9] hwf (by decide)⟩,
    ⟨hs, by decide, by decide,
      jpg.Open_framing_error_returns_record.2.1 _ _ 0x01 hs (by decide) (by decide)⟩,
    ⟨by decide, jpg.Open_framing_error_returns_record.2.2 [0xff, 0xd8, 0x00] (by decide)⟩⟩

/-- C19 at the SOS descriptor of FF D8 FF DA 00 02 FF D9 (header of 4 bytes, empty scan
span) and a sink with room for one byte: the copy of the header fails with a short
write, the copy of the zero scan bytes returns nil, and `WriteTo` returns nil. -/
theorem jpg.WriteTo_masks_header_error :
    jpg.Open [0xff, 0xd8, 0xff, 0xda, 0x00, 0x02, 0xff, 0xd9] =
      Outcome.ret (some ⟨⟨[0xff, 0xd8, 0xff, 0xda, 0x00, 0x02, 0xff, 0xd9], 8⟩,
        [⟨jpg.SOI, 0, 0, (0, 0)⟩, ⟨jpg.SOS, 2, 2, (6, 6)⟩, ⟨jpg.EOI, 0, 6, (0, 0)⟩]⟩, none) ∧
    jpg.CopyFile ⟨[0xff, 0xd8, 0xff, 0xda, 0x00, 0x02, 0xff, 0xd9], 2⟩ ⟨[], some 1⟩ (2 + 2) =
      Outcome.ret (⟨[0xff, 0xd8, 0xff, 0xda, 0x00, 0x02, 0xff, 0xd9], 6⟩, ⟨[0xff], some 0⟩,
        some Error.ErrShortWrite) ∧
    jpg.WriteTo ⟨jpg.SOS, 2, 2, (6, 6)⟩ ⟨[0xff, 0xd8, 0xff, 0xda, 0x00, 0x02, 0xff, 0xd9], 8⟩
        ⟨[], some 1⟩ =
      Outcome.ret (⟨[0xff, 0xd8, 0xff, 0xda, 0x00, 0x02, 0xff, 0xd9], 6⟩, ⟨[0xff], some 0⟩,
        none) := by
  refine ⟨by decide, by decide, by decide⟩

/-- With one unit of fuel for every two bytes from the cursor on, and one more, the
segment loop does not run out of fuel. -/
theorem jpg.OpenLoop_returns :
    ∀ (fuel : Nat) (j : jpg.File), 0 < fuel → j.file.data.length < j.file.pos + 2 * fuel →
      jpg.OpenLoop fuel j ≠ Outcome.outOfFuel := by
  intro fuel
  induction fuel with
  | zero => intro j h; omega
  | succ fuel ih =>
    intro j _ hlt
    rw [jpg.OpenLoop]
    rcases hp : jpg.parseChunk j with ⟨j1, oe⟩ | _ | _
    · cases oe with
      | some e1 => simp
      | none =>
        simp only
        obtain ⟨hp1, hp2, hd1⟩ := jpg.parseChunk_progress j j1 hp
        rcases hst : jpg.storeImageData j1 with ⟨j2, oe2⟩ | _ | _
        · cases oe2 with
          | some e2 => simp
          | none =>
            simp only
            obtain ⟨hs1, hd2⟩ := jpg.storeImageData_pos j1 j2 hst
            cases hl : j2.Chunks.getLast? with
            | none => simp
            | some c =>
              simp only
              by_cases hc : c.Typ = jpg.EOI
              · simp only [hc, if_true, jpg.finish, OsFile.Seek_cur_zero, OsFile.Seek_end_zero]
                split <;> simp
              · simp only [hc, if_false]
                refine ih j2 (by omega) ?_
                rw [hd2, hd1]
                omega
        · simp
        · exact absurd hst (jpg.storeImageData_ne_outOfFuel j1)
    · simp
    · exact absurd hp (jpg.parseChunk_ne_outOfFuel j)

/-- The segment loop of `jpg.Open` does not run on for ever: given one iteration for
every two bytes from the cursor to the end of the file and one more, it comes to its end;
an iteration that goes on to the next one leaves the cursor at least 2 bytes further
than it found it, past two bytes that are in the file. -/
theorem jpg.Open_terminates (data : List Nat) :
    jpg.Open data ≠ Outcome.outOfFuel ∧
    (∀ (fuel : Nat) (j : jpg.File), j.file.data = data → 0 < fuel →
      data.length < j.file.pos + 2 * fuel → jpg.OpenLoop fuel j ≠ Outcome.outOfFuel) ∧
    (∀ j j1 j2 : jpg.File, j.file.data = data → jpg.parseChunk j = Outcome.ret (j1, none) →
      jpg.storeImageData j1 = Outcome.ret (j2, none) →
      j.file.pos + 2 ≤ j2.file.pos ∧ j.file.pos + 2 ≤ data.length) := by
  refine ⟨?_, ?_, ?_⟩
  · rw [jpg.Open]
    rcases hp : jpg.parseChunk ⟨⟨data, 0⟩, []⟩ with ⟨j1, oe⟩ | _ | _
    · cases oe with
      | some e1 => simp
      | none =>
        simp only
        obtain ⟨hp1, _, hd1⟩ := jpg.parseChunk_progress _ j1 hp
        cases hh : j1.Chunks.head? with
        | none => simp
        | some c0 =>
          simp only
          by_cases hs : c0.Typ = jpg.SOI
          · simp only [hs, ne_eq, not_true_eq_false, if_false]
            refine jpg.OpenLoop_returns _ j1 (by omega) ?_
            rw [hd1]
            simp only
            omega
          · simp [hs]
    · simp
    · exact absurd hp (jpg.parseChunk_ne_outOfFuel _)
  · intro fuel j hd hf hlt
    exact jpg.OpenLoop_returns fuel j hf (by rw [hd]; exact hlt)
  · intro j j1 j2 hd hp hst
    obtain ⟨hp1, hp2, _⟩ := jpg.parseChunk_progress j j1 hp
    obtain ⟨hs1, _⟩ := jpg.storeImageData_pos j1 j2 hst
    rw [← hd]
    exact ⟨by omega, hp2⟩

/-- The input FF D8 FF E0 00 01 FF D9: the length field 1 makes `skipChunk` seek by -1,
and the iteration still moves the cursor from 2 to 5. -/
theorem jpg.Open_terminates_witness :
    jpg.Open [0xff, 0xd8, 0xff, 0xe0, 0x00, 0x01, 0xff, 0xd9] ≠ Outcome.outOfFuel ∧
    jpg.parseChunk ⟨⟨[0xff, 0xd8, 0xff, 0xe0, 0x00, 0x01, 0xff, 0xd9], 2⟩,
        [⟨jpg.SOI, 0, 0, (0, 0)⟩]⟩ =
      Outcome.ret (⟨⟨[0xff, 0xd8, 0xff, 0xe0, 0x00, 0x01, 0xff, 0xd9], 5⟩,
        [⟨jpg.SOI, 0, 0, (0, 0)⟩, ⟨0xe0, 1, 2, (0, 0)⟩]⟩, none) ∧
    (2 + 2 ≤ 5 ∧ 2 + 2 ≤ [0xff, 0xd8, 0xff, 0xe0, 0x00, 0x01, 0xff, 0xd9].length) :=
  ⟨(jpg.Open_terminates [0xff, 0xd8, 0xff, 0xe0, 0x00, 0x01, 0xff, 0xd9]).1,
   by decide,
   (jpg.Open_terminates [0xff, 0xd8, 0xff, 0xe0, 0x00, 0x01, 0xff, 0xd9]).2.2
     ⟨⟨[0xff, 0xd8, 0xff, 0xe0, 0x00, 0x01, 0xff, 0xd9], 2⟩, [⟨jpg.SOI, 0, 0, (0, 0)⟩]⟩
     ⟨⟨[0xff, 0xd8, 0xff, 0xe0, 0x00, 0x01, 0xff, 0xd9], 5⟩,
        [⟨jpg.SOI, 0, 0, (0, 0)⟩, ⟨0xe0, 1, 2, (0, 0)⟩]⟩
     ⟨⟨[0xff, 0xd8, 0xff, 0xe0, 0x00, 0x01, 0xff, 0xd9], 5⟩,
        [⟨jpg.SOI, 0, 0, (0, 0)⟩, ⟨0xe0, 1, 2, (0, 0)⟩]⟩
     rfl (by decide) (by decide)⟩

/-- C20 at the input FF D8 FF E0 00, which ends inside the length field of its second
segment: the read of the two length bytes gets one byte and no error, `readChunkHeader`
returns a nil descriptor with a nil error, and the iteration of the segment loop that
started at offset 2 neither returns an error nor moves the cursor on: `parseChunk`
panics on the nil descriptor, and so does `jpg.Open`.  With the length field complete
(FF D8 FF E0 00 02 FF D9) the same iteration returns and moves the cursor from 2 to 6,
and `jpg.Open` returns the three descriptors. -/
theorem jpg.Open_truncated_length_panics :
    jpg.readChunkHeader ⟨[0xff, 0xd8, 0xff, 0xe0, 0x00], 2⟩ =
      (⟨[0xff, 0xd8, 0xff, 0xe0, 0x00], 5⟩, none, none) ∧
    jpg.parseChunk ⟨⟨[0xff, 0xd8, 0xff, 0xe0, 0x00], 2⟩, [⟨jpg.SOI, 0, 0, (0, 0)⟩]⟩ =
      Outcome.panic ∧
    jpg.OpenLoop 1 ⟨⟨[0xff, 0xd8, 0xff, 0xe0, 0x00], 2⟩, [⟨jpg.SOI, 0, 0, (0, 0)⟩]⟩ =
      Outcome.panic ∧
    jpg.Open [0xff, 0xd8, 0xff, 0xe0, 0x00] = Outcome.panic ∧
    jpg.parseChunk ⟨⟨[0xff, 0xd8, 0xff, 0xe0, 0x00, 0x02, 0xff, 0xd9], 2⟩,
        [⟨jpg.SOI, 0, 0, (0, 0)⟩]⟩ =
      Outcome.ret (⟨⟨[0xff, 0xd8, 0xff, 0xe0, 0x00, 0x02, 0xff, 0xd9], 6⟩,
        [⟨jpg.SOI, 0, 0, (0, 0)⟩, ⟨0xe0, 2, 2, (0, 0)⟩]⟩, none) ∧
    jpg.Open [0xff, 0xd8, 0xff, 0xe0, 0x00, 0x02, 0xff, 0xd9] =
      Outcome.ret (some ⟨⟨[0xff, 0xd8, 0xff, 0xe0, 0x00, 0x02, 0xff, 0xd9], 8⟩,
        [⟨jpg.SOI, 0, 0, (0, 0)⟩, ⟨0xe0, 2, 2, (0, 0)⟩, ⟨jpg.EOI, 0, 6, (0, 0)⟩]⟩, none) := by
  refine ⟨by decide, by decide, by decide, by decide, by decide, by decide⟩


/-! ## Marker names -/

theorem jpg.Marker_String_table :
    ∀ p ∈ jpg.markerConstants, jpg.Marker.String p.2 = Outcome.ret p.1 := by
  decide!

theorem jpg.markerConstants_values : jpg.markerConstants.map Prod.snd = List.range' 0xc0 63 := by
  decide!

/-- C16: for every marker constant declared in jpg.go, `Marker.String` returns the
identifier of the constant, sliced from `_Marker_name` by `_Marker_index` with every
index in range; the constants are the byte values 0xC0..0xFE. -/
theorem jpg.Marker_String_constants :
    (∀ p ∈ jpg.markerConstants, jpg.Marker.String p.2 = Outcome.ret p.1) ∧
    jpg.markerConstants.map Prod.snd = List.range' 0xc0 63 ∧
    ("DHT", 0xc4) ∈ jpg.markerConstants ∧ ("JPG", 0xc8) ∈ jpg.markerConstants ∧
    ("DAC", 0xcc) ∈ jpg.markerConstants ∧ ("COM", 0xfe) ∈ jpg.markerConstants :=
  ⟨jpg.Marker_String_table, jpg.markerConstants_values, by decide!, by decide!, by decide!,
    by decide!⟩

/-- The constant SOI, the ninth of the block that starts at 0xD0. -/
theorem jpg.Marker_String_constants_witness :
    jpg.Marker.String 0xd8 = Outcome.ret "SOI" :=
  jpg.Marker_String_constants.1 ("SOI", 0xd8) (by decide!)

theorem jpg.markerConstants_names_nodup : (jpg.markerConstants.map Prod.fst).Nodup := by
  decide!

theorem jpg.markerConstants_names_head :
    ∀ p ∈ jpg.markerConstants, p.1.data.head? ≠ some 'M' := by
  decide!

theorem jpg.decimalValue_FormatInt : ∀ m < 256, jpg.decimalValue (jpg.FormatInt m).data = m := by
  decide!

/-- The numeric fallback of `Marker.String`, for the bytes outside 0xC0..0xFE. -/
theorem jpg.Marker_String_fallback (m : Nat) (hm : m < 256) (h : m < 0xc0 ∨ 0xfe < m) :
    jpg.Marker.String m = Outcome.ret ("Marker(" ++ jpg.FormatInt m ++ ")") := by
  have hl : jpg._Marker_index.length = 64 := rfl
  have hi : (m + 256 - 192) % 256 ≥ jpg._Marker_index.length - 1 := by
    rw [hl]
    omega
  have hb : ((m + 256 - 192) % 256 + 192) % 256 = m := by omega
  simp only [jpg.Marker.String]
  rw [if_pos hi, hb]

theorem jpg.Marker_String_name (a : Nat) (h1 : 0xc0 ≤ a) (h2 : a ≤ 0xfe) :
    ∃ p ∈ jpg.markerConstants, p.2 = a ∧ jpg.Marker.String a = Outcome.ret p.1 := by
  have hmem : a ∈ jpg.markerConstants.map Prod.snd := by
    rw [jpg.markerConstants_values, List.mem_range']
    exact ⟨a - 0xc0, by omega, by omega⟩
  obtain ⟨p, hp, hpa⟩ := List.mem_map.1 hmem
  exact ⟨p, hp, hpa, by rw [← hpa]; exact jpg.Marker_String_table p hp⟩

/-- C17: `Marker.String` is injective on the 256 byte values, and every byte outside
0xC0..0xFE renders as "Marker(" followed by its decimal value and ")". -/
theorem jpg.Marker_String_injective :
    (∀ a < 256, ∀ b < 256, jpg.Marker.String a = jpg.Marker.String b → a = b) ∧
    (∀ m < 256, (m < 0xc0 ∨ 0xfe < m) →
      jpg.Marker.String m = Outcome.ret ("Marker(" ++ jpg.FormatInt m ++ ")")) := by
  refine ⟨?_, jpg.Marker_String_fallback⟩
  have hmix : ∀ a b, 0xc0 ≤ a → a ≤ 0xfe → b < 256 → (b < 0xc0 ∨ 0xfe < b) →
      jpg.Marker.String a ≠ jpg.Marker.String b := by
    intro a b h1 h2 hb hbo heq
    obtain ⟨p, hp, _, hs⟩ := jpg.Marker_String_name a h1 h2
    rw [hs, jpg.Marker_String_fallback b hb hbo] at heq
    have hd := congrArg String.data (Outcome.ret.inj heq)
    have hh := jpg.markerConstants_names_head p hp
    rw [hd] at hh
    simp only [String.data_append] at hh
    exact hh rfl
  intro a ha b hb heq
  by_cases hat : 0xc0 ≤ a ∧ a ≤ 0xfe
  · by_cases hbt : 0xc0 ≤ b ∧ b ≤ 0xfe
    · obtain ⟨p, hp, hpa, hs⟩ := jpg.Marker_String_name a hat.1 hat.2
      obtain ⟨q, hq, hqb, ht⟩ := jpg.Marker_String_name b hbt.1 hbt.2
      rw [hs, ht] at heq
      have hpq : p = q :=
        List.inj_on_of_nodup_map jpg.markerConstants_names_nodup hp hq (Outcome.ret.inj heq)
      rw [← hpa, ← hqb, hpq]
    · exact absurd heq (hmix a b hat.1 hat.2 hb (by omega))
  · by_cases hbt : 0xc0 ≤ b ∧ b ≤ 0xfe
    · exact absurd heq.symm (hmix b a hbt.1 hbt.2 ha (by omega))
    · rw [jpg.Marker_String_fallback a ha (by omega),
        jpg.Marker_String_fallback b hb (by omega)] at heq
      have hd := congrArg String.data (Outcome.ret.inj heq)
      simp only [String.data_append, List.append_cancel_right_eq, List.append_cancel_left_eq]
        at hd
      have := congrArg jpg.decimalValue hd
      rw [jpg.decimalValue_FormatInt a ha, jpg.decimalValue_FormatInt b hb] at this
      exact this

/-- The bytes 0x03 and 0xFF render as their decimal values and differ from each other. -/
theorem jpg.Marker_String_injective_witness :
    jpg.Marker.String 0x03 = Outcome.ret ("Marker(" ++ jpg.FormatInt 0x03 ++ ")") ∧
    jpg.Marker.String 0xff = Outcome.ret ("Marker(" ++ jpg.FormatInt 0xff ++ ")") ∧
    (jpg.Marker.String 0x03 = jpg.Marker.String 0xff → 0x03 = 0xff) :=
  ⟨jpg.Marker_String_injective.2 0x03 (by decide) (Or.inl (by decide)),
   jpg.Marker_String_injective.2 0xff (by decide) (Or.inr (by decide)),
   jpg.Marker_String_injective.1 0x03 (by decide) 0xff (by decide)⟩
